import Mathlib

/-!
# adoconverter: a verification development

A shallow embedding of `adoconverter.js` together with theorems about path
mapping, link retargeting, extension dispatch, the relative stylesheet
reference and the rendering configuration.

* JavaScript strings are lists of UTF-16 code units (`Str`), written as
  numbers; `utf16` gives the code units of a literal. Every operation used by
  the program works position by position on such lists.
* `String.prototype.replace` is embedded with its replacement patterns
  (`GetSubstitution`), both for a string pattern (`getOutputPath`) and for the
  two regular expressions of the program, each with its own matcher.
* The functions of Node's `path` module are those of `path.posix`: `basename`,
  `extname` and `dirname` scan the characters from the end as Node does;
  `normalize`, `join`, `resolve` and `relative` work on the components between
  slashes. The working directory is a parameter `cwd`.
* `glob`, the file system and the rendering engine are outside the program:
  the list of matched files, the file reader and the engine are parameters. A
  run of `main` is the list of its calls in order; which calls throw is a
  parameter too, and the first call that throws ends the run.
* Objects live on a heap of property lists, so that cloning and assignment can
  be told apart; `Object.assign` sets properties one by one, and setting
  `__proto__` on a plain object creates no own property.
-/

namespace AdoConverter

/-- A JavaScript string: the list of its UTF-16 code units. -/
abbrev Str := List Nat

/-- The UTF-16 code units of a character: itself in the basic plane, a high and
a low surrogate above it. -/
def encodeChar (c : Char) : Str :=
  if c.toNat < 65536 then [c.toNat]
  else [55296 + (c.toNat - 65536) / 1024, 56320 + (c.toNat - 65536) % 1024]

/-- The UTF-16 code units of a list of characters. -/
def encodeChars : List Char → Str
  | [] => []
  | c :: t => encodeChar c ++ encodeChars t

/-- The JavaScript string written as the literal `s`. -/
def utf16 (s : String) : Str := encodeChars s.toList

/-- Whether a code unit is a decimal digit `0` to `9`. -/
def isDigit (c : Nat) : Bool := decide (48 ≤ c) && decide (c ≤ 57)

/-! ## `String.prototype.replace` with a string pattern -/

/-- The code unit of `$`, which introduces a replacement pattern. -/
def dollar : Nat := 36 -- $

/-- The code unit of `&` (`$&` inserts the matched text). -/
def ampersand : Nat := 38 -- &

/-- The grave accent: `$` followed by it inserts the text before the match. -/
def graveAccent : Nat := 96

/-- The apostrophe: `$` followed by it inserts the text after the match. -/
def apostropheChar : Nat := 39

/-- The code unit of the double quote. -/
def dquote : Nat := 34

/-- The code unit of the backslash. -/
def backslash : Nat := 92

/-- Value of a decimal digit. -/
def digitVal (c : Nat) : Nat := c - 48

/-- `GetSubstitution` of ECMA-262 with `namedCaptures` undefined: expands the
replacement template, given the matched text, the text before and after the
match, and the list of captures. -/
def getSubstitution (matched pre post : Str) (caps : List Str) : Str → Str
  | [] => []
  | [c] => [c]
  | [c, d] =>
    if c = dollar then
      if d = dollar then [dollar]
      else if d = ampersand then matched
      else if d = graveAccent then pre
      else if d = apostropheChar then post
      else if isDigit d ∧ 1 ≤ digitVal d ∧ digitVal d ≤ caps.length then
        caps.getD (digitVal d - 1) []
      else [c, d]
    else c :: getSubstitution matched pre post caps [d]
  | c :: d :: e :: rest =>
    if c = dollar then
      if d = dollar then dollar :: getSubstitution matched pre post caps (e :: rest)
      else if d = ampersand then matched ++ getSubstitution matched pre post caps (e :: rest)
      else if d = graveAccent then pre ++ getSubstitution matched pre post caps (e :: rest)
      else if d = apostropheChar then post ++ getSubstitution matched pre post caps (e :: rest)
      else if isDigit d then
        if isDigit e ∧ 10 * digitVal d + digitVal e ≤ caps.length then
          if 1 ≤ 10 * digitVal d + digitVal e then
            caps.getD (10 * digitVal d + digitVal e - 1) []
              ++ getSubstitution matched pre post caps rest
          else c :: d :: e :: getSubstitution matched pre post caps rest
        else if 1 ≤ digitVal d ∧ digitVal d ≤ caps.length then
          caps.getD (digitVal d - 1) [] ++ getSubstitution matched pre post caps (e :: rest)
        else c :: d :: getSubstitution matched pre post caps (e :: rest)
      else c :: getSubstitution matched pre post caps (d :: e :: rest)
    else c :: getSubstitution matched pre post caps (d :: e :: rest)

/-- Splits a string at the first (leftmost) occurrence of `pat`
(`StringIndexOf` from position 0): the text before and the text after it. -/
def splitAtFirst (pat : Str) : Str → Option (Str × Str)
  | [] => if pat = [] then some ([], []) else none
  | c :: t =>
    if pat.isPrefixOf (c :: t) then some ([], (c :: t).drop pat.length)
    else (splitAtFirst pat t).map (fun r => (c :: r.1, r.2))

/-- `s.replace(pat, repl)` for a string pattern `pat`: the first occurrence
of `pat` is replaced by the expansion of the template `repl`; without an
occurrence the string is returned unchanged. -/
def replaceString (s pat repl : Str) : Str :=
  match splitAtFirst pat s with
  | none => s
  | some (pre, post) => pre ++ getSubstitution pat pre post [] repl ++ post

/-! ## Path mapper -/

/-- `getOutputPath(sourcePath, sourceBase, targetBase)`:
`sourcePath.replace(sourceBase, targetBase)`. -/
def getOutputPath (sourcePath sourceBase targetBase : Str) : Str :=
  replaceString sourcePath sourceBase targetBase


/-! ## Link retargeting: `rawHtml.replace(regexAdoc2Html, 'href="$1.html"')` -/

/-- The literal text `href="` that opens `regexAdoc2Html`. -/
def hrefOpen : Str := [104, 114, 101, 102, 61, dquote] -- h r e f = "

/-- The literal text `.adoc"` that closes `regexAdoc2Html`. -/
def adocClose : Str := [46, 97, 100, 111, 99, dquote] -- . a d o c "

/-- The replacement template `href="$1.html"` of `adocToHtml`. -/
def htmlTemplate : Str :=
  -- h r e f = " $ 1 . h t m l "
  [104, 114, 101, 102, 61, dquote, 36, 49, 46, 104, 116, 109, 108, dquote]

/-- The part `([^"]*)\.adoc"` of `regexAdoc2Html`, matched at the head of the
input. The star is greedy and backtracks: it first tries to take one more
character that is not a double quote, and only when the rest of the pattern
then fails does it try `\.adoc"` at the current position. Returns the capture
and the text after the match. -/
def matchStarClose : Str → Option (Str × Str)
  | [] => if adocClose.isPrefixOf [] then some ([], []) else none
  | c :: t =>
    if c ≠ dquote then
      match matchStarClose t with
      | some (cap, rest) => some (c :: cap, rest)
      | none =>
        if adocClose.isPrefixOf (c :: t) then some ([], (c :: t).drop adocClose.length) else none
    else
      if adocClose.isPrefixOf (c :: t) then some ([], (c :: t).drop adocClose.length) else none

/-- A match of `regexAdoc2Html` anchored at the head of the input: the capture
of group 1 and the text after the match. -/
def matchAt (s : Str) : Option (Str × Str) :=
  if hrefOpen.isPrefixOf s then matchStarClose (s.drop hrefOpen.length) else none

/-- The global replace loop over `regexAdoc2Html`. `pre` is the input already
passed (reversed), `skip` the number of characters left before `lastIndex`
(the end of the last match). At every other position the regex is tried;
on a match the expanded template is emitted and scanning resumes after it. -/
def replaceLinksFrom (template : Str) : Str → Nat → Str → Str
  | _, _, [] => []
  | pre, skip + 1, c :: t => replaceLinksFrom template (c :: pre) skip t
  | pre, 0, c :: t =>
    match matchAt (c :: t) with
    | some (cap, rest) =>
      getSubstitution (hrefOpen ++ cap ++ adocClose) pre.reverse rest [cap] template
        ++ replaceLinksFrom template (c :: pre) ((c :: t).length - rest.length - 1) t
    | none => c :: replaceLinksFrom template (c :: pre) 0 t

/-- `rawHtml.replace(regexAdoc2Html, 'href="$1.html"')`, the post-processing
step of `adocToHtml`. -/
def retargetLinks (rawHtml : Str) : Str :=
  replaceLinksFrom htmlTemplate [] 0 rawHtml

/-! ## Node's `path.posix`: the last component of a path -/

/-- The path separator `/`. -/
def sep : Nat := 47 -- /

/-- The last component of a path: trailing slashes are skipped, then the
characters back to the previous slash (or to the start) are taken. This is the
scan from the end of the string shared by `path.posix.basename` and
`path.posix.extname`. -/
def lastPart (path : Str) : Str :=
  ((path.reverse.dropWhile (fun c => c = sep)).takeWhile (fun c => c ≠ sep)).reverse

/-- `path.posix.basename(path)` (without suffix argument). -/
def basename (path : Str) : Str := lastPart path

/-- `path.posix.extname(path)`: the text from the last dot of the last
component to its end; empty when there is no dot, when the last dot is the
first character of the component (`preDotState === 0`), and when the component
is exactly `..`. -/
def extname (path : Str) : Str :=
  let rev := (lastPart path).reverse
  let afterDot := rev.takeWhile (fun c => c ≠ 46) -- 46 is the dot
  match rev.dropWhile (fun c => c ≠ 46) with
  | [] => []
  | _ :: beforeDot =>
    if beforeDot = [] then []
    else if afterDot = [] ∧ beforeDot = [46] then []
    else 46 :: afterDot.reverse

/-! ## Node's `path.posix`: normalisation, `join`, `dirname`, `resolve`, `relative` -/

/-- The components of a path: the pieces between slashes (empty pieces kept). -/
def splitOnSep : Str → List Str
  | [] => [[]]
  | c :: t =>
    if c = sep then [] :: splitOnSep t
    else match splitOnSep t with
      | [] => [[c]]
      | seg :: segs => (c :: seg) :: segs

/-- Components joined with a slash between them. -/
def joinSegs : List Str → Str
  | [] => []
  | [seg] => seg
  | seg :: more => seg ++ sep :: joinSegs more

/-- The component `.`. -/
def dot : Str := [46] -- .

/-- The component `..`. -/
def dotdot : Str := [46, 46] -- . .

/-- One step of `normalizeString` at a separator. `stack` holds the components
of `res`, last one first. Empty and `.` components are dropped; `..` removes
the last component of `res` unless `res` is empty or ends in `..`, in which
case `..` is appended when `allowAboveRoot` holds; any other component is
appended. -/
def normStep (allowAboveRoot : Bool) (stack : List Str) (seg : Str) : List Str :=
  if seg = [] ∨ seg = dot then stack
  else if seg = dotdot then
    match stack with
    | [] => if allowAboveRoot then [dotdot] else []
    | top :: below =>
      if top = dotdot then (if allowAboveRoot then dotdot :: stack else stack) else below
  else seg :: stack

/-- The components of `normalizeString(path, allowAboveRoot, '/')`, last one
first. -/
def normStack (allowAboveRoot : Bool) (path : Str) : List Str :=
  (splitOnSep path).foldl (normStep allowAboveRoot) []

/-- The components of `normalizeString(path, allowAboveRoot, '/')` in order. -/
def normSegments (allowAboveRoot : Bool) (path : Str) : List Str :=
  (normStack allowAboveRoot path).reverse

/-- `normalizeString(path, allowAboveRoot, '/', isPosixPathSeparator)`. -/
def normalizeString (path : Str) (allowAboveRoot : Bool) : Str :=
  joinSegs (normSegments allowAboveRoot path)

/-- Whether the first character of a path is a slash. -/
def isAbsolute (path : Str) : Bool := path.head? = some sep

/-- Whether the last character of a path is a slash. -/
def hasTrailingSep (path : Str) : Bool := path.getLast? = some sep

/-- `path.posix.normalize(path)`. -/
def normalize (path : Str) : Str :=
  if path = [] then [46] -- the path `.`
  else
    let norm := normalizeString path (!isAbsolute path)
    if norm = [] then
      -- `/`, `./` or `.`
      if isAbsolute path then [47] else if hasTrailingSep path then [46, 47] else [46]
    else
      (if isAbsolute path then [47] else []) ++ norm
        ++ (if hasTrailingSep path then [47] else [])

/-- `path.posix.join(...args)`: the non-empty arguments joined with slashes,
normalised; `.` when there is none. -/
def join (args : List Str) : Str :=
  match args.filter (fun a => a ≠ []) with
  | [] => [46] -- the path `.`
  | parts => normalize (joinSegs parts)

/-- `path.posix.dirname(path)`. The loop runs from the last index down to 1:
it skips trailing slashes and the last component and stops at the slash before
it, at index `end`; `before` holds the characters at indices 1 to `end - 1`. -/
def dirname (path : Str) : Str :=
  match path with
  | [] => [46] -- the path `.`
  | c :: t =>
    match (t.reverse.dropWhile (fun x => x = sep)).dropWhile (fun x => x ≠ sep) with
    | [] => if c = sep then [47] else [46] -- `/` or `.`
    | _ :: before =>
      -- `//` when `hasRoot && end === 1`
      if c = sep ∧ before = [] then [47, 47] else c :: before.reverse

/-- The loop of `path.posix.resolve` over the arguments from right to left,
followed by the working directory: each non-empty path is put in front of the
result with a slash, until an absolute one is met. -/
def resolveLoop : List Str → Str → Str × Bool
  | [], acc => (acc, false)
  | path :: more, acc =>
    if path = [] then resolveLoop more acc
    else if isAbsolute path then (path ++ sep :: acc, true)
    else resolveLoop more (path ++ sep :: acc)

/-- `path.posix.resolve(path)` in the working directory `cwd`. -/
def resolve (cwd path : Str) : Str :=
  let r := resolveLoop [path, cwd] []
  let norm := normalizeString r.1 (!r.2)
  if r.2 then sep :: norm else if norm ≠ [] then norm else [46] -- the path `.`

/-- The length of the longest common prefix of two lists of components. -/
def commonPrefixLength : List Str → List Str → Nat
  | a :: as, b :: bs => if a = b then commonPrefixLength as bs + 1 else 0
  | _, _ => 0

/-- `path.posix.relative(from, to)` in the working directory `cwd` (an absolute
path): both paths are resolved; past their common leading components the
result has one `..` for each remaining component of `from`, followed by the
remaining components of `to`. -/
def relative (cwd pathFrom pathTo : Str) : Str :=
  if pathFrom = pathTo then []
  else
    let absFrom := resolve cwd pathFrom
    let absTo := resolve cwd pathTo
    if absFrom = absTo then []
    else
      let fromSegs := (splitOnSep absFrom).filter (fun seg => seg ≠ [])
      let toSegs := (splitOnSep absTo).filter (fun seg => seg ≠ [])
      let k := commonPrefixLength fromSegs toSegs
      joinSegs (List.replicate (fromSegs.length - k) dotdot ++ toSegs.drop k)

/-! ## Relative reference resolver and path normaliser of the program -/

/-- `getRelativeCssFile(targetFile, cssFile)`:
`path.join(path.relative(path.dirname(targetFile), path.dirname(cssFile)),
path.basename(cssFile))`. -/
def getRelativeCssFile (cwd targetFile cssFile : Str) : Str :=
  join [relative cwd (dirname targetFile) (dirname cssFile), basename cssFile]

/-- `normalizePath(inputPath)`: `path.normalize(inputPath).replace(/\\/g, '/')`. -/
def normalizePath (inputPath : Str) : Str :=
  (normalize inputPath).map (fun c => if c = backslash then sep else c)

/-- `getTargetCss(targetPath, css)`: `path.join(targetPath, css)` when `css` is
truthy (given and not empty), `null` otherwise. -/
def getTargetCss (targetPath : Str) (css : Option Str) : Option Str :=
  match css with
  | none => none
  | some c => if c ≠ [] then some (join [targetPath, c]) else none

/-! ## The dispatcher `main` -/

/-- The extension `.adoc` tested by `main`. -/
def adocExt : Str := [46, 97, 100, 111, 99] -- . a d o c

/-- Line terminators (LF, CR, LS, PS), which the regex atom `.` does not match. -/
def isLineTerminator (c : Nat) : Bool :=
  c = 10 || c = 13 || c = 8232 || c = 8233 -- U+000A, U+000D, U+2028, U+2029

/-- `targetFilePath.replace(/.adoc$/, ".html")`: the regex is tried at every
position from the left; it matches where one code unit other than a line
terminator (the dot is not escaped) is followed by `adoc` and the end of the
string. The match is replaced by `.html` (a template without `$`). -/
def replaceAdocSuffix : Str → Str
  | [] => []
  | c :: t =>
    -- `a d o c` follows and ends the string: the match is replaced by `. h t m l`
    if isLineTerminator c = false ∧ t = [97, 100, 111, 99] then [46, 104, 116, 109, 108]
    else c :: replaceAdocSuffix t

/-- The observable actions of a run of `main`, in order. -/
inductive Effect where
  /-- A progress notice, `console.log(msg)`. -/
  | log (msg : Str)
  /-- A call `adocToHtml(sourceFile, targetFile, targetCss)`. -/
  | adocToHtml (sourceFile targetFile : Str) (targetCss : Option Str)
  /-- A call `copyFile(sourceFilePath, targetFilePath)`. -/
  | copyFile (sourceFilePath targetFilePath : Str)
  deriving DecidableEq, Repr

/-- The call made for a matched file in the body of the loop of `main`:
`adocToHtml(currentFile, targetFilePath.replace(/.adoc$/, ".html"), targetCss)`
when `path.extname(path.basename(currentFile)) === ".adoc"`, and
`copyFile(currentFile, targetFilePath)` otherwise. -/
def fileAction (sourcePath targetPath : Str) (targetCss : Option Str) (currentFile : Str) :
    Effect :=
  let sourceFilename := basename currentFile
  let targetFilePath := getOutputPath currentFile sourcePath targetPath
  if extname sourceFilename = adocExt then
    Effect.adocToHtml currentFile (replaceAdocSuffix targetFilePath) targetCss
  else Effect.copyFile currentFile targetFilePath

/-- What a run of `main` leaves behind: its calls in order, and whether the
loop reached the end of the file list. -/
structure Run where
  /-- The calls made, in order; a call that throws is the last one. -/
  effects : List Effect
  /-- Whether every file was processed; `false` when a call threw. -/
  completed : Bool
  deriving DecidableEq, Repr

/-- The `for` loop of `main` over the files returned by `glob`, from index `i`
to the end. `throws i call` tells whether the call made for the file at index
`i` throws (a file system or rendering error); the loop catches nothing, so
the first call that throws ends the run and no later file is processed. -/
def mainLoop (sourcePath targetPath : Str) (targetCss : Option Str) (silent : Bool)
    (throws : Nat → Effect → Bool) : Nat → List Str → Run
  | _, [] => { effects := [], completed := true }
  | i, currentFile :: files =>
    let notice :=
      if silent = false then [Effect.log ((utf16 "Running on -> ") ++ currentFile)] else []
    let call := fileAction sourcePath targetPath targetCss currentFile
    if throws i call then { effects := notice ++ [call], completed := false }
    else
      let rest := mainLoop sourcePath targetPath targetCss silent throws (i + 1) files
      { effects := notice ++ call :: rest.effects, completed := rest.completed }

/-- `main(sourcePath, targetPath, targetCss, silent, pattern, ignore)`, with
the result `files` of the external `glob(sourcePath + pattern, ...)` call and
the calls that throw given. -/
def main (sourcePath targetPath : Str) (targetCss : Option Str) (silent : Bool)
    (throws : Nat → Effect → Bool) (files : List Str) : Run :=
  mainLoop sourcePath targetPath targetCss silent throws 0 files

/-- Whether an effect is a file action (a conversion or a copy). -/
def Effect.isFileAction : Effect → Bool
  | .log _ => false
  | .adocToHtml _ _ _ => true
  | .copyFile _ _ => true

/-- The file actions of a run, in order. -/
def fileActions (effects : List Effect) : List Effect :=
  effects.filter Effect.isFileAction

/-- The path `main` writes for a matched file: the target passed to
`adocToHtml` for a file with extension `.adoc`, and the one passed to
`copyFile` otherwise. -/
def writtenPath (sourcePath targetPath currentFile : Str) : Str :=
  if extname (basename currentFile) = adocExt then
    replaceAdocSuffix (getOutputPath currentFile sourcePath targetPath)
  else getOutputPath currentFile sourcePath targetPath


/-! ## The rendering configuration and `adocToHtml` -/

/-- The values held by the rendering options: booleans and strings. -/
inductive Value where
  /-- A boolean. -/
  | bool (b : Bool)
  /-- A string. -/
  | str (s : Str)
  deriving DecidableEq, Repr

/-- A JavaScript object: its own properties in insertion order. -/
abbrev Obj := List (Str × Value)

/-- The own property `obj[key]`, if the object has it. -/
def getProp : Obj → Str → Option Value
  | [], _ => none
  | (k, v) :: rest, key => if k = key then some v else getProp rest key

/-- The property name `__proto__`. -/
def protoKey : Str := utf16 "__proto__"

/-- `obj[key] = v` on an ordinary object: an own property is overwritten in
place and a new one is added at the end, except that for the key `__proto__`
without an own property the assignment reaches the setter of
`Object.prototype`, which ignores a boolean or a string: no property is
added. -/
def setProp : Obj → Str → Value → Obj
  | [], key, v => if key = protoKey then [] else [(key, v)]
  | (k, w) :: rest, key, v =>
    if k = key then (k, v) :: rest else (k, w) :: setProp rest key v

/-- `Object.assign(target, source)`: every own property of `source` is
assigned on `target`, in order. -/
def objectAssign (target source : Obj) : Obj :=
  source.foldl (fun t kv => setProp t kv.1 kv.2) target

/-- The heap of objects; a reference is an index into it. -/
abbrev Heap := List Obj

/-- The object a reference points to. -/
def readRef (heap : Heap) (ref : Nat) : Obj := heap.getD ref []

/-- Allocation of a new object: the new heap and the reference to the object. -/
def allocObj (heap : Heap) (o : Obj) : Heap × Nat := (heap ++ [o], heap.length)

/-- `ref[key] = v` on the heap. -/
def setRefProp (heap : Heap) (ref : Nat) (key : Str) (v : Value) : Heap :=
  heap.set ref (setProp (readRef heap ref) key v)

/-- The property name `attributes`. -/
def attributesKey : Str := utf16 "attributes"

/-- The text `linkcss stylesheet=` put in front of the relative reference. -/
def linkcssDirective : Str := utf16 "linkcss stylesheet="

/-- The base options `adoc_params` of `config/service.js`. -/
def baseAdocParams : Obj :=
  [(utf16 "showTitle", Value.bool true),
   (utf16 "showNumberedHeadings", Value.bool true),
   (utf16 "showToc", Value.bool true),
   (utf16 "safeMode", Value.str (utf16 "unsafe")),
   (utf16 "header_footer", Value.bool true),
   (utf16 "doctype", Value.str (utf16 "help-article")),
   (utf16 "backend", Value.str (utf16 "html5")),
   (utf16 "mkdirs", Value.bool true)]

/-- What a call of `adocToHtml` leaves behind: the heap, the options object
passed to `adoc.convert`, and the text and path given to `saveFile`. -/
structure Conversion where
  /-- The heap after the call. -/
  heap : Heap
  /-- The options passed to the rendering engine. -/
  options : Obj
  /-- The text written. -/
  html : Str
  /-- The path written. -/
  targetFile : Str

/-- `adocToHtml(sourceFile, targetFile, targetCss)`. `adocParams` is the
reference held by `config.adoc_params`; the rendering engine `convert`, the
file reader `readFileSync` and the working directory `cwd` are given.
`if (targetCss)` holds for a string that is not empty and fails for `null` and
for the empty string. -/
def adocToHtml (convert : Str → Obj → Str) (readFileSync : Str → Str) (cwd : Str)
    (heap : Heap) (adocParams : Nat) (sourceFile targetFile : Str)
    (targetCss : Option Str) : Conversion :=
  let fresh := allocObj heap (objectAssign [] (readRef heap adocParams))
  let options := fresh.2
  let heap2 :=
    match targetCss with
    | some css =>
      if css ≠ [] then
        setRefProp fresh.1 options attributesKey
          (Value.str (linkcssDirective ++ getRelativeCssFile cwd targetFile css))
      else fresh.1
    | none => fresh.1
  let sourceContent := readFileSync sourceFile
  let rawHtml := convert sourceContent (readRef heap2 options)
  let html := retargetLinks rawHtml
  { heap := heap2, options := readRef heap2 options, html := html, targetFile := targetFile }

/-! ## Notions used in the statements and proofs -/

/-- The text `.html"` written by the replacement template after the capture. -/
def htmlClose : Str := [46, 104, 116, 109, 108, dquote] -- . h t m l "

/-- A string is free of matches when `regexAdoc2Html` matches at none of its
positions. -/
def NoMatch (s : Str) : Prop := ∀ t : Str, t <:+ s → matchAt t = none

/-- The text `t0 ++ href="x1<ext> ++ t1 ++ ... ++ href="xN<ext> ++ tN` for the
list of pairs `(xi, ti)`, where `ext` is the closing text of each link
(`.adoc"` or `.html"`). -/
def linkedText (ext : Str) : Str → List (Str × Str) → Str
  | t0, [] => t0
  | t0, (x, t) :: more => t0 ++ hrefOpen ++ x ++ ext ++ linkedText ext t more

/-- Every component on a stack is non-empty and different from `.`. -/
def GoodStack (st : List Str) : Prop := ∀ seg ∈ st, seg ≠ [] ∧ seg ≠ dot

/-- Every component of a list is an ordinary name: non-empty and neither `.`
nor `..`. -/
def PlainSegs (segs : List Str) : Prop := ∀ seg ∈ segs, seg ≠ [] ∧ seg ≠ dot ∧ seg ≠ dotdot

/-- The path `normalize` builds from the components of `normalizeString` (last
one first), given whether the input was absolute and ended in a slash. -/
def buildPath (absolute : Bool) (stack : List Str) (trailing : Bool) : Str :=
  if joinSegs stack.reverse = [] then
    if absolute then [47] else if trailing then [46, 47] else [46]
  else
    (if absolute then [47] else []) ++ joinSegs stack.reverse
      ++ (if trailing then [47] else [])

/-- Every character of a list is a slash. -/
def AllSep (ss : Str) : Prop := ∀ x ∈ ss, x = sep

/-- The components (last one first) of `resolve(path)` for a non-empty `path`
in an absolute working directory: those of `path` when it is absolute, and
otherwise those of `path` processed on top of the working directory's. -/
def resolvedStack (cwd path : Str) : List Str :=
  if isAbsolute path then normStack false path
  else (splitOnSep path).foldl (normStep false) (normStack false cwd)

/-- The components of `relative`: one `..` for each component of `from` past
the common leading part, then the components of `to` past it. -/
def relSegs (fromSegs toSegs : List Str) : List Str :=
  List.replicate (fromSegs.length - commonPrefixLength fromSegs toSegs) dotdot
    ++ toSegs.drop (commonPrefixLength fromSegs toSegs)

/-- The number of levels a relative path climbs above the directory it starts
from: the number of `..` components that `normalizeString` keeps. -/
def climb (path : Str) : Nat := (normSegments true path).count dotdot

/-- The climbs of the directories of two relative paths `O` and `C` agree in
the working directory `cwd`: both directories climb equally many levels above
it; or the directory of `C` climbs more levels, `b` of them, the working
directory is at least `b` levels deep, and after its climb the directory of
`C` does not go back down into the directory it left last (the component of
the working directory at depth `n - b`, counted from 0). -/
def ClimbsAgree (cwd O C : Str) : Prop :=
  climb (dirname O) = climb (dirname C) ∨
  (climb (dirname O) < climb (dirname C) ∧
    climb (dirname C) ≤ (normSegments false cwd).length ∧
    ((normSegments true (dirname C)).drop (climb (dirname C))).head?
      ≠ (normSegments false cwd)[(normSegments false cwd).length - climb (dirname C)]?)

/-! # Theorems -/

/-! ## Path mapper: first-occurrence replacement -/

theorem getSubstitution_of_no_dollar (matched pre post : Str) (caps : List Str) :
    ∀ repl : Str, dollar ∉ repl → getSubstitution matched pre post caps repl = repl
  | [], _ => rfl
  | [c], _ => rfl
  | [c, d], h => by
    have hc : c ≠ dollar := fun e => h (by simp [e])
    simp [getSubstitution, hc]
  | c :: d :: e :: rest, h => by
    have hc : c ≠ dollar := fun e => h (by simp [e])
    have ih := getSubstitution_of_no_dollar matched pre post caps (d :: e :: rest)
      (fun hm => h (List.mem_cons_of_mem _ hm))
    simp only [getSubstitution, hc, if_false, ih]

theorem splitAtFirst_some (pat : Str) : ∀ (s a b : Str), splitAtFirst pat s = some (a, b) →
    s = a ++ pat ++ b ∧ ∀ a2 b2 : Str, s = a2 ++ pat ++ b2 → a.length ≤ a2.length
  | [], a, b, h => by
    unfold splitAtFirst at h
    split at h
    · rename_i hp
      simp at h
      obtain ⟨rfl, rfl⟩ := h
      simp [hp]
    · simp at h
  | c :: t, a, b, h => by
    unfold splitAtFirst at h
    split at h
    · rename_i hp
      simp only [Option.some.injEq, Prod.mk.injEq] at h
      obtain ⟨rfl, rfl⟩ := h
      rw [List.isPrefixOf_iff_prefix] at hp
      obtain ⟨r, hr⟩ := hp
      refine ⟨?_, fun _ _ _ => Nat.zero_le _⟩
      rw [← hr]; simp
    · rename_i hp
      rw [List.isPrefixOf_iff_prefix] at hp
      cases hs : splitAtFirst pat t with
      | none => simp [hs] at h
      | some r =>
        obtain ⟨a1, b1⟩ := r
        simp only [hs, Option.map_some', Option.some.injEq, Prod.mk.injEq] at h
        obtain ⟨rfl, rfl⟩ := h
        obtain ⟨h1, h2⟩ := splitAtFirst_some pat t a1 b1 hs
        refine ⟨by rw [h1]; simp, ?_⟩
        intro a2 b2 e
        cases a2 with
        | nil => exact absurd ⟨b2, by simpa using e.symm⟩ hp
        | cons x a3 =>
          simp only [List.cons_append, List.cons.injEq] at e
          have := h2 a3 b2 (by simpa using e.2)
          simp; omega

theorem splitAtFirst_none (pat : Str) : ∀ s : Str, splitAtFirst pat s = none → ¬ pat <:+: s
  | [], h => by
    unfold splitAtFirst at h
    split at h
    · simp at h
    · rename_i hp
      rintro ⟨a, b, e⟩
      simp at e
      exact hp e.2.1
  | c :: t, h => by
    unfold splitAtFirst at h
    split at h
    · simp at h
    · rename_i hp
      rw [List.isPrefixOf_iff_prefix] at hp
      simp only [Option.map_eq_none'] at h
      have ih := splitAtFirst_none pat t h
      rintro ⟨a, b, e⟩
      cases a with
      | nil => exact hp ⟨b, by simpa using e⟩
      | cons x a3 =>
        simp only [List.cons_append, List.cons.injEq] at e
        exact ih ⟨a3, b, by simpa using e.2⟩

theorem splitAtFirst_of_absent (pat s : Str) (h : ¬ pat <:+: s) : splitAtFirst pat s = none := by
  cases hs : splitAtFirst pat s with
  | none => rfl
  | some r =>
    obtain ⟨a, b⟩ := r
    exact absurd ⟨a, b, (splitAtFirst_some pat s a b hs).1.symm⟩ h

theorem splitAtFirst_of_first (pat s a b : Str) (h : s = a ++ pat ++ b)
    (hfirst : ∀ a2 b2 : Str, s = a2 ++ pat ++ b2 → a.length ≤ a2.length) :
    splitAtFirst pat s = some (a, b) := by
  cases hs : splitAtFirst pat s with
  | none => exact absurd ⟨a, b, h.symm⟩ (splitAtFirst_none pat s hs)
  | some r =>
    obtain ⟨a0, b0⟩ := r
    obtain ⟨h1, h2⟩ := splitAtFirst_some pat s a0 b0 hs
    have hl : a0.length = a.length := Nat.le_antisymm (h2 a b h) (hfirst a0 b0 h1)
    have e : a0 ++ (pat ++ b0) = a ++ (pat ++ b) := by
      rw [← List.append_assoc, ← List.append_assoc, ← h1, ← h]
    obtain ⟨e1, e2⟩ := List.append_inj e hl
    rw [e1, List.append_cancel_left e2]

theorem splitAtFirst_append_self (S r : Str) : splitAtFirst S (S ++ r) = some ([], r) :=
  splitAtFirst_of_first S (S ++ r) [] r (by simp) (fun _ _ _ => Nat.zero_le _)


/-! ### The regular expression `regexAdoc2Html` -/

theorem first_dquote_unique : ∀ (a b x y : Str), dquote ∉ a → dquote ∉ b →
    a ++ dquote :: x = b ++ dquote :: y → a = b ∧ x = y
  | [], [], x, y, _, _, h => by simpa using h
  | [], d :: b, x, y, _, hb, h => by
    simp only [List.nil_append, List.cons_append, List.cons.injEq] at h
    exact absurd (by simp [h.1]) hb
  | c :: a, [], x, y, ha, _, h => by
    simp only [List.nil_append, List.cons_append, List.cons.injEq] at h
    exact absurd (by simp [h.1]) ha
  | c :: a, d :: b, x, y, ha, hb, h => by
    simp only [List.cons_append, List.cons.injEq] at h
    obtain ⟨e1, e2⟩ := first_dquote_unique a b x y
      (fun hm => ha (List.mem_cons_of_mem _ hm)) (fun hm => hb (List.mem_cons_of_mem _ hm)) h.2
    exact ⟨by rw [h.1, e1], e2⟩

theorem adocClose_isPrefixOf_iff (s : Str) :
    adocClose.isPrefixOf s = true ↔ ∃ rest, s = adocClose ++ rest := by
  rw [List.isPrefixOf_iff_prefix]
  exact ⟨fun ⟨r, h⟩ => ⟨r, h.symm⟩, fun ⟨r, h⟩ => ⟨r, h.symm⟩⟩

theorem matchStarClose_sound : ∀ (s cap rest : Str), matchStarClose s = some (cap, rest) →
    dquote ∉ cap ∧ s = cap ++ adocClose ++ rest
  | [], cap, rest, h => by
    simp [matchStarClose, adocClose] at h
  | c :: t, cap, rest, h => by
    have hhere : (if adocClose.isPrefixOf (c :: t) then
        some (([] : Str), (c :: t).drop adocClose.length) else none) = some (cap, rest) →
        dquote ∉ cap ∧ c :: t = cap ++ adocClose ++ rest := by
      intro h2
      split at h2
      · rename_i hp
        simp only [Option.some.injEq, Prod.mk.injEq] at h2
        obtain ⟨rfl, rfl⟩ := h2
        obtain ⟨r, hr⟩ := (adocClose_isPrefixOf_iff _).1 hp
        rw [hr]; simp
      · simp at h2
    unfold matchStarClose at h
    split at h
    · rename_i hc
      cases hm : matchStarClose t with
      | none =>
        simp only [hm] at h
        exact hhere h
      | some r =>
        obtain ⟨cap1, rest1⟩ := r
        simp only [hm, Option.some.injEq, Prod.mk.injEq] at h
        obtain ⟨rfl, rfl⟩ := h
        obtain ⟨h1, h2⟩ := matchStarClose_sound t cap1 rest1 hm
        refine ⟨?_, by rw [h2]; simp⟩
        intro hmem
        rcases List.mem_cons.1 hmem with e | e
        · exact hc e.symm
        · exact h1 e
    · exact hhere h

theorem matchStarClose_isSome : ∀ (u w rest : Str), dquote ∉ u → u = w ++ [46, 97, 100, 111, 99] →
    (matchStarClose (u ++ dquote :: rest)).isSome = true
  | [], w, rest, _, h => by simp at h
  | c :: u, w, rest, hq, h => by
    have hc : c ≠ dquote := fun e => hq (by simp [e])
    have hu : dquote ∉ u := fun hm => hq (List.mem_cons_of_mem _ hm)
    rw [List.cons_append, matchStarClose, if_pos hc]
    cases w with
    | nil =>
      simp only [List.nil_append, List.cons.injEq] at h
      obtain ⟨rfl, rfl⟩ := h
      cases hm : matchStarClose ([97, 100, 111, 99] ++ dquote :: rest) with
      | some r => rfl
      | none => simp [adocClose]
    | cons x w =>
      simp only [List.cons_append, List.cons.injEq] at h
      have := matchStarClose_isSome u w rest hu h.2
      cases hm : matchStarClose (u ++ dquote :: rest) with
      | some r => rfl
      | none => simp [hm] at this

theorem matchStarClose_complete (cap rest : Str) (hq : dquote ∉ cap) :
    matchStarClose (cap ++ adocClose ++ rest) = some (cap, rest) := by
  have hq2 : dquote ∉ cap ++ [46, 97, 100, 111, 99] := by
    intro hm
    rcases List.mem_append.1 hm with e | e
    · exact hq e
    · revert e; decide
  have hs : cap ++ adocClose ++ rest = (cap ++ [46, 97, 100, 111, 99]) ++ dquote :: rest := by
    simp [adocClose]
  have := matchStarClose_isSome (cap ++ [46, 97, 100, 111, 99]) cap rest hq2 rfl
  rw [hs]
  cases hm : matchStarClose ((cap ++ [46, 97, 100, 111, 99]) ++ dquote :: rest) with
  | none => rw [hm] at this; exact absurd this (by simp)
  | some r =>
    obtain ⟨cap1, rest1⟩ := r
    obtain ⟨h1, h2⟩ := matchStarClose_sound _ cap1 rest1 hm
    have hq3 : dquote ∉ cap1 ++ [46, 97, 100, 111, 99] := by
      intro hm
      rcases List.mem_append.1 hm with e | e
      · exact h1 e
      · revert e; decide
    have h3 : (cap ++ [46, 97, 100, 111, 99]) ++ dquote :: rest
        = (cap1 ++ [46, 97, 100, 111, 99]) ++ dquote :: rest1 := by
      rw [h2]; simp [adocClose]
    obtain ⟨e1, e2⟩ := first_dquote_unique _ _ _ _ hq2 hq3 h3
    rw [List.append_cancel_right e1, e2]

theorem matchAt_sound (s cap rest : Str) (h : matchAt s = some (cap, rest)) :
    dquote ∉ cap ∧ s = hrefOpen ++ cap ++ adocClose ++ rest := by
  unfold matchAt at h
  split at h
  · rename_i hp
    rw [List.isPrefixOf_iff_prefix] at hp
    obtain ⟨r, hr⟩ := hp
    rw [← hr, List.drop_left] at h
    obtain ⟨h1, h2⟩ := matchStarClose_sound r cap rest h
    exact ⟨h1, by rw [← hr, h2]; simp⟩
  · simp at h

theorem matchAt_complete (cap rest : Str) (hq : dquote ∉ cap) :
    matchAt (hrefOpen ++ cap ++ adocClose ++ rest) = some (cap, rest) := by
  have hp : hrefOpen.isPrefixOf (hrefOpen ++ cap ++ adocClose ++ rest) = true := by
    rw [List.isPrefixOf_iff_prefix]
    exact ⟨cap ++ adocClose ++ rest, by simp⟩
  have hd : (hrefOpen ++ cap ++ adocClose ++ rest).drop hrefOpen.length
      = cap ++ adocClose ++ rest := by
    rw [List.append_assoc, List.append_assoc, List.drop_left]; simp
  rw [matchAt, if_pos hp, hd]
  exact matchStarClose_complete cap rest hq


theorem htmlTemplate_expand (m pre post cap : Str) :
    getSubstitution m pre post [cap] htmlTemplate = hrefOpen ++ cap ++ htmlClose := rfl

theorem matched_length (cap rest : Str) :
    (hrefOpen ++ cap ++ adocClose ++ rest).length - rest.length - 1 = cap.length + 11 := by
  simp [hrefOpen, adocClose]; omega

theorem replaceLinksFrom_skip : ∀ (s pre : Str) (k : Nat),
    replaceLinksFrom htmlTemplate pre k s = replaceLinksFrom htmlTemplate [] 0 (s.drop k)
  | [], pre, k => by cases k <;> simp [replaceLinksFrom]
  | c :: t, pre, k + 1 => by
    rw [replaceLinksFrom, List.drop_succ_cons]
    exact replaceLinksFrom_skip t (c :: pre) k
  | c :: t, pre, 0 => by
    rw [List.drop_zero]
    unfold replaceLinksFrom
    cases hm : matchAt (c :: t) with
    | none =>
      simp only
      rw [replaceLinksFrom_skip t (c :: pre) 0, replaceLinksFrom_skip t [c] 0]
    | some r =>
      obtain ⟨cap, rest⟩ := r
      simp only [htmlTemplate_expand]
      rw [replaceLinksFrom_skip t (c :: pre) _, replaceLinksFrom_skip t [c] _]

theorem retargetLinks_nil : retargetLinks [] = [] := rfl

theorem retargetLinks_cons_of_no_match (c : Nat) (t : Str) (h : matchAt (c :: t) = none) :
    retargetLinks (c :: t) = c :: retargetLinks t := by
  unfold retargetLinks
  rw [replaceLinksFrom]
  simp only [h]
  rw [replaceLinksFrom_skip t [c] 0, List.drop_zero]

theorem retargetLinks_of_match (cap rest : Str) (hq : dquote ∉ cap) :
    retargetLinks (hrefOpen ++ cap ++ adocClose ++ rest)
      = hrefOpen ++ cap ++ htmlClose ++ retargetLinks rest := by
  have hm := matchAt_complete cap rest hq
  have hs : hrefOpen ++ cap ++ adocClose ++ rest
      = 104 :: ([114, 101, 102, 61, dquote] ++ cap ++ adocClose ++ rest) := by
    simp [hrefOpen]
  rw [hs] at hm ⊢
  unfold retargetLinks
  rw [replaceLinksFrom]
  simp only [hm, htmlTemplate_expand]
  rw [replaceLinksFrom_skip, ← hs, matched_length]
  congr 2
  have hl : ([114, 101, 102, 61, dquote] ++ cap ++ adocClose).length = cap.length + 11 := by
    simp [adocClose]
  rw [← hl, List.drop_left]

theorem matchAt_none_of_head (c : Nat) (t : Str) (h : c ≠ 104) : matchAt (c :: t) = none := by
  have : hrefOpen.isPrefixOf (c :: t) = false := by
    simp [hrefOpen, List.isPrefixOf, h.symm]
  simp [matchAt, this]

theorem matchAt_nil : matchAt [] = none := by decide

theorem retargetLinks_of_noMatch : ∀ s : Str, NoMatch s → retargetLinks s = s
  | [], _ => rfl
  | c :: t, h => by
    rw [retargetLinks_cons_of_no_match c t (h _ (List.suffix_refl _)),
      retargetLinks_of_noMatch t (fun u hu => h u (hu.trans (List.suffix_cons c t)))]

theorem noMatch_of_no_dquote (s : Str) (h : dquote ∉ s) : NoMatch s := by
  intro t ht
  cases hm : matchAt t with
  | none => rfl
  | some r =>
    obtain ⟨cap, rest⟩ := r
    obtain ⟨_, h2⟩ := matchAt_sound t cap rest hm
    exact absurd (ht.subset (by rw [h2]; simp [hrefOpen])) h


theorem hrefEq_no_dquote : dquote ∉ [104, 114, 101, 102, 61] := by decide

theorem retargetLinks_append_link : ∀ (t0 x rest : Str), dquote ∉ t0 → dquote ∉ x →
    retargetLinks (t0 ++ hrefOpen ++ x ++ adocClose ++ rest)
      = t0 ++ hrefOpen ++ x ++ htmlClose ++ retargetLinks rest
  | [], x, rest, _, hx => by
    simpa using retargetLinks_of_match x rest hx
  | c :: t0, x, rest, h0, hx => by
    have h0t : dquote ∉ t0 := fun hm => h0 (List.mem_cons_of_mem _ hm)
    have hno : matchAt (c :: (t0 ++ hrefOpen ++ x ++ adocClose ++ rest)) = none := by
      cases hm : matchAt (c :: (t0 ++ hrefOpen ++ x ++ adocClose ++ rest)) with
      | none => rfl
      | some r =>
        exfalso
        obtain ⟨cap, rest2⟩ := r
        obtain ⟨_, h2⟩ := matchAt_sound _ cap rest2 hm
        have hq : dquote ∉ c :: t0 ++ [104, 114, 101, 102, 61] := by
          intro hmem
          rcases List.mem_append.1 hmem with e | e
          · exact h0 e
          · exact hrefEq_no_dquote e
        have e : (c :: t0 ++ [104, 114, 101, 102, 61]) ++ dquote :: (x ++ adocClose ++ rest)
            = [104, 114, 101, 102, 61] ++ dquote :: (cap ++ adocClose ++ rest2) := by
          have : c :: (t0 ++ hrefOpen ++ x ++ adocClose ++ rest)
              = (c :: t0 ++ [104, 114, 101, 102, 61]) ++ dquote :: (x ++ adocClose ++ rest) := by
            simp [hrefOpen]
          rw [← this, h2]; simp [hrefOpen]
        have := congrArg List.length (first_dquote_unique _ _ _ _ hq hrefEq_no_dquote e).1
        simp at this
    have hs : c :: t0 ++ hrefOpen ++ x ++ adocClose ++ rest
        = c :: (t0 ++ hrefOpen ++ x ++ adocClose ++ rest) := by simp
    rw [hs, retargetLinks_cons_of_no_match _ _ hno, retargetLinks_append_link t0 x rest h0t hx]
    simp

theorem retargetLinks_linkedText : ∀ (links : List (Str × Str)) (t0 : Str), dquote ∉ t0 →
    (∀ p ∈ links, dquote ∉ p.1 ∧ dquote ∉ p.2) →
    retargetLinks (linkedText adocClose t0 links) = linkedText htmlClose t0 links
  | [], t0, h0, _ => retargetLinks_of_noMatch t0 (noMatch_of_no_dquote t0 h0)
  | (x, t) :: more, t0, h0, hl => by
    have hx := hl (x, t) (List.mem_cons_self _ _)
    rw [linkedText, linkedText, retargetLinks_append_link t0 x _ h0 hx.1,
      retargetLinks_linkedText more t hx.2 (fun p hp => hl p (List.mem_cons_of_mem _ hp))]

/-! ### No match survives -/

theorem retargetLinks_first_dquote : ∀ (s u v : Str), dquote ∉ u →
    retargetLinks s = u ++ dquote :: v → ∃ w, s = u ++ dquote :: w
  | [], u, v, _, h => by
    rw [retargetLinks_nil] at h
    cases u <;> simp at h
  | c :: t, u, v, hu, h => by
    cases hm : matchAt (c :: t) with
    | none =>
      rw [retargetLinks_cons_of_no_match c t hm] at h
      cases u with
      | nil =>
        simp only [List.nil_append, List.cons.injEq] at h
        exact ⟨t, by simp [h.1]⟩
      | cons d u =>
        simp only [List.cons_append, List.cons.injEq] at h
        obtain ⟨w, hw⟩ := retargetLinks_first_dquote t u v
          (fun hmem => hu (List.mem_cons_of_mem _ hmem)) h.2
        exact ⟨w, by rw [h.1, hw]; simp⟩
    | some r =>
      obtain ⟨cap, rest⟩ := r
      obtain ⟨h1, h2⟩ := matchAt_sound _ cap rest hm
      rw [h2, retargetLinks_of_match cap rest h1] at h
      have e : [104, 114, 101, 102, 61] ++ dquote :: (cap ++ htmlClose ++ retargetLinks rest)
          = u ++ dquote :: v := by
        rw [← h]; simp [hrefOpen]
      obtain ⟨e1, _⟩ := first_dquote_unique _ _ _ _ hrefEq_no_dquote hu e
      exact ⟨cap ++ adocClose ++ rest, by rw [h2, ← e1]; simp [hrefOpen]⟩

theorem suffix_append_dquote : ∀ (u t v : Str), t <:+ u ++ dquote :: v →
    t <:+ v ∨ ∃ u2, u2 <:+ u ∧ t = u2 ++ dquote :: v
  | [], t, v, h => by
    rcases List.suffix_cons_iff.1 h with rfl | h3
    · exact Or.inr ⟨[], List.nil_suffix, rfl⟩
    · exact Or.inl h3
  | c :: u, t, v, h => by
    rcases List.suffix_cons_iff.1 h with rfl | h3
    · exact Or.inr ⟨c :: u, List.suffix_refl _, rfl⟩
    · rcases suffix_append_dquote u t v h3 with h4 | ⟨u2, h5, h6⟩
      · exact Or.inl h4
      · exact Or.inr ⟨u2, h5.trans (List.suffix_cons c u), h6⟩

theorem retargetLinks_strip_ref (v : Str) :
    retargetLinks ([114, 101, 102, 61, dquote] ++ v)
      = [114, 101, 102, 61, dquote] ++ retargetLinks v := by
  have hq : dquote ≠ 104 := by decide
  simp only [List.cons_append, List.nil_append]
  rw [retargetLinks_cons_of_no_match _ _ (matchAt_none_of_head _ _ (by decide)),
    retargetLinks_cons_of_no_match _ _ (matchAt_none_of_head _ _ (by decide)),
    retargetLinks_cons_of_no_match _ _ (matchAt_none_of_head _ _ (by decide)),
    retargetLinks_cons_of_no_match _ _ (matchAt_none_of_head _ _ (by decide)),
    retargetLinks_cons_of_no_match _ _ (matchAt_none_of_head _ _ hq)]

theorem no_dquote_append_adoc (cap : Str) (h : dquote ∉ cap) :
    dquote ∉ cap ++ [46, 97, 100, 111, 99] := by
  intro hm
  rcases List.mem_append.1 hm with e | e
  · exact h e
  · revert e; decide

theorem no_dquote_append_html (cap : Str) (h : dquote ∉ cap) :
    dquote ∉ cap ++ [46, 104, 116, 109, 108] := by
  intro hm
  rcases List.mem_append.1 hm with e | e
  · exact h e
  · revert e; decide

theorem matchAt_cons_retargetLinks (c : Nat) (t : Str) (h : matchAt (c :: t) = none) :
    matchAt (c :: retargetLinks t) = none := by
  cases hm : matchAt (c :: retargetLinks t) with
  | none => rfl
  | some r =>
    exfalso
    obtain ⟨cap, rest⟩ := r
    obtain ⟨h1, h2⟩ := matchAt_sound _ cap rest hm
    simp only [hrefOpen, List.cons_append, List.nil_append, List.cons.injEq] at h2
    obtain ⟨rfl, h3⟩ := h2
    have hr : dquote ∉ [114, 101, 102, 61] := by decide
    obtain ⟨v, hv⟩ := retargetLinks_first_dquote t [114, 101, 102, 61]
      (cap ++ adocClose ++ rest) hr (by rw [h3]; simp)
    have hv2 : t = [114, 101, 102, 61, dquote] ++ v := by rw [hv]; simp
    rw [hv2, retargetLinks_strip_ref] at h3
    have h4 : retargetLinks v = (cap ++ [46, 97, 100, 111, 99]) ++ dquote :: rest := by
      simp only [List.cons_append, List.nil_append, List.cons.injEq, true_and] at h3
      rw [h3]; simp [adocClose]
    obtain ⟨w, hw⟩ := retargetLinks_first_dquote v _ rest (no_dquote_append_adoc cap h1) h4
    have : 104 :: t = hrefOpen ++ cap ++ adocClose ++ w := by
      rw [hv2, hw]; simp [hrefOpen, adocClose]
    rw [this, matchAt_complete cap w h1] at h
    exact absurd h (by simp)

theorem suffix_eq_of_length (a x y : Str) (h : a <:+ x ++ y) (hl : a.length = y.length) :
    a = y := by
  have h2 : a <:+ y :=
    List.suffix_of_suffix_length_le h (List.suffix_append x y) (Nat.le_of_eq hl)
  exact h2.eq_of_length hl

theorem matchAt_in_replacement (cap rest t : Str) (hq : dquote ∉ cap)
    (ih : NoMatch (retargetLinks rest))
    (ht : t <:+ hrefOpen ++ cap ++ htmlClose ++ retargetLinks rest) : matchAt t = none := by
  cases hm : matchAt t with
  | none => rfl
  | some r =>
    exfalso
    obtain ⟨cap2, rest2⟩ := r
    obtain ⟨h1, h2⟩ := matchAt_sound _ cap2 rest2 hm
    have e0 : t = [104, 114, 101, 102, 61] ++ dquote ::
        ((cap2 ++ [46, 97, 100, 111, 99]) ++ dquote :: rest2) := by
      rw [h2]; simp [hrefOpen, adocClose]
    have hs : hrefOpen ++ cap ++ htmlClose ++ retargetLinks rest
        = [104, 114, 101, 102, 61] ++ dquote ::
          ((cap ++ [46, 104, 116, 109, 108]) ++ dquote :: retargetLinks rest) := by
      simp [hrefOpen, htmlClose]
    rw [hs] at ht
    have hclash : ∀ x y : Str, (cap ++ [46, 104, 116, 109, 108]) ++ dquote :: x
        = (cap2 ++ [46, 97, 100, 111, 99]) ++ dquote :: y → False := by
      intro x y e
      obtain ⟨e1, _⟩ := first_dquote_unique _ _ _ _ (no_dquote_append_html cap hq)
        (no_dquote_append_adoc cap2 h1) e
      have := (List.append_inj' e1 rfl).2
      revert this; decide
    rcases suffix_append_dquote _ _ _ ht with h3 | ⟨u2, hu2, h4⟩
    · rcases suffix_append_dquote _ _ _ h3 with h5 | ⟨u3, hu3, h6⟩
      · rw [ih t h5] at hm
        exact absurd hm (by simp)
      · have hq3 : dquote ∉ u3 := fun hmem =>
          no_dquote_append_html cap hq (hu3.subset hmem)
        rw [e0] at h6
        obtain ⟨e1, _⟩ := first_dquote_unique _ _ _ _ hrefEq_no_dquote hq3 h6
        have := suffix_eq_of_length u3 cap [46, 104, 116, 109, 108] hu3 (by rw [← e1]; rfl)
        rw [← e1] at this
        revert this; decide
    · have hq2 : dquote ∉ u2 := fun hmem => hrefEq_no_dquote (hu2.subset hmem)
      rw [e0] at h4
      obtain ⟨_, e2⟩ := first_dquote_unique _ _ _ _ hrefEq_no_dquote hq2 h4
      exact hclash _ _ e2.symm

theorem noMatch_retargetLinks_aux : ∀ (n : Nat) (s : Str), s.length ≤ n →
    NoMatch (retargetLinks s)
  | _, [], _ => by
    intro t ht
    rw [retargetLinks_nil] at ht
    rw [List.suffix_nil.1 ht]
    exact matchAt_nil
  | 0, c :: s, h => by simp at h
  | n + 1, c :: s, h => by
    have hlen : s.length ≤ n := by simpa using h
    cases hm : matchAt (c :: s) with
    | none =>
      rw [retargetLinks_cons_of_no_match c s hm]
      intro t ht
      rcases List.suffix_cons_iff.1 ht with rfl | h3
      · exact matchAt_cons_retargetLinks c s hm
      · exact noMatch_retargetLinks_aux n s hlen t h3
    | some r =>
      obtain ⟨cap, rest⟩ := r
      obtain ⟨h1, h2⟩ := matchAt_sound _ cap rest hm
      have hrest : rest.length ≤ n := by
        have := congrArg List.length h2
        simp [hrefOpen] at this
        omega
      rw [h2, retargetLinks_of_match cap rest h1]
      intro t ht
      exact matchAt_in_replacement cap rest t h1 (noMatch_retargetLinks_aux n rest hrest) ht

theorem noMatch_retargetLinks (s : Str) : NoMatch (retargetLinks s) :=
  noMatch_retargetLinks_aux s.length s (Nat.le_refl _)

theorem not_match_in_retargetLinks (h pre x post : Str) (hx : dquote ∉ x) :
    retargetLinks h ≠ pre ++ hrefOpen ++ x ++ adocClose ++ post := by
  intro e
  have hs : hrefOpen ++ x ++ adocClose ++ post <:+ retargetLinks h :=
    ⟨pre, by rw [e]; simp⟩
  have := noMatch_retargetLinks h _ hs
  rw [matchAt_complete x post hx] at this
  exact absurd this (by simp)

/-! ## Path mapper: prefix substitution -/

theorem replaceString_of_absent (p S D : Str) (h : ¬ S <:+: p) : replaceString p S D = p := by
  simp [replaceString, splitAtFirst_of_absent S p h]

theorem replaceString_of_first (p S D a b : Str) (h : p = a ++ S ++ b)
    (hfirst : ∀ a2 b2 : Str, p = a2 ++ S ++ b2 → a.length ≤ a2.length) :
    replaceString p S D = a ++ getSubstitution S a b [] D ++ b := by
  simp [replaceString, splitAtFirst_of_first S p a b h hfirst]

theorem getOutputPath_append_left (S D r : Str) (hD : dollar ∉ D) :
    getOutputPath (S ++ r) S D = D ++ r := by
  simp [getOutputPath, replaceString, splitAtFirst_append_self,
    getSubstitution_of_no_dollar _ _ _ _ D hD]

theorem getOutputPath_twice_ne (S D r : Str) (hD : dollar ∉ D) (hne : D ≠ S) (hocc : S <:+: r) :
    getOutputPath (getOutputPath (S ++ r) S D) S D ≠ getOutputPath (S ++ r) S D := by
  rw [getOutputPath_append_left S D r hD]
  have hinf : S <:+: D ++ r := by
    obtain ⟨a, b, e⟩ := hocc
    exact ⟨D ++ a, b, by rw [← e]; simp⟩
  cases hs : splitAtFirst S (D ++ r) with
  | none => exact absurd hinf (splitAtFirst_none S _ hs)
  | some q =>
    obtain ⟨a, b⟩ := q
    obtain ⟨h1, _⟩ := splitAtFirst_some S _ a b hs
    simp only [getOutputPath, replaceString, hs, getSubstitution_of_no_dollar _ _ _ _ D hD]
    intro e
    rw [h1, List.append_assoc, List.append_assoc] at e
    exact hne (List.append_cancel_right (List.append_cancel_left e))

/-! ## Extension dispatch -/

theorem fileActions_notice (silent : Bool) (msg : Str) (xs : List Effect) :
    fileActions ((if silent = false then [Effect.log msg] else []) ++ xs) = fileActions xs := by
  cases silent <;> simp [fileActions, Effect.isFileAction]

theorem isFileAction_fileAction (S D : Str) (css : Option Str) (f : Str) :
    (fileAction S D css f).isFileAction = true := by
  unfold fileAction
  simp only
  split <;> rfl

theorem fileActions_cons_fileAction (S D : Str) (css : Option Str) (f : Str)
    (xs : List Effect) :
    fileActions (fileAction S D css f :: xs) = fileAction S D css f :: fileActions xs := by
  unfold fileActions
  rw [List.filter_cons_of_pos (isFileAction_fileAction S D css f)]

theorem mainLoop_cons (S D : Str) (css : Option Str) (silent : Bool)
    (throws : Nat → Effect → Bool) (i : Nat) (f : Str) (files : List Str) :
    mainLoop S D css silent throws i (f :: files)
      = if throws i (fileAction S D css f) then
          { effects := (if silent = false then
              [Effect.log ((utf16 "Running on -> ") ++ f)] else [])
              ++ [fileAction S D css f],
            completed := false }
        else
          { effects := (if silent = false then
              [Effect.log ((utf16 "Running on -> ") ++ f)] else [])
              ++ fileAction S D css f
                :: (mainLoop S D css silent throws (i + 1) files).effects,
            completed := (mainLoop S D css silent throws (i + 1) files).completed } := rfl

theorem fileActions_mainLoop_cons (S D : Str) (css : Option Str) (silent : Bool)
    (throws : Nat → Effect → Bool) (i : Nat) (f : Str) (files : List Str) :
    fileActions (mainLoop S D css silent throws i (f :: files)).effects
      = fileAction S D css f ::
        (if throws i (fileAction S D css f) then []
         else fileActions (mainLoop S D css silent throws (i + 1) files).effects) ∧
    (mainLoop S D css silent throws i (f :: files)).completed
      = (if throws i (fileAction S D css f) then false
         else (mainLoop S D css silent throws (i + 1) files).completed) := by
  rw [mainLoop_cons]
  by_cases ht : throws i (fileAction S D css f) = true
  · rw [if_pos ht, if_pos ht, if_pos ht]
    refine ⟨?_, rfl⟩
    show fileActions (_ ++ _) = _
    rw [fileActions_notice, fileActions_cons_fileAction]
    rfl
  · rw [if_neg ht, if_neg ht, if_neg ht]
    refine ⟨?_, rfl⟩
    show fileActions (_ ++ _) = _
    rw [fileActions_notice, fileActions_cons_fileAction]

/-- The file actions of a run are those of the first files, in order. -/
theorem fileActions_mainLoop_take (S D : Str) (css : Option Str) (silent : Bool)
    (throws : Nat → Effect → Bool) : ∀ (files : List Str) (i : Nat),
    fileActions (mainLoop S D css silent throws i files).effects
      = (files.map (fileAction S D css)).take
          (fileActions (mainLoop S D css silent throws i files).effects).length
  | [], _ => rfl
  | f :: files, i => by
    obtain ⟨e, _⟩ := fileActions_mainLoop_cons S D css silent throws i f files
    rw [e]
    by_cases ht : throws i (fileAction S D css f) = true
    · simp [ht]
    · simp only [ht, Bool.false_eq_true, if_false, List.length_cons, List.map_cons,
        List.take_succ_cons]
      rw [← fileActions_mainLoop_take S D css silent throws files (i + 1)]

theorem fileActions_mainLoop_length_le (S D : Str) (css : Option Str) (silent : Bool)
    (throws : Nat → Effect → Bool) : ∀ (files : List Str) (i : Nat),
    (fileActions (mainLoop S D css silent throws i files).effects).length ≤ files.length
  | [], _ => Nat.le_refl _
  | f :: files, i => by
    obtain ⟨e, _⟩ := fileActions_mainLoop_cons S D css silent throws i f files
    rw [e]
    by_cases ht : throws i (fileAction S D css f) = true
    · simp [ht]
    · simp only [ht, Bool.false_eq_true, if_false, List.length_cons]
      exact Nat.succ_le_succ (fileActions_mainLoop_length_le S D css silent throws files (i + 1))

/-- A run is complete exactly when it has one file action per file and none of
them threw. -/
theorem mainLoop_completed_iff (S D : Str) (css : Option Str) (silent : Bool)
    (throws : Nat → Effect → Bool) : ∀ (files : List Str) (i : Nat),
    (mainLoop S D css silent throws i files).completed = true ↔
      ((fileActions (mainLoop S D css silent throws i files).effects).length = files.length ∧
        ∀ j : Nat, j < files.length →
          ∀ f : Str, files[j]? = some f → throws (i + j) (fileAction S D css f) = false)
  | [], _ => by
    simp [mainLoop, fileActions]
  | f :: files, i => by
    obtain ⟨e, ec⟩ := fileActions_mainLoop_cons S D css silent throws i f files
    rw [e, ec]
    by_cases ht : throws i (fileAction S D css f) = true
    · simp only [ht, if_true, Bool.false_eq_true, false_iff, not_and]
      intro _ hall
      have := hall 0 (by simp) f (by simp)
      rw [Nat.add_zero, ht] at this
      exact absurd this (by simp)
    · have htf : throws i (fileAction S D css f) = false := by simpa using ht
      simp only [ht, Bool.false_eq_true, if_false, List.length_cons]
      rw [mainLoop_completed_iff S D css silent throws files (i + 1)]
      constructor
      · rintro ⟨hl, hall⟩
        refine ⟨by rw [hl], ?_⟩
        intro j hj g hg
        cases j with
        | zero =>
          simp only [List.getElem?_cons_zero, Option.some.injEq] at hg
          rw [← hg]; exact htf
        | succ j =>
          simp only [List.getElem?_cons_succ] at hg
          have := hall j (by simpa using hj) g hg
          rwa [show i + 1 + j = i + (j + 1) by omega] at this
      · rintro ⟨hl, hall⟩
        refine ⟨by omega, ?_⟩
        intro j hj g hg
        have := hall (j + 1) (by simpa using hj) g (by simpa using hg)
        rwa [show i + (j + 1) = i + 1 + j by omega] at this

/-- Every file action but the last did not throw, and the last one threw when
the run is not complete. -/
theorem mainLoop_stops_at_first_throw (S D : Str) (css : Option Str) (silent : Bool)
    (throws : Nat → Effect → Bool) : ∀ (files : List Str) (i : Nat),
    (∀ (j : Nat) (call : Effect),
      (fileActions (mainLoop S D css silent throws i files).effects)[j]? = some call →
      j + 1 < (fileActions (mainLoop S D css silent throws i files).effects).length →
      throws (i + j) call = false) ∧
    ((mainLoop S D css silent throws i files).completed = false →
      ∃ call : Effect,
        (fileActions (mainLoop S D css silent throws i files).effects).getLast? = some call ∧
        throws (i + ((fileActions (mainLoop S D css silent throws i files).effects).length
          - 1)) call = true)
  | [], _ => by
    simp [mainLoop, fileActions]
  | f :: files, i => by
    obtain ⟨e, ec⟩ := fileActions_mainLoop_cons S D css silent throws i f files
    obtain ⟨ih1, ih2⟩ := mainLoop_stops_at_first_throw S D css silent throws files (i + 1)
    rw [e, ec]
    by_cases ht : throws i (fileAction S D css f) = true
    · simp only [ht, if_true]
      refine ⟨?_, fun _ => ⟨fileAction S D css f, rfl, by simpa using ht⟩⟩
      intro j call _ hj
      simp at hj
    · have htf : throws i (fileAction S D css f) = false := by simpa using ht
      simp only [ht, Bool.false_eq_true, if_false, List.length_cons]
      constructor
      · intro j call hc hj
        cases j with
        | zero =>
          simp only [List.getElem?_cons_zero, Option.some.injEq] at hc
          rw [← hc]; exact htf
        | succ j =>
          simp only [List.getElem?_cons_succ] at hc
          have := ih1 j call hc (by omega)
          rwa [show i + 1 + j = i + (j + 1) by omega] at this
      · intro hc
        obtain ⟨call, h1, h2⟩ := ih2 hc
        have hne : fileActions (mainLoop S D css silent throws (i + 1) files).effects ≠ [] := by
          intro e0
          rw [e0] at h1
          simp at h1
        refine ⟨call, ?_, ?_⟩
        · obtain ⟨x, xs, hx⟩ := List.exists_cons_of_ne_nil hne
          rw [hx] at h1 ⊢
          rw [List.getLast?_cons_cons]
          exact h1
        · have hpos : 0 < (fileActions
              (mainLoop S D css silent throws (i + 1) files).effects).length :=
            List.length_pos.2 hne
          rwa [show i + ((fileActions
            (mainLoop S D css silent throws (i + 1) files).effects).length + 1 - 1)
            = i + 1 + ((fileActions
              (mainLoop S D css silent throws (i + 1) files).effects).length - 1) by omega]

theorem replaceAdocSuffix_append_adoc : ∀ u : Str,
    replaceAdocSuffix (u ++ adocExt) = u ++ [46, 104, 116, 109, 108]
  | [] => by decide
  | c :: u => by
    have hne : ¬ (u ++ adocExt = [97, 100, 111, 99]) := by
      intro e
      have := congrArg List.length e
      simp [adocExt] at this
    rw [List.cons_append, replaceAdocSuffix, if_neg (fun h => hne h.2),
      replaceAdocSuffix_append_adoc u]
    rfl

theorem replaceAdocSuffix_cases : ∀ t : Str, replaceAdocSuffix t = t ∨
    ∃ (u : Str) (c : Nat), t = u ++ c :: [97, 100, 111, 99] ∧
      replaceAdocSuffix t = u ++ [46, 104, 116, 109, 108]
  | [] => Or.inl rfl
  | c :: t => by
    by_cases h : isLineTerminator c = false ∧ t = [97, 100, 111, 99]
    · right
      exact ⟨[], c, by rw [h.2]; rfl, by rw [replaceAdocSuffix, if_pos h]; rfl⟩
    · rw [replaceAdocSuffix, if_neg h]
      rcases replaceAdocSuffix_cases t with e | ⟨u, d, e1, e2⟩
      · left; rw [e]
      · right
        exact ⟨c :: u, d, by rw [e1]; rfl, by rw [e2]; rfl⟩

/-- The call made for a file: a conversion exactly when the extension of the
base name is `.adoc`, a copy to the mapped path otherwise; the target of the
conversion is the mapped path with `.html` in place of a trailing `.adoc`. -/
theorem fileAction_by_extension (S D : Str) (css : Option Str) (f : Str) :
    (extname (basename f) = adocExt ∧
      ∃ target : Str, fileAction S D css f = Effect.adocToHtml f target css ∧
        ∀ u : Str, getOutputPath f S D = u ++ adocExt →
          target = u ++ [46, 104, 116, 109, 108]) ∨
    (extname (basename f) ≠ adocExt ∧
      fileAction S D css f = Effect.copyFile f (getOutputPath f S D)) := by
  by_cases h : extname (basename f) = adocExt
  · left
    refine ⟨h, replaceAdocSuffix (getOutputPath f S D), ?_, ?_⟩
    · unfold fileAction
      simp only
      rw [if_pos h]
    · intro u e
      rw [e, replaceAdocSuffix_append_adoc]
  · right
    refine ⟨h, ?_⟩
    unfold fileAction
    simp only
    rw [if_neg h]

/-- The path of the call made for a file is the path `main` writes for it. -/
theorem fileAction_writtenPath (S D : Str) (css : Option Str) (f : Str) :
    fileAction S D css f = Effect.adocToHtml f (writtenPath S D f) css ∨
    fileAction S D css f = Effect.copyFile f (writtenPath S D f) := by
  unfold fileAction writtenPath
  simp only
  by_cases h : extname (basename f) = adocExt
  · left; rw [if_pos h, if_pos h]
  · right; rw [if_neg h, if_neg h]

theorem getElem?_of_take {α : Type} : ∀ (l : List α) (k i : Nat) (x : α),
    (l.take k)[i]? = some x → l[i]? = some x
  | [], k, i, x, h => by simp at h
  | _ :: _, 0, i, x, h => by simp at h
  | a :: l, k + 1, 0, x, h => by simpa using h
  | a :: l, k + 1, i + 1, x, h => by
    simp only [List.take_succ_cons, List.getElem?_cons_succ] at h ⊢
    exact getElem?_of_take l k i x h

/-- The run of `main`: one file action per file, in enumeration order, up to
and including the first one that throws; each is the conversion or the copy
that the extension of the file selects. -/
theorem main_run_spec (S D : Str) (css : Option Str) (silent : Bool)
    (throws : Nat → Effect → Bool) (files : List Str) :
    (fileActions (main S D css silent throws files).effects).length ≤ files.length ∧
    ((main S D css silent throws files).completed = true ↔
      ((fileActions (main S D css silent throws files).effects).length = files.length ∧
        ∀ (i : Nat) (call : Effect),
          (fileActions (main S D css silent throws files).effects)[i]? = some call →
          throws i call = false)) ∧
    (∀ (i : Nat) (call : Effect),
      (fileActions (main S D css silent throws files).effects)[i]? = some call →
      i + 1 < (fileActions (main S D css silent throws files).effects).length →
      throws i call = false) ∧
    ((main S D css silent throws files).completed = false →
      ∃ call : Effect,
        (fileActions (main S D css silent throws files).effects).getLast? = some call ∧
        throws ((fileActions (main S D css silent throws files).effects).length - 1) call
          = true) ∧
    (∀ (i : Nat) (call : Effect),
      (fileActions (main S D css silent throws files).effects)[i]? = some call →
      ∃ f : Str, files[i]? = some f ∧
        ((extname (basename f) = adocExt ∧
          ∃ target : Str, call = Effect.adocToHtml f target css ∧
            ∀ u : Str, getOutputPath f S D = u ++ adocExt →
              target = u ++ [46, 104, 116, 109, 108]) ∨
         (extname (basename f) ≠ adocExt ∧
          call = Effect.copyFile f (getOutputPath f S D)))) := by
  have hmap : ∀ (i : Nat) (call : Effect),
      (fileActions (main S D css silent throws files).effects)[i]? = some call →
      ∃ f : Str, files[i]? = some f ∧ call = fileAction S D css f := by
    intro i call h
    unfold main at h
    rw [fileActions_mainLoop_take] at h
    have h2 := getElem?_of_take _ _ _ _ h
    rw [List.getElem?_map] at h2
    cases hf : files[i]? with
    | none => rw [hf] at h2; simp at h2
    | some f =>
      rw [hf] at h2
      exact ⟨f, rfl, (Option.some.inj h2).symm⟩
  obtain ⟨h1, h2⟩ := mainLoop_stops_at_first_throw S D css silent throws files 0
  simp only [Nat.zero_add] at h1 h2
  refine ⟨fileActions_mainLoop_length_le S D css silent throws files 0, ?_, h1, h2, ?_⟩
  · unfold main
    rw [mainLoop_completed_iff S D css silent throws files 0]
    simp only [Nat.zero_add]
    constructor
    · rintro ⟨hl, hall⟩
      refine ⟨hl, ?_⟩
      intro i call hc
      obtain ⟨f, hf, e⟩ := hmap i call hc
      rw [e]
      have hi : i < files.length := by
        rcases Nat.lt_or_ge i files.length with h | h
        · exact h
        · rw [List.getElem?_eq_none h] at hf
          simp at hf
      exact hall i hi f hf
    · rintro ⟨hl, hall⟩
      refine ⟨hl, ?_⟩
      intro j hj f hf
      have hj2 : j < (fileActions (mainLoop S D css silent throws 0 files).effects).length := by
        rw [hl]; exact hj
      have hc : (fileActions (mainLoop S D css silent throws 0 files).effects)[j]?
          = some ((fileActions (mainLoop S D css silent throws 0 files).effects)[j]) :=
        List.getElem?_eq_getElem hj2
      obtain ⟨g, hg, e⟩ := hmap j _ hc
      rw [hf] at hg
      simp only [Option.some.injEq] at hg
      have := hall j _ hc
      rw [e, ← hg] at this
      exact this
  · intro i call hc
    obtain ⟨f, hf, e⟩ := hmap i call hc
    refine ⟨f, hf, ?_⟩
    rw [e]
    exact fileAction_by_extension S D css f

/-! ## The last component and the extension -/

theorem lastPart_no_sep (x : Str) : sep ∉ lastPart x := by
  intro h
  have h2 := List.mem_takeWhile_imp (List.mem_reverse.1 h)
  simp at h2

theorem dropWhile_sep_of_not_mem : ∀ l : Str, sep ∉ l →
    l.dropWhile (fun c => c = sep) = l
  | [], _ => rfl
  | c :: l, h => by
    have hc : c ≠ sep := fun e => h (by simp [e])
    simp [List.dropWhile, hc]

theorem takeWhile_sep_of_not_mem : ∀ l : Str, sep ∉ l →
    l.takeWhile (fun c => c ≠ sep) = l
  | [], _ => rfl
  | c :: l, h => by
    have hc : c ≠ sep := fun e => h (by simp [e])
    have ih := takeWhile_sep_of_not_mem l (fun hm => h (List.mem_cons_of_mem _ hm))
    simp only [ne_eq, decide_not] at ih
    simp [List.takeWhile, hc, ih]

theorem lastPart_of_no_sep (y : Str) (h : sep ∉ y) : lastPart y = y := by
  have hr : sep ∉ y.reverse := fun hm => h (List.mem_reverse.1 hm)
  unfold lastPart
  rw [dropWhile_sep_of_not_mem _ hr, takeWhile_sep_of_not_mem _ hr, List.reverse_reverse]

theorem lastPart_suffix (x : Str) (h : ∀ q : Str, x ≠ q ++ [sep]) : lastPart x <:+ x := by
  have hd : x.reverse.dropWhile (fun c => c = sep) = x.reverse := by
    cases hx : x.reverse with
    | nil => rfl
    | cons c r =>
      have hc : c ≠ sep := by
        intro e
        apply h r.reverse
        have := congrArg List.reverse hx
        simpa [e] using this
      simp [List.dropWhile, hc]
  unfold lastPart
  rw [hd]
  have := List.takeWhile_prefix (fun c => decide (c ≠ sep)) (l := x.reverse)
  have h2 := List.reverse_suffix.2 this
  rwa [List.reverse_reverse] at h2

theorem takeWhile_append_dropWhile_eq (q : Nat → Bool) (l : Str) :
    l.takeWhile q ++ l.dropWhile q = l := List.takeWhile_append_dropWhile q l

theorem dropWhile_head_false (q : Nat → Bool) : ∀ (l : Str) (d : Nat) (r : Str),
    l.dropWhile q = d :: r → q d = false
  | [], d, r, h => by simp at h
  | c :: l, d, r, h => by
    by_cases hc : q c = true
    · rw [List.dropWhile_cons_of_pos hc] at h
      exact dropWhile_head_false q l d r h
    · rw [List.dropWhile_cons_of_neg hc] at h
      simp only [List.cons.injEq] at h
      rw [← h.1]
      simpa using hc

theorem extname_adoc_lastPart (x : Str) (h : extname x = adocExt) : adocExt <:+ lastPart x := by
  unfold extname at h
  simp only at h
  have hsplit := takeWhile_append_dropWhile_eq (fun c => decide (c ≠ 46)) (lastPart x).reverse
  cases hd : (lastPart x).reverse.dropWhile (fun c => decide (c ≠ 46)) with
  | nil =>
    rw [hd] at h
    simp only at h
    exact absurd h (by decide)
  | cons d beforeDot =>
    rw [hd] at h hsplit
    have hdot : d = 46 := by
      simpa using dropWhile_head_false _ _ d beforeDot hd
    simp only at h
    split at h
    · exact absurd h (by decide)
    · split at h
      · exact absurd h (by decide)
      · have h3 : ((lastPart x).reverse.takeWhile (fun c => decide (c ≠ 46))).reverse
            = [97, 100, 111, 99] := by
          simpa [adocExt] using h
        have h4 := congrArg List.reverse hsplit
        rw [List.reverse_reverse, List.reverse_append, List.reverse_cons, h3, hdot] at h4
        exact ⟨beforeDot.reverse, by rw [← h4]; simp [adocExt]⟩

theorem adocExt_suffix_of_doc (p : Str) (h : extname (basename p) = adocExt)
    (hp : ∀ q : Str, p ≠ q ++ [sep]) : adocExt <:+ p := by
  have h1 := extname_adoc_lastPart _ h
  rw [basename, lastPart_of_no_sep _ (lastPart_no_sep p)] at h1
  exact h1.trans (lastPart_suffix p hp)

/-! ## Injectivity of the written path among files of one kind -/

theorem last_eq_of_append_singleton (a b : Str) (x y : Nat) (h : a ++ [x] = b ++ [y]) :
    x = y := by
  have := (List.append_inj' h rfl).2
  simpa using this

theorem dot_of_doc_ends_adoc (p w : Str) (c : Nat) (h : extname (basename p) = adocExt)
    (e : p = w ++ c :: [97, 100, 111, 99]) : c = 46 := by
  have hp : ∀ q : Str, p ≠ q ++ [sep] := by
    intro q hq
    have e2 : (w ++ [c, 97, 100, 111]) ++ [99] = q ++ [sep] := by
      rw [← hq, e]; simp
    exact absurd (last_eq_of_append_singleton _ _ _ _ e2) (by decide)
  have hs := adocExt_suffix_of_doc p h hp
  rw [e] at hs
  have := suffix_eq_of_length adocExt w (c :: [97, 100, 111, 99]) hs rfl
  simp only [adocExt, List.cons.injEq] at this
  exact this.1.symm

theorem written_mixed (S D r1 r2 u : Str) (c : Nat)
    (h2 : extname (basename (S ++ r2)) = adocExt)
    (e1 : D ++ r1 = u ++ c :: [97, 100, 111, 99])
    (e2 : D ++ r2 = u ++ [46, 104, 116, 109, 108]) : r1 = r2 := by
  have hl : r1.length = r2.length := by
    have l1 := congrArg List.length e1
    have l2 := congrArg List.length e2
    simp at l1 l2
    omega
  rcases List.eq_nil_or_concat r2 with rfl | ⟨r3, x, hr⟩
  · exact List.length_eq_zero.1 (by simpa using hl)
  · exfalso
    rw [List.concat_eq_append] at hr
    subst hr
    have ex : x = 108 := by
      have e3 : (D ++ r3) ++ [x] = (u ++ [46, 104, 116, 109]) ++ [108] := by
        rw [List.append_assoc, e2]; simp
      exact last_eq_of_append_singleton _ _ _ _ e3
    subst ex
    have hp : ∀ q : Str, S ++ (r3 ++ [108]) ≠ q ++ [sep] := by
      intro q hq
      rw [← List.append_assoc] at hq
      exact absurd (last_eq_of_append_singleton _ _ _ _ hq) (by decide)
    obtain ⟨w, hw⟩ := adocExt_suffix_of_doc _ h2 hp
    have e4 : (w ++ [46, 97, 100, 111]) ++ [99] = (S ++ r3) ++ [108] := by
      rw [List.append_assoc S, ← hw]; simp [adocExt]
    exact absurd (last_eq_of_append_singleton _ _ _ _ e4) (by decide)

theorem written_both_changed (S D r1 r2 u : Str) (c1 c2 : Nat)
    (h1 : extname (basename (S ++ r1)) = adocExt)
    (h2 : extname (basename (S ++ r2)) = adocExt)
    (e1 : D ++ r1 = u ++ c1 :: [97, 100, 111, 99])
    (e2 : D ++ r2 = u ++ c2 :: [97, 100, 111, 99]) : r1 = r2 := by
  have hc : c1 = c2 := by
    by_cases hlen : D.length ≤ u.length
    · have hr : ∀ (r : Str) (c : Nat), D ++ r = u ++ c :: [97, 100, 111, 99] →
          r = u.drop D.length ++ c :: [97, 100, 111, 99] := by
        intro r c e
        have := congrArg (List.drop D.length) e
        rwa [List.drop_left, List.drop_append_of_le_length hlen] at this
      have d1 := dot_of_doc_ends_adoc (S ++ r1) (S ++ u.drop D.length) c1 h1
        (by rw [hr r1 c1 e1]; simp)
      have d2 := dot_of_doc_ends_adoc (S ++ r2) (S ++ u.drop D.length) c2 h2
        (by rw [hr r2 c2 e2]; simp)
      rw [d1, d2]
    · have hlen2 : u.length + 1 ≤ D.length := by omega
      have ht : ∀ (r : Str) (c : Nat), D ++ r = u ++ c :: [97, 100, 111, 99] →
          D.take (u.length + 1) = u ++ [c] := by
        intro r c e
        have := congrArg (List.take (u.length + 1)) e
        rw [List.take_append_of_le_length hlen2] at this
        rw [this]
        simp [List.take_append_eq_append_take]
      have t1 := ht r1 c1 e1
      have t2 := ht r2 c2 e2
      rw [t1] at t2
      exact last_eq_of_append_singleton _ _ _ _ t2
  rw [hc, ← e2] at e1
  exact List.append_cancel_left e1

theorem replaceAdocSuffix_doc_injective (S D r1 r2 : Str)
    (h1 : extname (basename (S ++ r1)) = adocExt)
    (h2 : extname (basename (S ++ r2)) = adocExt)
    (e : replaceAdocSuffix (D ++ r1) = replaceAdocSuffix (D ++ r2)) : r1 = r2 := by
  rcases replaceAdocSuffix_cases (D ++ r1) with a1 | ⟨u1, c1, a1, b1⟩ <;>
    rcases replaceAdocSuffix_cases (D ++ r2) with a2 | ⟨u2, c2, a2, b2⟩
  · rw [a1, a2] at e
    exact List.append_cancel_left e
  · rw [a1, b2] at e
    exact (written_mixed S D r2 r1 u2 c2 h1 a2 e).symm
  · rw [b1, a2] at e
    exact written_mixed S D r1 r2 u1 c1 h2 a1 e.symm
  · rw [b1, b2] at e
    have hu : u1 = u2 := List.append_cancel_right e
    subst hu
    exact written_both_changed S D r1 r2 u1 c1 c2 h1 h2 a1 a2

theorem writtenPath_ne_of_same_kind (S D r1 r2 : Str) (hD : dollar ∉ D) (hne : r1 ≠ r2)
    (hk : extname (basename (S ++ r1)) = adocExt ↔ extname (basename (S ++ r2)) = adocExt) :
    writtenPath S D (S ++ r1) ≠ writtenPath S D (S ++ r2) := by
  unfold writtenPath
  rw [getOutputPath_append_left S D r1 hD, getOutputPath_append_left S D r2 hD]
  by_cases h1 : extname (basename (S ++ r1)) = adocExt
  · have h2 := hk.1 h1
    rw [if_pos h1, if_pos h2]
    exact fun e => hne (replaceAdocSuffix_doc_injective S D r1 r2 h1 h2 e)
  · have h2 : ¬ extname (basename (S ++ r2)) = adocExt := fun h => h1 (hk.2 h)
    rw [if_neg h1, if_neg h2]
    exact fun e => hne (List.append_cancel_left e)

/-! ## The rendering configuration -/

theorem getProp_setProp_self : ∀ (o : Obj) (key : Str) (v : Value), key ≠ protoKey →
    getProp (setProp o key v) key = some v
  | [], key, v, hp => by simp [setProp, getProp, hp]
  | (k, w) :: rest, key, v, hp => by
    by_cases h : k = key
    · simp [setProp, getProp, h]
    · simp [setProp, getProp, h, getProp_setProp_self rest key v hp]

theorem getProp_setProp_other : ∀ (o : Obj) (key key2 : Str) (v : Value), key2 ≠ key →
    getProp (setProp o key v) key2 = getProp o key2
  | [], key, key2, v, h => by
    by_cases hp : key = protoKey
    · simp [setProp, hp]
    · simp [setProp, getProp, hp, Ne.symm h]
  | (k, w) :: rest, key, key2, v, h => by
    by_cases hk : k = key
    · subst hk
      simp [setProp, getProp, Ne.symm h]
    · by_cases hk2 : k = key2
      · subst hk2
        simp [setProp, getProp, hk]
      · simp [setProp, getProp, hk, hk2, getProp_setProp_other rest key key2 v h]

theorem setProp_of_new_key : ∀ (o : Obj) (key : Str) (v : Value), key ≠ protoKey →
    key ∉ o.map Prod.fst → setProp o key v = o ++ [(key, v)]
  | [], key, v, hp, _ => by simp [setProp, hp]
  | (k, w) :: rest, key, v, hp, h => by
    have hk : k ≠ key := fun e =>
      h (List.mem_map.2 ⟨(k, w), List.mem_cons_self _ _, e⟩)
    have hr : key ∉ rest.map Prod.fst := fun hm =>
      h (by rw [List.map_cons]; exact List.mem_cons_of_mem _ hm)
    rw [setProp, if_neg hk, setProp_of_new_key rest key v hp hr]
    rfl

theorem objectAssign_append : ∀ (source target : Obj),
    ((target ++ source).map Prod.fst).Nodup → protoKey ∉ source.map Prod.fst →
    objectAssign target source = target ++ source
  | [], target, _, _ => by simp [objectAssign]
  | (k, v) :: rest, target, h, hp => by
    have hk : k ∉ target.map Prod.fst := by
      intro hm
      rw [List.map_append, List.nodup_append] at h
      exact h.2.2 hm (List.mem_map.2 ⟨(k, v), List.mem_cons_self _ _, rfl⟩)
    have hkp : k ≠ protoKey := fun e =>
      hp (List.mem_map.2 ⟨(k, v), List.mem_cons_self _ _, e⟩)
    have hrp : protoKey ∉ rest.map Prod.fst := fun hm =>
      hp (by rw [List.map_cons]; exact List.mem_cons_of_mem _ hm)
    have h2 : (((target ++ [(k, v)]) ++ rest).map Prod.fst).Nodup := by
      simpa using h
    have ih := objectAssign_append rest (target ++ [(k, v)]) h2 hrp
    unfold objectAssign at ih ⊢
    rw [List.foldl_cons, setProp_of_new_key target k v hkp hk, ih]
    simp

theorem objectAssign_clone (source : Obj) (h : (source.map Prod.fst).Nodup)
    (hp : protoKey ∉ source.map Prod.fst) : objectAssign [] source = source := by
  simpa using objectAssign_append source [] (by simpa using h) hp

theorem readRef_alloc_old (heap : Heap) (o : Obj) (ref : Nat) (h : ref < heap.length) :
    readRef (allocObj heap o).1 ref = readRef heap ref := by
  simp [readRef, allocObj, List.getD_eq_getElem?_getD, List.getElem?_append_left h]

theorem readRef_alloc_new (heap : Heap) (o : Obj) :
    readRef (allocObj heap o).1 (allocObj heap o).2 = o := by
  simp [readRef, allocObj, List.getD_eq_getElem?_getD]

theorem readRef_setRefProp_other (heap : Heap) (ref ref2 : Nat) (key : Str) (v : Value)
    (h : ref2 ≠ ref) : readRef (setRefProp heap ref key v) ref2 = readRef heap ref2 := by
  simp [readRef, setRefProp, List.getD_eq_getElem?_getD, List.getElem?_set_ne (Ne.symm h)]

theorem readRef_setRefProp_self (heap : Heap) (ref : Nat) (key : Str) (v : Value)
    (h : ref < heap.length) :
    readRef (setRefProp heap ref key v) ref = setProp (readRef heap ref) key v := by
  simp [readRef, setRefProp, List.getD_eq_getElem?_getD, List.getElem?_set_self h]

theorem adocToHtml_heap_frame (convert : Str → Obj → Str) (readFileSync : Str → Str)
    (cwd : Str) (heap : Heap) (adocParams : Nat) (sourceFile targetFile : Str)
    (targetCss : Option Str) (ref : Nat) (h : ref < heap.length) :
    readRef (adocToHtml convert readFileSync cwd heap adocParams sourceFile targetFile
      targetCss).heap ref = readRef heap ref := by
  have hne : ref ≠ heap.length := Nat.ne_of_lt h
  unfold adocToHtml
  simp only
  cases targetCss with
  | none => exact readRef_alloc_old heap _ ref h
  | some css =>
    by_cases hc : css = []
    · simp only [hc, ne_eq, not_true_eq_false, if_false]
      exact readRef_alloc_old heap _ ref h
    · simp only [ne_eq, hc, not_false_eq_true, if_true]
      rw [readRef_setRefProp_other _ _ _ _ _ (by simpa [allocObj] using hne)]
      exact readRef_alloc_old heap _ ref h

theorem adocToHtml_options_without_css (convert : Str → Obj → Str) (readFileSync : Str → Str)
    (cwd : Str) (heap : Heap) (adocParams : Nat) (sourceFile targetFile : Str)
    (hkeys : ((readRef heap adocParams).map Prod.fst).Nodup)
    (hproto : protoKey ∉ (readRef heap adocParams).map Prod.fst) :
    (adocToHtml convert readFileSync cwd heap adocParams sourceFile targetFile
      none).options = readRef heap adocParams := by
  unfold adocToHtml
  simp only
  rw [readRef_alloc_new, objectAssign_clone _ hkeys hproto]

theorem adocToHtml_options_with_css (convert : Str → Obj → Str) (readFileSync : Str → Str)
    (cwd : Str) (heap : Heap) (adocParams : Nat) (sourceFile targetFile css : Str)
    (hkeys : ((readRef heap adocParams).map Prod.fst).Nodup)
    (hproto : protoKey ∉ (readRef heap adocParams).map Prod.fst) (hcss : css ≠ []) :
    (adocToHtml convert readFileSync cwd heap adocParams sourceFile targetFile
      (some css)).options = setProp (readRef heap adocParams) attributesKey
        (Value.str (linkcssDirective ++ getRelativeCssFile cwd targetFile css)) := by
  unfold adocToHtml
  simp only [ne_eq, hcss, not_false_eq_true, if_true]
  have hlt : (allocObj heap (objectAssign [] (readRef heap adocParams))).2
      < (allocObj heap (objectAssign [] (readRef heap adocParams))).1.length := by
    simp [allocObj]
  rw [readRef_setRefProp_self _ _ _ _ hlt, readRef_alloc_new,
    objectAssign_clone _ hkeys hproto]

theorem attributesKey_ne_protoKey : attributesKey ≠ protoKey := by decide

/-! ## Path components -/

theorem splitOnSep_ne_nil : ∀ s : Str, splitOnSep s ≠ []
  | [] => by simp [splitOnSep]
  | c :: t => by
    unfold splitOnSep
    split
    · simp
    · split <;> simp

theorem splitOnSep_append_sep : ∀ x y : Str,
    splitOnSep (x ++ sep :: y) = splitOnSep x ++ splitOnSep y
  | [], y => by simp [splitOnSep]
  | c :: x, y => by
    have ih := splitOnSep_append_sep x y
    rw [List.cons_append, splitOnSep, splitOnSep, ih]
    by_cases hc : c = sep
    · simp [hc]
    · rw [if_neg hc, if_neg hc]
      cases hx : splitOnSep x with
      | nil => exact absurd hx (splitOnSep_ne_nil x)
      | cons seg segs => rfl

theorem splitOnSep_of_no_sep : ∀ s : Str, sep ∉ s → splitOnSep s = [s]
  | [], _ => rfl
  | c :: t, h => by
    have hc : c ≠ sep := fun e => h (by simp [e])
    rw [splitOnSep, if_neg hc, splitOnSep_of_no_sep t (fun hm => h (List.mem_cons_of_mem _ hm))]

theorem no_sep_of_mem_splitOnSep : ∀ (s seg : Str), seg ∈ splitOnSep s → sep ∉ seg
  | [], seg, h => by
    simp only [splitOnSep, List.mem_singleton] at h
    rw [h]; simp
  | c :: t, seg, h => by
    unfold splitOnSep at h
    by_cases hc : c = sep
    · rw [if_pos hc] at h
      rcases List.mem_cons.1 h with e | e
      · rw [e]; simp
      · exact no_sep_of_mem_splitOnSep t seg e
    · rw [if_neg hc] at h
      cases hx : splitOnSep t with
      | nil => exact absurd hx (splitOnSep_ne_nil t)
      | cons seg1 segs =>
        rw [hx] at h
        have h1 : sep ∉ seg1 := no_sep_of_mem_splitOnSep t seg1 (by rw [hx]; simp)
        rcases List.mem_cons.1 h with e | e
        · rw [e]
          intro hm
          rcases List.mem_cons.1 hm with e2 | e2
          · exact hc e2.symm
          · exact h1 e2
        · exact no_sep_of_mem_splitOnSep t seg (by rw [hx]; exact List.mem_cons_of_mem _ e)

theorem splitOnSep_joinSegs : ∀ segs : List Str, segs ≠ [] → (∀ seg ∈ segs, sep ∉ seg) →
    splitOnSep (joinSegs segs) = segs
  | [], h, _ => absurd rfl h
  | [seg], _, hs => by
    rw [joinSegs, splitOnSep_of_no_sep seg (hs seg (List.mem_singleton_self seg))]
  | seg :: seg2 :: more, _, hs => by
    have e : joinSegs (seg :: seg2 :: more) = seg ++ sep :: joinSegs (seg2 :: more) := rfl
    rw [e, splitOnSep_append_sep,
      splitOnSep_of_no_sep seg (hs seg (List.mem_cons_self _ _)),
      splitOnSep_joinSegs (seg2 :: more) (by simp)
        (fun x hx => hs x (List.mem_cons_of_mem _ hx))]
    rfl

theorem splitOnSep_append_singleton_sep (x : Str) :
    splitOnSep (x ++ [sep]) = splitOnSep x ++ [[]] := by
  rw [splitOnSep_append_sep]; rfl

/-! ## The normalisation step -/

theorem normStep_nil (a : Bool) (st : List Str) : normStep a st [] = st := by
  simp [normStep]

theorem normStep_dot (a : Bool) (st : List Str) : normStep a st dot = st := by
  simp [normStep]

theorem normStep_push (a : Bool) (st : List Str) (seg : Str) (h1 : seg ≠ []) (h2 : seg ≠ dot)
    (h3 : seg ≠ dotdot) : normStep a st seg = seg :: st := by
  simp [normStep, h1, h2, h3]

theorem dotdot_ne_nil : dotdot ≠ [] := by decide

theorem dotdot_ne_dot : dotdot ≠ dot := by decide

theorem normStep_pop (a : Bool) (top : Str) (below : List Str) (h : top ≠ dotdot) :
    normStep a (top :: below) dotdot = below := by
  simp [normStep, dotdot_ne_nil, dotdot_ne_dot, h]

theorem foldl_normStep_append_singleton (a : Bool) (st : List Str) (l : List Str) (x : Str) :
    (l ++ [x]).foldl (normStep a) st = normStep a (l.foldl (normStep a) st) x := by
  rw [List.foldl_append]; rfl

theorem foldl_normStep_of_all_nil (a : Bool) : ∀ (l : List Str) (st : List Str),
    (∀ seg ∈ l, seg = []) → l.foldl (normStep a) st = st
  | [], _, _ => rfl
  | x :: l, st, h => by
    rw [List.foldl_cons, h x (List.mem_cons_self _ _), normStep_nil,
      foldl_normStep_of_all_nil a l st (fun seg hs => h seg (List.mem_cons_of_mem _ hs))]

theorem goodStack_normStep (a : Bool) (st : List Str) (seg : Str) (h : GoodStack st) :
    GoodStack (normStep a st seg) := by
  unfold normStep
  by_cases h1 : seg = [] ∨ seg = dot
  · rw [if_pos h1]; exact h
  · rw [if_neg h1]
    have hgood : seg ≠ [] ∧ seg ≠ dot := ⟨fun e => h1 (Or.inl e), fun e => h1 (Or.inr e)⟩
    by_cases h2 : seg = dotdot
    · rw [if_pos h2]
      have hdd : GoodStack (dotdot :: st) := by
        intro x hx
        rcases List.mem_cons.1 hx with e | e
        · rw [e]; exact ⟨dotdot_ne_nil, dotdot_ne_dot⟩
        · exact h x e
      cases st with
      | nil =>
        cases a
        · intro x hx; simp at hx
        · exact hdd
      | cons top below =>
        simp only
        by_cases h3 : top = dotdot
        · rw [if_pos h3]
          cases a
          · exact h
          · exact hdd
        · rw [if_neg h3]
          exact fun x hx => h x (List.mem_cons_of_mem _ hx)
    · rw [if_neg h2]
      intro x hx
      rcases List.mem_cons.1 hx with e | e
      · rw [e]; exact hgood
      · exact h x e

theorem goodStack_foldl (a : Bool) : ∀ (l : List Str) (st : List Str), GoodStack st →
    GoodStack (l.foldl (normStep a) st)
  | [], _, h => h
  | x :: l, st, h => goodStack_foldl a l _ (goodStack_normStep a st x h)

theorem goodStack_nil : GoodStack [] := fun _ h => by simp at h

theorem goodStack_normStack (a : Bool) (p : Str) : GoodStack (normStack a p) :=
  goodStack_foldl a _ _ goodStack_nil

theorem no_sep_normStep (a : Bool) (st : List Str) (seg : Str)
    (h : ∀ x ∈ st, sep ∉ x) (hs : sep ∉ seg) : ∀ x ∈ normStep a st seg, sep ∉ x := by
  have hdd : sep ∉ dotdot := by decide
  unfold normStep
  by_cases h1 : seg = [] ∨ seg = dot
  · rw [if_pos h1]; exact h
  · rw [if_neg h1]
    by_cases h2 : seg = dotdot
    · rw [if_pos h2]
      cases st with
      | nil =>
        cases a
        · intro x hx; simp at hx
        · intro x hx
          simp only [if_true, List.mem_singleton] at hx
          rw [hx]; exact hdd
      | cons top below =>
        simp only
        by_cases h3 : top = dotdot
        · rw [if_pos h3]
          cases a
          · exact h
          · intro x hx
            simp only [if_true] at hx
            rcases List.mem_cons.1 hx with e | e
            · rw [e]; exact hdd
            · exact h x e
        · rw [if_neg h3]
          exact fun x hx => h x (List.mem_cons_of_mem _ hx)
    · rw [if_neg h2]
      intro x hx
      rcases List.mem_cons.1 hx with e | e
      · rw [e]; exact hs
      · exact h x e

theorem no_sep_foldl (a : Bool) : ∀ (l : List Str) (st : List Str),
    (∀ x ∈ st, sep ∉ x) → (∀ x ∈ l, sep ∉ x) → ∀ x ∈ l.foldl (normStep a) st, sep ∉ x
  | [], _, h, _ => h
  | y :: l, st, h, hl =>
    no_sep_foldl a l _ (no_sep_normStep a st y h (hl y (List.mem_cons_self _ _)))
      (fun x hx => hl x (List.mem_cons_of_mem _ hx))

theorem no_sep_normStack (a : Bool) (p : Str) : ∀ x ∈ normStack a p, sep ∉ x :=
  no_sep_foldl a _ _ (fun _ h => by simp at h) (fun x hx => no_sep_of_mem_splitOnSep p x hx)

theorem no_dotdot_normStep_false (st : List Str) (seg : Str) (h : dotdot ∉ st) :
    dotdot ∉ normStep false st seg := by
  unfold normStep
  by_cases h1 : seg = [] ∨ seg = dot
  · rw [if_pos h1]; exact h
  · rw [if_neg h1]
    by_cases h2 : seg = dotdot
    · rw [if_pos h2]
      cases st with
      | nil => simp
      | cons top below =>
        simp only
        by_cases h3 : top = dotdot
        · rw [if_pos h3]; simpa using h
        · rw [if_neg h3]
          exact fun hm => h (List.mem_cons_of_mem _ hm)
    · rw [if_neg h2]
      intro hm
      rcases List.mem_cons.1 hm with e | e
      · exact h2 e.symm
      · exact h e

theorem no_dotdot_foldl_false : ∀ (l : List Str) (st : List Str), dotdot ∉ st →
    dotdot ∉ l.foldl (normStep false) st
  | [], _, h => h
  | x :: l, st, h => no_dotdot_foldl_false l _ (no_dotdot_normStep_false st x h)

theorem no_dotdot_normStack_false (p : Str) : dotdot ∉ normStack false p :=
  no_dotdot_foldl_false _ _ (by simp)

/-- Processing the normal form of a list of components on a stack gives the
same stack as processing the components themselves. -/
theorem foldl_normStep_normal_form (m : Bool) (st : List Str) (xs : List Str) :
    (xs.foldl (normStep true) []).reverse.foldl (normStep m) st = xs.foldl (normStep m) st := by
  induction xs using List.reverseRecOn with
  | nil => rfl
  | append_singleton l x ih =>
    rw [foldl_normStep_append_singleton, foldl_normStep_append_singleton, ← ih]
    have hgood : GoodStack (l.foldl (normStep true) []) := goodStack_foldl true l [] goodStack_nil
    generalize l.foldl (normStep true) [] = N at hgood ih ⊢
    by_cases h1 : x = [] ∨ x = dot
    · have e : ∀ (a : Bool) (s : List Str), normStep a s x = s := by
        intro a s
        rcases h1 with e | e
        · rw [e]; exact normStep_nil a s
        · rw [e]; exact normStep_dot a s
      rw [e, e]
    · have hx1 : x ≠ [] := fun e => h1 (Or.inl e)
      have hx2 : x ≠ dot := fun e => h1 (Or.inr e)
      by_cases h2 : x = dotdot
      · subst h2
        cases N with
        | nil => simp [normStep, dotdot_ne_nil, dotdot_ne_dot]
        | cons top below =>
          by_cases h3 : top = dotdot
          · have e : normStep true (top :: below) dotdot = dotdot :: top :: below := by
              simp [normStep, dotdot_ne_nil, dotdot_ne_dot, h3]
            rw [e, List.reverse_cons, foldl_normStep_append_singleton]
          · rw [normStep_pop true top below h3, List.reverse_cons,
              foldl_normStep_append_singleton,
              normStep_push m _ top (hgood top (List.mem_cons_self _ _)).1
                (hgood top (List.mem_cons_self _ _)).2 h3,
              normStep_pop m top _ h3]
      · rw [normStep_push true N x hx1 hx2 h2, List.reverse_cons,
          foldl_normStep_append_singleton]

theorem dotdot_mem_normStep_true (st : List Str) (seg : Str) (h : dotdot ∈ st) :
    dotdot ∈ normStep true st seg := by
  unfold normStep
  by_cases h1 : seg = [] ∨ seg = dot
  · rw [if_pos h1]; exact h
  · rw [if_neg h1]
    by_cases h2 : seg = dotdot
    · rw [if_pos h2]
      cases st with
      | nil => simp
      | cons top below =>
        simp only
        by_cases h3 : top = dotdot
        · rw [if_pos h3]; simp
        · rw [if_neg h3]
          rcases List.mem_cons.1 h with e | e
          · exact absurd e.symm h3
          · exact e
    · rw [if_neg h2]
      exact List.mem_cons_of_mem _ h

/-- A list of components whose normal form has no `..` never climbs above its
starting point: processed on any stack, it puts its normal form on top. -/
theorem foldl_normStep_of_no_dotdot (a : Bool) (st : List Str) (xs : List Str)
    (h : dotdot ∉ xs.foldl (normStep true) []) :
    xs.foldl (normStep a) st = xs.foldl (normStep true) [] ++ st := by
  induction xs using List.reverseRecOn with
  | nil => rfl
  | append_singleton l x ih =>
    rw [foldl_normStep_append_singleton] at h ⊢
    rw [foldl_normStep_append_singleton]
    have hl : dotdot ∉ l.foldl (normStep true) [] :=
      fun hm => h (dotdot_mem_normStep_true _ x hm)
    rw [ih hl]
    generalize l.foldl (normStep true) [] = N at h hl ⊢
    by_cases h1 : x = [] ∨ x = dot
    · have e : ∀ (b : Bool) (s : List Str), normStep b s x = s := by
        intro b s
        rcases h1 with e | e
        · rw [e]; exact normStep_nil b s
        · rw [e]; exact normStep_dot b s
      rw [e, e]
    · have hx1 : x ≠ [] := fun e => h1 (Or.inl e)
      have hx2 : x ≠ dot := fun e => h1 (Or.inr e)
      by_cases h2 : x = dotdot
      · subst h2
        cases N with
        | nil => simp [normStep, dotdot_ne_nil, dotdot_ne_dot] at h
        | cons top below =>
          have h3 : top ≠ dotdot := fun e => hl (by simp [e])
          rw [normStep_pop true top below h3, List.cons_append, normStep_pop a top _ h3]
      · rw [normStep_push true N x hx1 hx2 h2, normStep_push a _ x hx1 hx2 h2]
        rfl

theorem foldl_normStep_pops (a : Bool) (base : List Str) : ∀ tops : List Str,
    dotdot ∉ tops →
    (List.replicate tops.length dotdot).foldl (normStep a) (tops ++ base) = base
  | [], _ => rfl
  | top :: tops, h => by
    have h3 : top ≠ dotdot := fun e => h (by simp [e])
    rw [List.length_cons, List.replicate_succ, List.foldl_cons, List.cons_append,
      normStep_pop a top _ h3]
    exact foldl_normStep_pops a base tops (fun hm => h (List.mem_cons_of_mem _ hm))

theorem foldl_normStep_pushes (a : Bool) : ∀ (segs : List Str) (base : List Str),
    (∀ seg ∈ segs, seg ≠ [] ∧ seg ≠ dot ∧ seg ≠ dotdot) →
    segs.foldl (normStep a) base = segs.reverse ++ base
  | [], _, _ => rfl
  | seg :: segs, base, h => by
    obtain ⟨h1, h2, h3⟩ := h seg (List.mem_cons_self _ _)
    rw [List.foldl_cons, normStep_push a base seg h1 h2 h3,
      foldl_normStep_pushes a segs _ (fun x hx => h x (List.mem_cons_of_mem _ hx))]
    simp

/-! ## Common leading components and the action of a relative path -/

theorem commonPrefixLength_self : ∀ l : List Str, commonPrefixLength l l = l.length
  | [] => rfl
  | a :: l => by simp [commonPrefixLength, commonPrefixLength_self l]

theorem commonPrefixLength_append : ∀ w a b : List Str,
    commonPrefixLength (w ++ a) (w ++ b) = w.length + commonPrefixLength a b
  | [], a, b => by simp
  | x :: w, a, b => by
    show commonPrefixLength (x :: (w ++ a)) (x :: (w ++ b)) = _
    rw [commonPrefixLength, if_pos rfl, commonPrefixLength_append w a b, List.length_cons]
    omega

theorem commonPrefixLength_spec : ∀ a b : List Str,
    a.take (commonPrefixLength a b) = b.take (commonPrefixLength a b) ∧
    commonPrefixLength a b ≤ a.length
  | [], b => by simp [commonPrefixLength]
  | x :: a, [] => by simp [commonPrefixLength]
  | x :: a, y :: b => by
    by_cases h : x = y
    · obtain ⟨h1, h2⟩ := commonPrefixLength_spec a b
      simp only [commonPrefixLength, if_pos h, List.take_succ_cons, List.length_cons]
      exact ⟨by rw [h, h1], by omega⟩
    · simp [commonPrefixLength, h]

theorem plainSegs_of_good (st : List Str) (h : GoodStack st) (hd : dotdot ∉ st) :
    PlainSegs st := fun seg hs =>
  ⟨(h seg hs).1, (h seg hs).2, fun e => hd (e ▸ hs)⟩

theorem plainSegs_reverse (l : List Str) (h : PlainSegs l) : PlainSegs l.reverse :=
  fun seg hs => h seg (List.mem_reverse.1 hs)

/-! ## `normalize` and the path it builds -/

theorem joinSegs_cons_cons (seg seg2 : Str) (more : List Str) :
    joinSegs (seg :: seg2 :: more) = seg ++ sep :: joinSegs (seg2 :: more) := rfl

theorem joinSegs_eq_nil : ∀ segs : List Str, (∀ seg ∈ segs, seg ≠ []) →
    joinSegs segs = [] → segs = []
  | [], _, _ => rfl
  | [seg], h, e => absurd e (h seg (List.mem_singleton_self seg))
  | seg :: seg2 :: more, _, e => by
    rw [joinSegs_cons_cons] at e
    exact absurd (congrArg List.length e) (by simp)

theorem isAbsolute_joinSegs : ∀ segs : List Str, (∀ seg ∈ segs, seg ≠ [] ∧ sep ∉ seg) →
    isAbsolute (joinSegs segs) = false
  | [], _ => rfl
  | seg :: more, h => by
    obtain ⟨h1, h2⟩ := h seg (List.mem_cons_self _ _)
    cases seg with
    | nil => exact absurd rfl h1
    | cons c t =>
      have hc : c ≠ sep := fun e => h2 (by simp [e])
      cases more with
      | nil => simp [joinSegs, isAbsolute, hc]
      | cons seg2 more2 => simp [joinSegs_cons_cons, isAbsolute, hc]

theorem getLast?_append_sep_cons (x y : Str) (h : y ≠ []) :
    (x ++ sep :: y).getLast? = y.getLast? := by
  have e : x ++ sep :: y = (x ++ [sep]) ++ y := by simp
  rw [e, List.getLast?_append_of_ne_nil _ h]

theorem hasTrailingSep_of_no_sep (seg : Str) (h : sep ∉ seg) : hasTrailingSep seg = false := by
  unfold hasTrailingSep
  rw [decide_eq_false_iff_not]
  intro e
  exact h (List.mem_of_getLast?_eq_some e)

theorem hasTrailingSep_joinSegs : ∀ segs : List Str, (∀ seg ∈ segs, seg ≠ [] ∧ sep ∉ seg) →
    hasTrailingSep (joinSegs segs) = false
  | [], _ => rfl
  | [seg], h => hasTrailingSep_of_no_sep seg (h seg (List.mem_singleton_self seg)).2
  | seg :: seg2 :: more, h => by
    have ih := hasTrailingSep_joinSegs (seg2 :: more)
      (fun x hx => h x (List.mem_cons_of_mem _ hx))
    have hne : joinSegs (seg2 :: more) ≠ [] := by
      intro e
      have := joinSegs_eq_nil (seg2 :: more)
        (fun x hx => (h x (List.mem_cons_of_mem _ hx)).1) e
      simp at this
    unfold hasTrailingSep at ih ⊢
    rw [joinSegs_cons_cons, getLast?_append_sep_cons _ _ hne]
    exact ih

theorem normalize_eq_buildPath (p : Str) :
    normalize p = buildPath (isAbsolute p) (normStack (!isAbsolute p) p) (hasTrailingSep p) := by
  by_cases hp : p = []
  · subst hp; decide
  · simp only [normalize, if_neg hp, normalizeString, normSegments, buildPath]

theorem foldl_normStep_nil_cons (a : Bool) (st : List Str) (l : List Str) :
    (([] : Str) :: l).foldl (normStep a) st = l.foldl (normStep a) st := by
  rw [List.foldl_cons, normStep_nil]

theorem good_sep_reverse (st : List Str) (hg : GoodStack st) (hs : ∀ x ∈ st, sep ∉ x) :
    ∀ seg ∈ st.reverse, seg ≠ [] ∧ sep ∉ seg :=
  fun seg h => ⟨(hg seg (List.mem_reverse.1 h)).1, hs seg (List.mem_reverse.1 h)⟩

/-- The components of a built path are the components it was built from. -/
theorem foldl_splitOnSep_buildPath (m absolute trailing : Bool) (st base : List Str)
    (hg : GoodStack st) (hs : ∀ x ∈ st, sep ∉ x) :
    (splitOnSep (buildPath absolute st trailing)).foldl (normStep m) base
      = st.reverse.foldl (normStep m) base := by
  unfold buildPath
  by_cases hj : joinSegs st.reverse = []
  · have hst : st.reverse = [] :=
      joinSegs_eq_nil _ (fun seg h => (good_sep_reverse st hg hs seg h).1) hj
    rw [if_pos hj, hst]
    cases absolute <;> cases trailing <;> simp [splitOnSep, normStep, dot, sep]
  · have hne : st.reverse ≠ [] := fun e => hj (by rw [e]; rfl)
    have hsp := splitOnSep_joinSegs st.reverse hne
      (fun seg h => (good_sep_reverse st hg hs seg h).2)
    rw [if_neg hj]
    cases absolute <;> cases trailing
    · simp [hsp]
    · simp only [Bool.false_eq_true, if_false, if_true, List.nil_append]
      show (splitOnSep (joinSegs st.reverse ++ [sep])).foldl (normStep m) base = _
      rw [splitOnSep_append_singleton_sep, hsp, foldl_normStep_append_singleton, normStep_nil]
    · simp only [Bool.false_eq_true, if_false, if_true, List.append_nil]
      show (splitOnSep ([] ++ sep :: joinSegs st.reverse)).foldl (normStep m) base = _
      rw [splitOnSep_append_sep, hsp]
      simp [splitOnSep, normStep]
    · simp only [if_true]
      show (splitOnSep ([] ++ sep :: (joinSegs st.reverse ++ [sep]))).foldl (normStep m) base = _
      rw [splitOnSep_append_sep, splitOnSep_append_singleton_sep, hsp]
      simp [splitOnSep, normStep]

theorem isAbsolute_buildPath (absolute trailing : Bool) (st : List Str)
    (hg : GoodStack st) (hs : ∀ x ∈ st, sep ∉ x) :
    isAbsolute (buildPath absolute st trailing) = absolute := by
  unfold buildPath
  by_cases hj : joinSegs st.reverse = []
  · rw [if_pos hj]
    cases absolute <;> cases trailing <;> decide
  · rw [if_neg hj]
    have h := isAbsolute_joinSegs st.reverse (good_sep_reverse st hg hs)
    cases absolute
    · cases hjs : joinSegs st.reverse with
      | nil => exact absurd hjs hj
      | cons c t =>
        rw [hjs] at h
        simpa [isAbsolute] using h
    · simp [isAbsolute, sep]

theorem buildPath_hasTrailingSep (absolute trailing : Bool) (st : List Str)
    (hg : GoodStack st) (hs : ∀ x ∈ st, sep ∉ x) :
    buildPath absolute st (hasTrailingSep (buildPath absolute st trailing))
      = buildPath absolute st trailing := by
  by_cases hj : joinSegs st.reverse = []
  · unfold buildPath
    simp only [if_pos hj]
    cases absolute <;> cases trailing <;> decide
  · have h := hasTrailingSep_joinSegs st.reverse (good_sep_reverse st hg hs)
    have ht : hasTrailingSep (buildPath absolute st trailing) = trailing := by
      unfold buildPath
      rw [if_neg hj]
      cases trailing
      · simp only [Bool.false_eq_true, if_false, List.append_nil]
        cases absolute
        · simpa using h
        · unfold hasTrailingSep at h ⊢
          simp only [if_true]
          rw [show [47] ++ joinSegs st.reverse = [] ++ sep :: joinSegs st.reverse from rfl,
            getLast?_append_sep_cons _ _ hj]
          exact h
      · simp [hasTrailingSep, sep]
    rw [ht]

theorem normStack_buildPath_normStack (p : Str) (trailing : Bool) :
    normStack (!isAbsolute p) (buildPath (isAbsolute p) (normStack (!isAbsolute p) p) trailing)
      = normStack (!isAbsolute p) p := by
  have hg := goodStack_normStack (!isAbsolute p) p
  have hs := no_sep_normStack (!isAbsolute p) p
  rw [normStack, foldl_splitOnSep_buildPath _ _ _ _ _ hg hs]
  cases hab : isAbsolute p
  · exact foldl_normStep_normal_form true [] (splitOnSep p)
  · have hpl : PlainSegs (normStack false p) :=
      plainSegs_of_good _ (goodStack_normStack false p) (no_dotdot_normStack_false p)
    simp only [Bool.not_true]
    rw [foldl_normStep_pushes false _ _ (plainSegs_reverse _ hpl)]
    simp

theorem normalize_normalize (p : Str) : normalize (normalize p) = normalize p := by
  have hg := goodStack_normStack (!isAbsolute p) p
  have hs := no_sep_normStack (!isAbsolute p) p
  have e := normalize_eq_buildPath (normalize p)
  rw [normalize_eq_buildPath p] at e ⊢
  rw [isAbsolute_buildPath _ _ _ hg hs, normStack_buildPath_normStack,
    buildPath_hasTrailingSep _ _ _ hg hs] at e
  exact e

/-! ## `dirname` and `basename` split a path at its last component -/

theorem dropWhile_append_of_all (q : Nat → Bool) : ∀ (a b : Str), (∀ x ∈ a, q x = true) →
    (a ++ b).dropWhile q = b.dropWhile q
  | [], _, _ => rfl
  | x :: a, b, h => by
    rw [List.cons_append, List.dropWhile_cons_of_pos (h x (List.mem_cons_self _ _))]
    exact dropWhile_append_of_all q a b (fun y hy => h y (List.mem_cons_of_mem _ hy))

theorem takeWhile_append_of_all (q : Nat → Bool) : ∀ (a b : Str), (∀ x ∈ a, q x = true) →
    (a ++ b).takeWhile q = a ++ b.takeWhile q
  | [], _, _ => rfl
  | x :: a, b, h => by
    rw [List.cons_append, List.takeWhile_cons_of_pos (h x (List.mem_cons_self _ _)),
      takeWhile_append_of_all q a b (fun y hy => h y (List.mem_cons_of_mem _ hy))]
    rfl

theorem path_tail_cases : ∀ t : Str,
    (∃ comp ss : Str, t = comp ++ ss ∧ sep ∉ comp ∧ AllSep ss) ∨
    (∃ pre comp ss : Str, t = pre ++ sep :: (comp ++ ss) ∧ comp ≠ [] ∧ sep ∉ comp ∧ AllSep ss)
  | [] => Or.inl ⟨[], [], rfl, by simp, fun _ h => by simp at h⟩
  | c :: t => by
    rcases path_tail_cases t with ⟨comp, ss, e, h1, h2⟩ | ⟨pre, comp, ss, e, h0, h1, h2⟩
    · by_cases hc : c = sep
      · by_cases hcomp : comp = []
        · left
          refine ⟨[], c :: t, rfl, by simp, ?_⟩
          intro x hx
          rcases List.mem_cons.1 hx with e2 | e2
          · rw [e2, hc]
          · rw [e, hcomp] at e2
            exact h2 x e2
        · right
          exact ⟨[], comp, ss, by rw [e, hc]; rfl, hcomp, h1, h2⟩
      · left
        refine ⟨c :: comp, ss, by rw [e]; rfl, ?_, h2⟩
        intro hm
        rcases List.mem_cons.1 hm with e2 | e2
        · exact hc e2.symm
        · exact h1 e2
    · right
      exact ⟨c :: pre, comp, ss, by rw [e]; rfl, h0, h1, h2⟩

theorem allSep_reverse (ss : Str) (h : AllSep ss) :
    ∀ x ∈ ss.reverse, decide (x = sep) = true :=
  fun x hx => decide_eq_true (h x (List.mem_reverse.1 hx))

theorem no_sep_reverse (comp : Str) (h : sep ∉ comp) :
    ∀ x ∈ comp.reverse, decide (x ≠ sep) = true :=
  fun _ hx => decide_eq_true (fun e => h (e ▸ List.mem_reverse.1 hx))

theorem lastPart_append_seps (w ss : Str) (hw : sep ∉ w) (hss : AllSep ss) :
    lastPart (w ++ ss) = w := by
  have hr : sep ∉ w.reverse := fun hm => hw (List.mem_reverse.1 hm)
  unfold lastPart
  rw [List.reverse_append, dropWhile_append_of_all _ _ _ (allSep_reverse ss hss),
    dropWhile_sep_of_not_mem _ hr, takeWhile_sep_of_not_mem _ hr, List.reverse_reverse]

theorem dropWhile_sep_comp (comp rest : Str) (h0 : comp ≠ []) (h1 : sep ∉ comp) :
    (comp.reverse ++ rest).dropWhile (fun x => decide (x = sep)) = comp.reverse ++ rest := by
  cases hr : comp.reverse with
  | nil => exact absurd (List.reverse_eq_nil_iff.1 hr) h0
  | cons d ds =>
    have hd : d ≠ sep := by
      intro e
      apply h1
      rw [← List.mem_reverse, hr, e]
      exact List.mem_cons_self _ _
    rw [List.cons_append, List.dropWhile_cons_of_neg (by simpa using hd)]

theorem lastPart_of_last_component (pre comp ss : Str) (h0 : comp ≠ []) (h1 : sep ∉ comp)
    (hss : AllSep ss) : lastPart (pre ++ sep :: (comp ++ ss)) = comp := by
  unfold lastPart
  have e : (pre ++ sep :: (comp ++ ss)).reverse
      = ss.reverse ++ (comp.reverse ++ sep :: pre.reverse) := by simp
  rw [e, dropWhile_append_of_all _ _ _ (allSep_reverse ss hss),
    dropWhile_sep_comp comp _ h0 h1,
    takeWhile_append_of_all _ _ _ (no_sep_reverse comp h1)]
  simp

theorem dirname_scan_no_slash (comp ss : Str) (h1 : sep ∉ comp) (hss : AllSep ss) :
    (((comp ++ ss).reverse.dropWhile (fun x => decide (x = sep))).dropWhile
      (fun x => decide (x ≠ sep))) = [] := by
  have hr : sep ∉ comp.reverse := fun hm => h1 (List.mem_reverse.1 hm)
  rw [List.reverse_append, dropWhile_append_of_all _ _ _ (allSep_reverse ss hss),
    dropWhile_sep_of_not_mem _ hr]
  have := dropWhile_append_of_all (fun x => decide (x ≠ sep)) comp.reverse []
    (no_sep_reverse comp h1)
  simpa using this

theorem dirname_scan_slash (pre comp ss : Str) (h0 : comp ≠ []) (h1 : sep ∉ comp)
    (hss : AllSep ss) :
    (((pre ++ sep :: (comp ++ ss)).reverse.dropWhile (fun x => decide (x = sep))).dropWhile
      (fun x => decide (x ≠ sep))) = sep :: pre.reverse := by
  have e : (pre ++ sep :: (comp ++ ss)).reverse
      = ss.reverse ++ (comp.reverse ++ sep :: pre.reverse) := by simp
  rw [e, dropWhile_append_of_all _ _ _ (allSep_reverse ss hss),
    dropWhile_sep_comp comp _ h0 h1,
    dropWhile_append_of_all _ _ _ (no_sep_reverse comp h1)]
  simp [List.dropWhile]

theorem splitOnSep_append_seps (a : Bool) (st : List Str) (w ss : Str) (h : AllSep ss) :
    (splitOnSep (w ++ ss)).foldl (normStep a) st = (splitOnSep w).foldl (normStep a) st := by
  induction ss using List.reverseRecOn with
  | nil => simp
  | append_singleton l c ih =>
    have hc : c = sep := h c (by simp)
    have hl : AllSep l := fun y hy => h y (by simp [hy])
    rw [← List.append_assoc, hc, splitOnSep_append_singleton_sep,
      foldl_normStep_append_singleton, normStep_nil, ih hl]

theorem normStack_no_sep_append_seps (a : Bool) (w ss : Str) (hw : sep ∉ w) (hss : AllSep ss) :
    normStack a (w ++ ss) = normStep a [] w := by
  rw [normStack, splitOnSep_append_seps a [] w ss hss, splitOnSep_of_no_sep w hw]
  rfl

theorem normStack_append_last (a : Bool) (pre comp ss : Str) (h1 : sep ∉ comp)
    (hss : AllSep ss) :
    normStack a (pre ++ sep :: (comp ++ ss)) = normStep a (normStack a pre) comp := by
  rw [normStack, splitOnSep_append_sep, List.foldl_append,
    splitOnSep_append_seps a _ comp ss hss, splitOnSep_of_no_sep comp h1]
  rfl

theorem normStack_root (a : Bool) : normStack a [47] = [] := by
  cases a <;> decide

theorem normStack_double_root (a : Bool) : normStack a [47, 47] = [] := by
  cases a <;> decide

theorem normStack_dot (a : Bool) : normStack a [46] = [] := by
  cases a <;> decide

/-- The components of a path are those of its `dirname` followed by its
`basename`. -/
theorem normStack_dirname_basename (a : Bool) : ∀ p : Str,
    normStack a p = normStep a (normStack a (dirname p)) (basename p)
  | [] => by cases a <;> decide
  | c :: t => by
    rcases path_tail_cases t with ⟨comp, ss, e, h1, h2⟩ | ⟨pre, comp, ss, e, h0, h1, h2⟩
    · have hd : dirname (c :: t) = if c = sep then [47] else [46] := by
        rw [dirname, e, dirname_scan_no_slash comp ss h1 h2]
      by_cases hc : c = sep
      · rw [hd, if_pos hc, normStack_root]
        by_cases hcomp : comp = []
        · have hall : AllSep (c :: t) := by
            intro x hx
            rcases List.mem_cons.1 hx with e2 | e2
            · rw [e2, hc]
            · rw [e, hcomp] at e2
              exact h2 x e2
          have hb : basename (c :: t) = [] :=
            lastPart_append_seps [] (c :: t) (by simp) hall
          rw [hb, normStep_nil]
          exact normStack_no_sep_append_seps a [] (c :: t) (by simp) hall
        · have hp : c :: t = [] ++ sep :: (comp ++ ss) := by rw [e, hc]; rfl
          have hb : basename (c :: t) = comp := by
            rw [basename, hp]
            exact lastPart_of_last_component [] comp ss hcomp h1 h2
          rw [hb, hp, normStack_append_last a [] comp ss h1 h2]
          rfl
      · have hw : sep ∉ c :: comp := by
          intro hm
          rcases List.mem_cons.1 hm with e2 | e2
          · exact hc e2.symm
          · exact h1 e2
        have hp : c :: t = (c :: comp) ++ ss := by rw [e]; rfl
        have hb : basename (c :: t) = c :: comp := by
          rw [basename, hp]
          exact lastPart_append_seps (c :: comp) ss hw h2
        rw [hd, if_neg hc, normStack_dot, hb, hp]
        exact normStack_no_sep_append_seps a (c :: comp) ss hw h2
    · have hp : c :: t = (c :: pre) ++ sep :: (comp ++ ss) := by rw [e]; rfl
      have hb : basename (c :: t) = comp := by
        rw [basename, hp]
        exact lastPart_of_last_component (c :: pre) comp ss h0 h1 h2
      have hd : dirname (c :: t)
          = if c = sep ∧ pre.reverse = [] then [47, 47] else c :: pre.reverse.reverse := by
        rw [dirname, e, dirname_scan_slash pre comp ss h0 h1 h2]
      rw [hd, hb, hp, normStack_append_last a (c :: pre) comp ss h1 h2]
      by_cases hcp : c = sep ∧ pre.reverse = []
      · rw [if_pos hcp, normStack_double_root]
        have hpre : pre = [] := List.reverse_eq_nil_iff.1 hcp.2
        rw [hpre, hcp.1]
        have : normStack a [sep] = [] := normStack_root a
        rw [this]
      · rw [if_neg hcp, List.reverse_reverse]

theorem isAbsolute_dirname : ∀ p : Str, isAbsolute (dirname p) = isAbsolute p
  | [] => by decide
  | c :: t => by
    have hdot : ¬ 46 = sep := by decide
    unfold dirname
    simp only
    split
    · by_cases hc : c = sep
      · rw [if_pos hc, hc]; simp [isAbsolute, sep]
      · rw [if_neg hc]
        simp [isAbsolute, hc, hdot]
    · rename_i before _
      by_cases hcp : c = sep ∧ before = []
      · rw [if_pos hcp, hcp.1]; simp [isAbsolute, sep]
      · rw [if_neg hcp]
        simp [isAbsolute]

theorem dirname_ne_nil : ∀ p : Str, dirname p ≠ []
  | [] => by decide
  | c :: t => by
    unfold dirname
    simp only
    split
    · split <;> simp
    · split <;> simp

theorem basename_no_sep (p : Str) : sep ∉ basename p := lastPart_no_sep p

/-! ## `resolve` and `relative` -/

theorem isAbsolute_ne_nil (p : Str) (h : isAbsolute p = true) : p ≠ [] := by
  intro e
  rw [e] at h
  exact absurd h (by decide)

theorem normStack_append_singleton_sep (a : Bool) (p : Str) :
    normStack a (p ++ [sep]) = normStack a p := by
  rw [normStack, splitOnSep_append_singleton_sep, foldl_normStep_append_singleton, normStep_nil]
  rfl

theorem resolve_eq (cwd path : Str) (hcwd : isAbsolute cwd = true) (hp : path ≠ []) :
    resolve cwd path = sep :: joinSegs (resolvedStack cwd path).reverse := by
  have hc : cwd ≠ [] := isAbsolute_ne_nil cwd hcwd
  unfold resolve resolvedStack
  cases hab : isAbsolute path
  · have hl : resolveLoop [path, cwd] [] = (cwd ++ sep :: (path ++ [sep]), true) := by
      simp [resolveLoop, hp, hab, hc, hcwd]
    rw [hl]
    simp only [Bool.not_true, if_true, normalizeString, normSegments, Bool.false_eq_true,
      if_false]
    rw [normStack, splitOnSep_append_sep, List.foldl_append, splitOnSep_append_singleton_sep,
      foldl_normStep_append_singleton, normStep_nil]
    rfl
  · have hl : resolveLoop [path, cwd] [] = (path ++ [sep], true) := by
      simp [resolveLoop, hp, hab]
    rw [hl]
    simp only [Bool.not_true, if_true, normalizeString, normSegments]
    rw [normStack_append_singleton_sep]

theorem filter_splitOnSep_root (segs : List Str) (h : ∀ seg ∈ segs, seg ≠ [] ∧ sep ∉ seg) :
    (splitOnSep (sep :: joinSegs segs)).filter (fun seg => seg ≠ []) = segs := by
  have e : splitOnSep (sep :: joinSegs segs) = [] :: splitOnSep (joinSegs segs) := by
    rw [splitOnSep, if_pos rfl]
  rw [e]
  by_cases hs : segs = []
  · subst hs; decide
  · rw [splitOnSep_joinSegs segs hs (fun seg hm => (h seg hm).2)]
    rw [List.filter_cons_of_neg (by simp)]
    exact List.filter_eq_self.2 (fun seg hm => by simpa using (h seg hm).1)

theorem relSegs_self (l : List Str) : relSegs l l = [] := by
  simp [relSegs, commonPrefixLength_self]

theorem relSegs_append (w a b : List Str) : relSegs (w ++ a) (w ++ b) = relSegs a b := by
  unfold relSegs
  rw [commonPrefixLength_append, List.length_append, List.drop_append]
  congr 2
  omega

theorem good_sep_resolvedStack (cwd path : Str) :
    ∀ seg ∈ (resolvedStack cwd path).reverse, seg ≠ [] ∧ sep ∉ seg := by
  unfold resolvedStack
  split
  · exact good_sep_reverse _ (goodStack_normStack false path) (no_sep_normStack false path)
  · exact good_sep_reverse _
      (goodStack_foldl false _ _ (goodStack_normStack false cwd))
      (no_sep_foldl false _ _ (no_sep_normStack false cwd)
        (fun x hx => no_sep_of_mem_splitOnSep path x hx))

theorem relative_eq (cwd pathFrom pathTo : Str) (hcwd : isAbsolute cwd = true)
    (hf : pathFrom ≠ []) (ht : pathTo ≠ []) :
    relative cwd pathFrom pathTo
      = joinSegs (relSegs (resolvedStack cwd pathFrom).reverse
          (resolvedStack cwd pathTo).reverse) := by
  unfold relative
  by_cases h1 : pathFrom = pathTo
  · rw [if_pos h1, h1, relSegs_self]; rfl
  · rw [if_neg h1]
    simp only
    rw [resolve_eq cwd pathFrom hcwd hf, resolve_eq cwd pathTo hcwd ht]
    by_cases h2 : sep :: joinSegs (resolvedStack cwd pathFrom).reverse
        = sep :: joinSegs (resolvedStack cwd pathTo).reverse
    · rw [if_pos h2]
      have e := congrArg (fun x => (splitOnSep x).filter (fun seg => seg ≠ [])) h2
      simp only at e
      rw [filter_splitOnSep_root _ (good_sep_resolvedStack cwd pathFrom),
        filter_splitOnSep_root _ (good_sep_resolvedStack cwd pathTo)] at e
      rw [e, relSegs_self]; rfl
    · rw [if_neg h2, filter_splitOnSep_root _ (good_sep_resolvedStack cwd pathFrom),
        filter_splitOnSep_root _ (good_sep_resolvedStack cwd pathTo)]
      rfl

/-! ## The relative stylesheet reference leads back to the stylesheet -/

theorem buildPath_ne_nil (absolute trailing : Bool) (st : List Str) :
    buildPath absolute st trailing ≠ [] := by
  unfold buildPath
  by_cases hj : joinSegs st.reverse = []
  · rw [if_pos hj]
    cases absolute <;> cases trailing <;> simp
  · rw [if_neg hj]
    cases absolute <;> cases trailing <;> simp [hj]

theorem normalize_ne_nil (p : Str) : normalize p ≠ [] := by
  rw [normalize_eq_buildPath]
  exact buildPath_ne_nil _ _ _

theorem join_ne_nil (args : List Str) : join args ≠ [] := by
  unfold join
  split
  · simp
  · exact normalize_ne_nil _

/-- The stylesheet target computed by the program is `null` or a non-empty
path, never the empty string. -/
theorem getTargetCss_ne_empty (targetPath : Str) (css : Option Str) :
    getTargetCss targetPath css ≠ some [] := by
  unfold getTargetCss
  cases css with
  | none => simp
  | some c =>
    simp only
    split
    · intro e
      exact join_ne_nil _ (Option.some.inj e)
    · simp

theorem hasTrailingSep_buildPath_plain (st : List Str) (hg : GoodStack st)
    (hs : ∀ x ∈ st, sep ∉ x) : hasTrailingSep (buildPath false st false) = false := by
  unfold buildPath
  by_cases hj : joinSegs st.reverse = []
  · rw [if_pos hj]; decide
  · rw [if_neg hj]
    simpa using hasTrailingSep_joinSegs st.reverse (good_sep_reverse st hg hs)

/-- What `normalize` does to a relative path without trailing slash, seen
through the components of the result. -/
theorem normalize_relative (m : Bool) (st : List Str) (J : Str)
    (hJ : isAbsolute J = false) (hT : hasTrailingSep J = false) :
    (splitOnSep (normalize J)).foldl (normStep m) st = (splitOnSep J).foldl (normStep m) st ∧
    normalize J ≠ [] ∧ isAbsolute (normalize J) = false ∧
    hasTrailingSep (normalize J) = false := by
  have hg := goodStack_normStack true J
  have hs := no_sep_normStack true J
  have e : normalize J = buildPath false (normStack true J) false := by
    rw [normalize_eq_buildPath, hJ, hT]; rfl
  rw [e]
  refine ⟨?_, buildPath_ne_nil _ _ _, isAbsolute_buildPath _ _ _ hg hs,
    hasTrailingSep_buildPath_plain _ hg hs⟩
  rw [foldl_splitOnSep_buildPath _ _ _ _ _ hg hs]
  exact foldl_normStep_normal_form m st (splitOnSep J)

theorem isAbsolute_of_no_sep (seg : Str) (h : sep ∉ seg) : isAbsolute seg = false := by
  cases seg with
  | nil => rfl
  | cons c t =>
    have hc : c ≠ sep := fun e => h (by simp [e])
    simp [isAbsolute, hc]

theorem isAbsolute_append (x y : Str) (hx : x ≠ []) : isAbsolute (x ++ y) = isAbsolute x := by
  cases x with
  | nil => exact absurd rfl hx
  | cons c t => rfl

theorem hasTrailingSep_append_sep_cons (x y : Str) (hy : y ≠ []) :
    hasTrailingSep (x ++ sep :: y) = hasTrailingSep y := by
  unfold hasTrailingSep
  rw [getLast?_append_sep_cons x y hy]

/-- The components of `join(R, b)` for a relative reference `R` and a last
component `b`: those of `R` followed by `b`. -/
theorem join_relative_basename (m : Bool) (st : List Str) (segs : List Str) (b : Str)
    (hsegs : ∀ seg ∈ segs, seg ≠ [] ∧ sep ∉ seg) (hb : sep ∉ b) :
    (splitOnSep (join [joinSegs segs, b])).foldl (normStep m) st
        = normStep m (segs.foldl (normStep m) st) b ∧
    join [joinSegs segs, b] ≠ [] ∧ isAbsolute (join [joinSegs segs, b]) = false ∧
    hasTrailingSep (join [joinSegs segs, b]) = false := by
  by_cases hR : joinSegs segs = []
  · have hsn : segs = [] := joinSegs_eq_nil segs (fun seg h => (hsegs seg h).1) hR
    subst hsn
    by_cases hbn : b = []
    · subst hbn
      refine ⟨?_, by decide, by decide, by decide⟩
      have : join [joinSegs [], ([] : Str)] = [46] := by decide
      rw [this]
      simp [splitOnSep, normStep, dot, sep]
    · have hj : join [joinSegs [], b] = normalize b := by
        simp [join, joinSegs, hbn]
      rw [hj]
      obtain ⟨h1, h2, h3, h4⟩ := normalize_relative m st b (isAbsolute_of_no_sep b hb)
        (hasTrailingSep_of_no_sep b hb)
      refine ⟨?_, h2, h3, h4⟩
      rw [h1, splitOnSep_of_no_sep b hb]
      rfl
  · have hsn : segs ≠ [] := fun e => hR (by rw [e]; rfl)
    have hsp := splitOnSep_joinSegs segs hsn (fun seg h => (hsegs seg h).2)
    have hRa := isAbsolute_joinSegs segs hsegs
    have hRt := hasTrailingSep_joinSegs segs hsegs
    by_cases hbn : b = []
    · subst hbn
      have hj : join [joinSegs segs, []] = normalize (joinSegs segs) := by
        simp [join, joinSegs, hR]
      rw [hj]
      obtain ⟨h1, h2, h3, h4⟩ := normalize_relative m st (joinSegs segs) hRa hRt
      refine ⟨?_, h2, h3, h4⟩
      rw [h1, hsp, normStep_nil]
    · have hj : join [joinSegs segs, b] = normalize (joinSegs segs ++ sep :: b) := by
        simp [join, joinSegs, hR, hbn]
      rw [hj]
      obtain ⟨h1, h2, h3, h4⟩ := normalize_relative m st (joinSegs segs ++ sep :: b)
        (by rw [isAbsolute_append _ _ hR]; exact hRa)
        (by rw [hasTrailingSep_append_sep_cons _ _ hbn]; exact hasTrailingSep_of_no_sep b hb)
      refine ⟨?_, h2, h3, h4⟩
      rw [h1, splitOnSep_append_sep, hsp, splitOnSep_of_no_sep b hb,
        foldl_normStep_append_singleton]

theorem good_sep_relSegs (a b : List Str)
    (hb : ∀ seg ∈ b, seg ≠ [] ∧ sep ∉ seg) : ∀ seg ∈ relSegs a b, seg ≠ [] ∧ sep ∉ seg := by
  intro seg h
  unfold relSegs at h
  rcases List.mem_append.1 h with h1 | h1
  · rw [(List.mem_replicate.1 h1).2]
    exact ⟨dotdot_ne_nil, by decide⟩
  · exact hb seg (List.mem_of_mem_drop h1)

theorem join_dirname (d x : Str) (hd : d ≠ []) (hx : x ≠ []) :
    join [d, x] = normalize (d ++ sep :: x) := by
  simp [join, joinSegs, hd, hx]

theorem normStep_true_shape (st : List Str) (seg : Str)
    (h : ∃ (P : List Str) (a : Nat), st = P ++ List.replicate a dotdot ∧ dotdot ∉ P) :
    ∃ (P : List Str) (a : Nat), normStep true st seg = P ++ List.replicate a dotdot ∧ dotdot ∉ P := by
  obtain ⟨P, a, e, hP⟩ := h
  by_cases h1 : seg = [] ∨ seg = dot
  · have e1 : normStep true st seg = st := by
      rcases h1 with e1 | e1
      · rw [e1]; exact normStep_nil true st
      · rw [e1]; exact normStep_dot true st
    exact ⟨P, a, by rw [e1, e], hP⟩
  · have hx1 : seg ≠ [] := fun e => h1 (Or.inl e)
    have hx2 : seg ≠ dot := fun e => h1 (Or.inr e)
    by_cases h2 : seg = dotdot
    · subst h2
      cases P with
      | nil =>
        refine ⟨[], a + 1, ?_, by simp⟩
        rw [e]
        cases a with
        | zero => simp [normStep, dotdot_ne_nil, dotdot_ne_dot]
        | succ a =>
          simp [normStep, dotdot_ne_nil, dotdot_ne_dot, List.replicate_succ]
      | cons top P2 =>
        have h3 : top ≠ dotdot := fun e3 => hP (by simp [e3])
        refine ⟨P2, a, ?_, fun hm => hP (List.mem_cons_of_mem _ hm)⟩
        rw [e, List.cons_append, normStep_pop true top _ h3]
    · refine ⟨seg :: P, a, ?_, ?_⟩
      · rw [normStep_push true st seg hx1 hx2 h2, e]; rfl
      · intro hm
        rcases List.mem_cons.1 hm with e3 | e3
        · exact h2 e3.symm
        · exact hP e3

theorem foldl_normStep_true_shape (xs : List Str) :
    ∃ (P : List Str) (a : Nat),
      xs.foldl (normStep true) [] = P ++ List.replicate a dotdot ∧ dotdot ∉ P := by
  induction xs using List.reverseRecOn with
  | nil => exact ⟨[], 0, rfl, by simp⟩
  | append_singleton l x ih =>
    rw [foldl_normStep_append_singleton]
    exact normStep_true_shape _ x ih

/-- The normal form of a relative path: `..` components, as many as the path
climbs, followed by ordinary names. -/
theorem normStack_true_shape (p : Str) :
    ∃ P : List Str, normStack true p = P ++ List.replicate (climb p) dotdot ∧ PlainSegs P := by
  obtain ⟨P, a, e, hP⟩ := foldl_normStep_true_shape (splitOnSep p)
  have hc : climb p = a := by
    unfold climb normSegments normStack
    rw [e, List.count_reverse, List.count_append, List.count_replicate_self,
      List.count_eq_zero_of_not_mem hP]
    omega
  refine ⟨P, ?_, ?_⟩
  · rw [hc]; exact e
  · have hg := goodStack_normStack true p
    intro seg hs
    have hm : seg ∈ normStack true p := by
      unfold normStack; rw [e]; exact List.mem_append_left _ hs
    exact ⟨(hg seg hm).1, (hg seg hm).2, fun e3 => hP (e3 ▸ hs)⟩

theorem foldl_normStep_false_pops : ∀ (a : Nat) (W : List Str), dotdot ∉ W →
    (List.replicate a dotdot).foldl (normStep false) W = W.drop a
  | 0, _, _ => rfl
  | a + 1, [], _ => by
    rw [List.replicate_succ, List.foldl_cons]
    have e : normStep false [] dotdot = [] := by
      simp [normStep, dotdot_ne_nil, dotdot_ne_dot]
    rw [e, foldl_normStep_false_pops a [] (by simp)]
    simp
  | a + 1, top :: W, h => by
    have h3 : top ≠ dotdot := fun e => h (by simp [e])
    rw [List.replicate_succ, List.foldl_cons, normStep_pop false top W h3,
      foldl_normStep_false_pops a W (fun hm => h (List.mem_cons_of_mem _ hm))]
    rfl

/-- The pops of a reference that climbs: `p` components `..` processed on a
stack in normal form remove its ordinary names, then pile up. -/
theorem foldl_normStep_climb : ∀ (p : Nat) (P : List Str) (a : Nat), dotdot ∉ P →
    (List.replicate p dotdot).foldl (normStep true) (P ++ List.replicate a dotdot)
      = P.drop p ++ List.replicate (a + (p - P.length)) dotdot
  | 0, P, a, _ => by simp
  | p + 1, [], a, _ => by
    have e : normStep true (List.replicate a dotdot) dotdot = List.replicate (a + 1) dotdot := by
      cases a with
      | zero => simp [normStep, dotdot_ne_nil, dotdot_ne_dot]
      | succ a => simp [normStep, dotdot_ne_nil, dotdot_ne_dot, List.replicate_succ]
    rw [List.replicate_succ, List.foldl_cons, List.nil_append, e]
    have := foldl_normStep_climb p [] (a + 1) (by simp)
    rw [List.nil_append] at this
    rw [this]
    simp only [List.drop_nil, List.length_nil, List.nil_append, Nat.sub_zero]
    congr 1
    omega
  | p + 1, top :: P, a, h => by
    have h3 : top ≠ dotdot := fun e => h (by simp [e])
    rw [List.replicate_succ, List.foldl_cons, List.cons_append, normStep_pop true top _ h3,
      foldl_normStep_climb p P a (fun hm => h (List.mem_cons_of_mem _ hm))]
    simp

/-- The components `..`, ..., `..`, then the components of `to` past the
common leading part, take the stack of `from` to the stack of `to`, whatever
lies below. -/
theorem foldl_normStep_relative_base (m : Bool) (fromSegs toSegs base : List Str)
    (hF : PlainSegs fromSegs) (hT : PlainSegs toSegs) :
    (relSegs fromSegs toSegs).foldl (normStep m) (fromSegs.reverse ++ base)
      = toSegs.reverse ++ base := by
  unfold relSegs
  obtain ⟨h1, h2⟩ := commonPrefixLength_spec fromSegs toSegs
  generalize commonPrefixLength fromSegs toSegs = k at h1 h2 ⊢
  have hrev : fromSegs.reverse ++ base
      = (fromSegs.drop k).reverse ++ ((fromSegs.take k).reverse ++ base) := by
    rw [← List.append_assoc, ← List.reverse_append, List.take_append_drop]
  have hlen : fromSegs.length - k = (fromSegs.drop k).reverse.length := by simp
  have hnd : dotdot ∉ (fromSegs.drop k).reverse := by
    intro hm
    exact (hF dotdot (List.mem_of_mem_drop (List.mem_reverse.1 hm))).2.2 rfl
  rw [List.foldl_append, hrev, hlen, foldl_normStep_pops m _ _ hnd,
    foldl_normStep_pushes m _ _ (fun seg hs => hT seg (List.mem_of_mem_drop hs)), h1,
    ← List.append_assoc, ← List.reverse_append, List.take_append_drop]

/-- The stack a relative reference leads to from a stack in normal form. -/
theorem relSegs_action (a : Nat) (P F t : List Str) (hP : dotdot ∉ P) (ht : PlainSegs t) :
    (relSegs (F ++ P.reverse) t).foldl (normStep true) (P ++ List.replicate a dotdot)
      = (t.drop (commonPrefixLength (F ++ P.reverse) t)).reverse
        ++ (P.drop ((F ++ P.reverse).length - commonPrefixLength (F ++ P.reverse) t)
          ++ List.replicate
            (a + ((F ++ P.reverse).length - commonPrefixLength (F ++ P.reverse) t - P.length))
            dotdot) := by
  unfold relSegs
  rw [List.foldl_append, foldl_normStep_climb _ P a hP,
    foldl_normStep_pushes true _ _ (fun seg hs => ht seg (List.mem_of_mem_drop hs))]

theorem count_dotdot_relSegs_action (a : Nat) (P F t : List Str) (hP : dotdot ∉ P)
    (ht : PlainSegs t) :
    ((relSegs (F ++ P.reverse) t).foldl (normStep true)
        (P ++ List.replicate a dotdot)).count dotdot
      = a + ((F ++ P.reverse).length - commonPrefixLength (F ++ P.reverse) t - P.length) := by
  rw [relSegs_action a P F t hP ht, List.count_append, List.count_append,
    List.count_replicate_self, List.count_reverse,
    List.count_eq_zero_of_not_mem (fun hm => (ht dotdot (List.mem_of_mem_drop hm)).2.2 rfl),
    List.count_eq_zero_of_not_mem (fun hm => hP (List.mem_of_mem_drop hm))]
  omega

theorem commonPrefixLength_eq_zero_iff (u : Str) (x y : List Str) :
    commonPrefixLength (u :: x) y = 0 ↔ y.head? ≠ some u := by
  cases y with
  | nil => simp [commonPrefixLength]
  | cons v y =>
    by_cases h : u = v
    · simp [commonPrefixLength, h]
    · simp only [commonPrefixLength, if_neg h, List.head?_cons, true_iff]
      intro e
      exact h (Option.some.inj e).symm

/-- The leading components of the working directory left when climbing `a`
levels are those left when climbing `b > a` levels, followed by the
components in between. -/
theorem take_climb (Wr : List Str) (a b : Nat) (hab : a < b) :
    ∃ U : List Str, Wr.take (Wr.length - a) = Wr.take (Wr.length - b) ++ U ∧
      U.length ≤ b - a ∧ (U.length = b - a ↔ b ≤ Wr.length) ∧
      (b ≤ Wr.length → U.head? = Wr[Wr.length - b]?) := by
  refine ⟨(Wr.drop (Wr.length - b)).take ((Wr.length - a) - (Wr.length - b)), ?_, ?_, ?_, ?_⟩
  · rw [← List.take_add]
    congr 1
    omega
  · rw [List.length_take, List.length_drop]
    omega
  · rw [List.length_take, List.length_drop]
    omega
  · intro hb
    rw [List.head?_take, List.head?_drop, if_neg (by omega)]

theorem plainSegs_append (x y : List Str) (hx : PlainSegs x) (hy : PlainSegs y) :
    PlainSegs (x ++ y) := fun seg hs =>
  (List.mem_append.1 hs).elim (hx seg) (hy seg)

theorem plainSegs_take (x : List Str) (k : Nat) (hx : PlainSegs x) : PlainSegs (x.take k) :=
  fun seg hs => hx seg (List.mem_of_mem_take hs)

/-- From a directory that climbs `a` levels above the working directory to one
that climbs `b` levels: the relative reference leads from the normal form of
the first to the normal form of the second when `a = b`, and when `a < b`, the
working directory is at least `b` levels deep and the second directory does not
descend again into the directory it left last. -/
theorem climb_action_of_cond (Wr PA PB : List Str) (a b : Nat)
    (hPA : PlainSegs PA) (hPB : PlainSegs PB)
    (h : a = b ∨ (a < b ∧ b ≤ Wr.length ∧ PB.head? ≠ Wr[Wr.length - b]?)) :
    (relSegs (Wr.take (Wr.length - a) ++ PA) (Wr.take (Wr.length - b) ++ PB)).foldl
        (normStep true) (PA.reverse ++ List.replicate a dotdot)
      = PB.reverse ++ List.replicate b dotdot := by
  rcases h with h | ⟨hab, hb, hne⟩
  · subst h
    rw [relSegs_append, foldl_normStep_relative_base true PA PB _ hPA hPB]
  · obtain ⟨U, hU, _, hlen, hhead⟩ := take_climb Wr a b hab
    have hUl : U.length = b - a := hlen.2 hb
    rw [hU, List.append_assoc, relSegs_append]
    cases U with
    | nil => simp at hUl; omega
    | cons u U2 =>
      have hu : (u :: U2).head? = Wr[Wr.length - b]? := hhead hb
      rw [← hu] at hne
      have hk : commonPrefixLength (u :: U2 ++ PA) PB = 0 :=
        (commonPrefixLength_eq_zero_iff u (U2 ++ PA) PB).2 hne
      have hnd : dotdot ∉ PA.reverse :=
        fun hm => (hPA dotdot (List.mem_reverse.1 hm)).2.2 rfl
      have := relSegs_action a PA.reverse (u :: U2) PB hnd hPB
      rw [List.reverse_reverse] at this
      rw [this, hk, List.drop_zero, Nat.sub_zero,
        List.drop_eq_nil_of_le (by simp; omega), List.nil_append]
      congr 2
      simp only [List.length_append, List.length_reverse] at hUl ⊢
      omega

theorem cond_of_climb_action_count (Wr PA PB : List Str) (a b : Nat)
    (hPA : PlainSegs PA) (hPB : PlainSegs PB) (hW : PlainSegs Wr)
    (h : ((relSegs (Wr.take (Wr.length - a) ++ PA) (Wr.take (Wr.length - b) ++ PB)).foldl
        (normStep true) (PA.reverse ++ List.replicate a dotdot)).count dotdot = b) :
    a = b ∨ (a < b ∧ b ≤ Wr.length ∧ PB.head? ≠ Wr[Wr.length - b]?) := by
  have hnd : dotdot ∉ PA.reverse :=
    fun hm => (hPA dotdot (List.mem_reverse.1 hm)).2.2 rfl
  have hto : PlainSegs (Wr.take (Wr.length - b) ++ PB) :=
    plainSegs_append _ _ (plainSegs_take _ _ hW) hPB
  have hc := count_dotdot_relSegs_action a PA.reverse (Wr.take (Wr.length - a)) _ hnd hto
  rw [List.reverse_reverse] at hc
  rw [hc] at h
  rcases Nat.lt_trichotomy a b with hab | hab | hab
  · right
    obtain ⟨U, hU, hle, hlen, hhead⟩ := take_climb Wr a b hab
    rw [hU, List.append_assoc, commonPrefixLength_append] at h
    simp only [List.length_append, List.length_reverse] at h
    have hUl : U.length = b - a := by omega
    have hb : b ≤ Wr.length := hlen.1 hUl
    have hk : commonPrefixLength (U ++ PA) PB = 0 := by omega
    refine ⟨hab, hb, ?_⟩
    cases U with
    | nil => simp at hUl; omega
    | cons u U2 =>
      rw [← hhead hb]
      exact (commonPrefixLength_eq_zero_iff u (U2 ++ PA) PB).1 hk
  · exact Or.inl hab
  · omega

theorem plainSegs_normSegments_false (p : Str) : PlainSegs (normSegments false p) :=
  plainSegs_reverse _
    (plainSegs_of_good _ (goodStack_normStack false p) (no_dotdot_normStack_false p))

/-- The components of a relative path resolved in the working directory: the
leading components of the working directory that are left after the climb,
then the ordinary names of the path. -/
theorem resolvedStack_relative (cwd d : Str) (hd : isAbsolute d = false) :
    ∃ P : List Str, PlainSegs P ∧
      normStack true d = P.reverse ++ List.replicate (climb d) dotdot ∧
      normSegments true d = List.replicate (climb d) dotdot ++ P ∧
      (resolvedStack cwd d).reverse
        = (normSegments false cwd).take ((normSegments false cwd).length - climb d) ++ P := by
  obtain ⟨Ps, e, hPs⟩ := normStack_true_shape d
  refine ⟨Ps.reverse, plainSegs_reverse _ hPs, by rw [List.reverse_reverse]; exact e, ?_, ?_⟩
  · rw [normSegments, e, List.reverse_append, List.reverse_replicate]
  · have hW : dotdot ∉ normStack false cwd := no_dotdot_normStack_false cwd
    have e2 : resolvedStack cwd d = Ps ++ (normStack false cwd).drop (climb d) := by
      rw [resolvedStack, hd]
      simp only [Bool.false_eq_true, if_false]
      rw [← foldl_normStep_normal_form false (normStack false cwd) (splitOnSep d)]
      have e3 : (splitOnSep d).foldl (normStep true) [] = normStack true d := rfl
      rw [e3, e, List.reverse_append, List.reverse_replicate, List.foldl_append,
        foldl_normStep_false_pops _ _ hW,
        foldl_normStep_pushes false _ _ (plainSegs_reverse _ hPs), List.reverse_reverse]
    rw [e2, List.reverse_append, List.reverse_drop, normSegments, List.length_reverse]

/-- Relative paths: the reference leads from the normal form of the first
directory to that of the second exactly when the climbs agree. -/
theorem relative_action_relative (cwd O C : Str)
    (hO : isAbsolute (dirname O) = false) (hC : isAbsolute (dirname C) = false) :
    (ClimbsAgree cwd O C →
      (relSegs (resolvedStack cwd (dirname O)).reverse
          (resolvedStack cwd (dirname C)).reverse).foldl (normStep true)
          (normStack true (dirname O)) = normStack true (dirname C)) ∧
    (((relSegs (resolvedStack cwd (dirname O)).reverse
          (resolvedStack cwd (dirname C)).reverse).foldl (normStep true)
          (normStack true (dirname O))).count dotdot = climb (dirname C) →
      ClimbsAgree cwd O C) := by
  obtain ⟨PA, hPA, eA, _, rA⟩ := resolvedStack_relative cwd (dirname O) hO
  obtain ⟨PB, hPB, eB, sB, rB⟩ := resolvedStack_relative cwd (dirname C) hC
  have hhead : ((normSegments true (dirname C)).drop (climb (dirname C))).head? = PB.head? := by
    rw [sB, List.drop_left' (List.length_replicate _ _)]
  unfold ClimbsAgree
  rw [rA, rB, eA, eB, hhead]
  exact ⟨climb_action_of_cond _ PA PB _ _ hPA hPB,
    cond_of_climb_action_count _ PA PB _ _ hPA hPB (plainSegs_normSegments_false cwd)⟩

/-- Absolute paths: the reference always leads from the first directory to the
second. -/
theorem relative_action_absolute (cwd dO dC : Str)
    (hO : isAbsolute dO = true) (hC : isAbsolute dC = true) :
    (relSegs (resolvedStack cwd dO).reverse (resolvedStack cwd dC).reverse).foldl
        (normStep false) (normStack false dO) = normStack false dC := by
  have hA : PlainSegs (normStack false dO) :=
    plainSegs_of_good _ (goodStack_normStack false _) (no_dotdot_normStack_false _)
  have hB : PlainSegs (normStack false dC) :=
    plainSegs_of_good _ (goodStack_normStack false _) (no_dotdot_normStack_false _)
  rw [resolvedStack, resolvedStack, hO, hC]
  simp only [if_true]
  have := foldl_normStep_relative_base false _ _ [] (plainSegs_reverse _ hA)
    (plainSegs_reverse _ hB)
  rw [List.reverse_reverse, List.reverse_reverse, List.append_nil, List.append_nil] at this
  exact this

theorem count_dotdot_normStep (a : Bool) (st : List Str) (seg : Str) (h : seg ≠ dotdot) :
    (normStep a st seg).count dotdot = st.count dotdot := by
  by_cases h1 : seg = [] ∨ seg = dot
  · rcases h1 with e | e
    · rw [e, normStep_nil]
    · rw [e, normStep_dot]
  · rw [normStep_push a st seg (fun e => h1 (Or.inl e)) (fun e => h1 (Or.inr e)) h,
      List.count_cons_of_ne (fun e => h e.symm)]

theorem hasTrailingSep_buildPath_true (absolute : Bool) (st : List Str) :
    hasTrailingSep (buildPath absolute st true) = true := by
  unfold buildPath
  by_cases hj : joinSegs st.reverse = []
  · rw [if_pos hj]
    cases absolute <;> decide
  · rw [if_neg hj]
    simp [hasTrailingSep, sep]

theorem buildPath_root_of_trailing (absolute : Bool) (st : List Str)
    (hg : GoodStack st) (hs : ∀ x ∈ st, sep ∉ x)
    (h : hasTrailingSep (buildPath absolute st false) = true) :
    absolute = true ∧ joinSegs st.reverse = [] := by
  by_cases hj : joinSegs st.reverse = []
  · refine ⟨?_, hj⟩
    unfold buildPath at h
    rw [if_pos hj] at h
    cases absolute
    · exact absurd h (by decide)
    · rfl
  · have ht := hasTrailingSep_joinSegs st.reverse (good_sep_reverse st hg hs)
    unfold buildPath at h
    rw [if_neg hj] at h
    simp only [Bool.false_eq_true, if_false, List.append_nil] at h
    cases absolute
    · simp only [Bool.false_eq_true, if_false, List.nil_append] at h
      rw [ht] at h
      exact absurd h (by decide)
    · unfold hasTrailingSep at h ht
      simp only [if_true] at h
      rw [show [47] ++ joinSegs st.reverse = [] ++ sep :: joinSegs st.reverse from rfl,
        getLast?_append_sep_cons _ _ hj] at h
      rw [h] at ht
      exact absurd ht (by decide)

theorem buildPath_eq_root (absolute trailing : Bool) (st : List Str)
    (hg : GoodStack st) (hs : ∀ x ∈ st, sep ∉ x)
    (h : buildPath absolute st trailing = [47]) :
    absolute = true ∧ joinSegs st.reverse = [] := by
  have ha := isAbsolute_buildPath absolute trailing st hg hs
  rw [h] at ha
  have hab : absolute = true := by rw [← ha]; rfl
  refine ⟨hab, ?_⟩
  by_contra hj
  unfold buildPath at h
  rw [if_neg hj, hab] at h
  simp only [if_true] at h
  have := congrArg List.length h
  simp only [List.length_append, List.length_cons, List.length_nil] at this
  have hl : 0 < (joinSegs st.reverse).length := List.length_pos.2 hj
  omega

theorem buildPath_root (absolute trailing : Bool) (st : List Str) (ha : absolute = true)
    (hj : joinSegs st.reverse = []) : buildPath absolute st trailing = [47] := by
  unfold buildPath
  rw [if_pos hj, if_pos ha]

/-- Both sides of the round trip as built paths: the left one from the
components the reference leads to, the right one from the components of the
stylesheet path. -/
theorem roundtrip_sides (cwd O C : Str) (hcwd : isAbsolute cwd = true)
    (hkind : isAbsolute O = isAbsolute C) :
    normalize (join [dirname O, getRelativeCssFile cwd O C])
      = buildPath (isAbsolute O)
          (normStep (!isAbsolute O)
            ((relSegs (resolvedStack cwd (dirname O)).reverse
              (resolvedStack cwd (dirname C)).reverse).foldl (normStep (!isAbsolute O))
              (normStack (!isAbsolute O) (dirname O))) (basename C)) false ∧
    normalize C
      = buildPath (isAbsolute O)
          (normStep (!isAbsolute O) (normStack (!isAbsolute O) (dirname C)) (basename C))
          (hasTrailingSep C) ∧
    (∃ p : Str, normStep (!isAbsolute O)
            ((relSegs (resolvedStack cwd (dirname O)).reverse
              (resolvedStack cwd (dirname C)).reverse).foldl (normStep (!isAbsolute O))
              (normStack (!isAbsolute O) (dirname O))) (basename C)
          = normStack (!isAbsolute O) p) := by
  have hsegs := good_sep_relSegs (resolvedStack cwd (dirname O)).reverse _
    (good_sep_resolvedStack cwd (dirname C))
  have hR := relative_eq cwd (dirname O) (dirname C) hcwd (dirname_ne_nil O) (dirname_ne_nil C)
  obtain ⟨h1, h2, _, h4⟩ := join_relative_basename (!isAbsolute O)
    (normStack (!isAbsolute O) (dirname O)) _ (basename C) hsegs (basename_no_sep C)
  have hX : getRelativeCssFile cwd O C
      = join [joinSegs (relSegs (resolvedStack cwd (dirname O)).reverse
          (resolvedStack cwd (dirname C)).reverse), basename C] := by
    rw [getRelativeCssFile, hR]
  rw [← hX] at h1 h2 h4
  generalize getRelativeCssFile cwd O C = X at h1 h2 h4
  have hst : normStack (!isAbsolute O) (dirname O ++ sep :: X)
      = normStep (!isAbsolute O)
          ((relSegs (resolvedStack cwd (dirname O)).reverse
            (resolvedStack cwd (dirname C)).reverse).foldl (normStep (!isAbsolute O))
            (normStack (!isAbsolute O) (dirname O))) (basename C) := by
    rw [normStack, splitOnSep_append_sep, List.foldl_append]
    exact h1
  refine ⟨?_, ?_, ⟨dirname O ++ sep :: X, hst.symm⟩⟩
  · rw [join_dirname _ _ (dirname_ne_nil O) h2, normalize_normalize,
      normalize_eq_buildPath (dirname O ++ sep :: X),
      isAbsolute_append _ _ (dirname_ne_nil O), isAbsolute_dirname,
      hasTrailingSep_append_sep_cons _ _ h2, h4, hst]
  · rw [normalize_eq_buildPath C, ← hkind, ← normStack_dirname_basename]

/-- A stack in normal form is recovered from its components. -/
theorem foldl_reverse_normStack_true (p : Str) :
    (normStack true p).reverse.foldl (normStep true) [] = normStack true p :=
  foldl_normStep_normal_form true [] (splitOnSep p)

theorem buildPath_normStack_true_inj (p q : Str) (t1 t2 : Bool)
    (h : buildPath false (normStack true p) t1 = buildPath false (normStack true q) t2) :
    normStack true p = normStack true q := by
  have e := congrArg (fun x => (splitOnSep x).foldl (normStep true) []) h
  simp only at e
  rw [foldl_splitOnSep_buildPath _ _ _ _ _ (goodStack_normStack true p) (no_sep_normStack true p),
    foldl_splitOnSep_buildPath _ _ _ _ _ (goodStack_normStack true q) (no_sep_normStack true q),
    foldl_reverse_normStack_true, foldl_reverse_normStack_true] at e
  exact e

/-- The round trip of the relative stylesheet reference, characterised. -/
theorem relativeCss_roundtrip_iff (cwd O C : Str) (hcwd : isAbsolute cwd = true)
    (hkind : isAbsolute O = isAbsolute C) :
    ((hasTrailingSep C = false ∨ normalize C = [47]) ∧
        (isAbsolute O = true ∨ ClimbsAgree cwd O C) →
      normalize (join [dirname O, getRelativeCssFile cwd O C]) = normalize C) ∧
    (basename C ≠ dotdot →
      normalize (join [dirname O, getRelativeCssFile cwd O C]) = normalize C →
      (hasTrailingSep C = false ∨ normalize C = [47]) ∧
        (isAbsolute O = true ∨ ClimbsAgree cwd O C)) := by
  obtain ⟨hL, hRt, p, hp⟩ := roundtrip_sides cwd O C hcwd hkind
  have hdO := isAbsolute_dirname O
  have hdC := isAbsolute_dirname C
  rw [← hkind] at hdC
  have hgC : GoodStack (normStep (!isAbsolute O) (normStack (!isAbsolute O) (dirname C))
      (basename C)) := by
    rw [← normStack_dirname_basename]; exact goodStack_normStack _ _
  have hsC : ∀ x ∈ normStep (!isAbsolute O) (normStack (!isAbsolute O) (dirname C))
      (basename C), sep ∉ x := by
    rw [← normStack_dirname_basename]; exact no_sep_normStack _ _
  constructor
  · rintro ⟨htr, hcl⟩
    have hS : (relSegs (resolvedStack cwd (dirname O)).reverse
        (resolvedStack cwd (dirname C)).reverse).foldl (normStep (!isAbsolute O))
        (normStack (!isAbsolute O) (dirname O)) = normStack (!isAbsolute O) (dirname C) := by
      cases hO : isAbsolute O
      · rw [hO] at hdO hdC
        rcases hcl with h | h
        · rw [hO] at h; exact absurd h (by decide)
        · exact (relative_action_relative cwd O C hdO hdC).1 h
      · rw [hO] at hdO hdC
        exact relative_action_absolute cwd _ _ hdO hdC
    rw [hL, hRt, hS]
    rcases htr with h | h
    · rw [h]
    · rw [hRt] at h
      obtain ⟨ha, hj⟩ := buildPath_eq_root _ _ _ hgC hsC h
      rw [buildPath_root _ _ _ ha hj, buildPath_root _ _ _ ha hj]
  · intro hb hrt
    rw [hL, hRt] at hrt
    constructor
    · cases htr : hasTrailingSep C
      · exact Or.inl rfl
      · right
        rw [htr] at hrt
        have h1 : hasTrailingSep (buildPath (isAbsolute O)
            (normStep (!isAbsolute O)
              ((relSegs (resolvedStack cwd (dirname O)).reverse
                (resolvedStack cwd (dirname C)).reverse).foldl (normStep (!isAbsolute O))
                (normStack (!isAbsolute O) (dirname O))) (basename C)) false) = true := by
          rw [hrt]; exact hasTrailingSep_buildPath_true _ _
        rw [hp] at h1 hrt
        obtain ⟨ha, hj⟩ := buildPath_root_of_trailing _ _ (goodStack_normStack _ _)
          (no_sep_normStack _ _) h1
        rw [hRt, htr, ← hrt, buildPath_root _ _ _ ha hj]
    · cases hO : isAbsolute O
      · right
        rw [hO] at hdO hdC hrt hp
        simp only [Bool.not_false] at hrt hp
        rw [hO] at hL
        have e := normStack_dirname_basename true C
        rw [hp, ← e] at hrt
        have hst := buildPath_normStack_true_inj _ _ _ _ hrt
        rw [← hp, e] at hst
        have hc := congrArg (List.count dotdot) hst
        rw [count_dotdot_normStep _ _ _ hb, count_dotdot_normStep _ _ _ hb] at hc
        refine (relative_action_relative cwd O C hdO hdC).2 ?_
        rw [hc, climb, normSegments, List.count_reverse]
      · exact Or.inl rfl

/-! ## The spelling of the constants -/

/-- The code units written as numbers in the definitions spell the texts of
the program. -/
theorem constants_spelled :
    hrefOpen = utf16 "href=\"" ∧ adocClose = utf16 ".adoc\"" ∧
    htmlTemplate = utf16 "href=\"$1.html\"" ∧ htmlClose = utf16 ".html\"" ∧
    adocExt = utf16 ".adoc" ∧ dot = utf16 "." ∧ dotdot = utf16 ".." ∧
    [sep] = utf16 "/" ∧ [dollar] = utf16 "$" ∧ [ampersand] = utf16 "&" ∧
    [graveAccent] = utf16 "`" ∧ [apostropheChar] = utf16 "'" ∧
    [dquote] = utf16 "\"" ∧ [backslash] = utf16 "\\" ∧
    ([97, 100, 111, 99] : Str) = utf16 "adoc" ∧
    ([46, 104, 116, 109, 108] : Str) = utf16 ".html" ∧
    ([46, 47] : Str) = utf16 "./" ∧ ([47, 47] : Str) = utf16 "//" ∧
    isDigit 48 = true ∧ isDigit 57 = true ∧ isDigit 47 = false ∧ isDigit 58 = false := by
  decide

/-- The dot of `/.adoc$/` takes one code unit: after a character outside the
basic plane (here U+1D4B3, the surrogates 55349 and 56499) only the low
surrogate is replaced and the high surrogate stays. -/
theorem replaceAdocSuffix_after_surrogate_pair :
    replaceAdocSuffix (utf16 "out/" ++ [55349, 56499] ++ utf16 "adoc")
      = utf16 "out/" ++ [55349] ++ utf16 ".html" := by
  decide

/-! ## The checks of `test()` -/

/-- The three checks `test_GetOutputPath1`, `test_GetOutputPath2` and
`test_GetOutputPath3` of the program hold. -/
theorem getOutputPath_repository_tests :
    getOutputPath (utf16 ".\\test\\adoc-manual\\it-IT\\adoc\\test_1.adoc")
        (utf16 ".\\test\\adoc-manual") (utf16 ".\\test\\html-manual")
      = utf16 ".\\test\\html-manual\\it-IT\\adoc\\test_1.adoc" ∧
    getOutputPath (utf16 "test\\adoc-manual\\it-IT\\adoc\\test_1.adoc")
        (utf16 "test\\adoc-manual") (utf16 "test\\html-manual")
      = utf16 "test\\html-manual\\it-IT\\adoc\\test_1.adoc" ∧
    getOutputPath (utf16 "test\\adoc-manual\\it-IT\\adoc\\test_1.adoc")
        (utf16 "test") (utf16 "testTarget")
      = utf16 "testTarget\\adoc-manual\\it-IT\\adoc\\test_1.adoc" := by
  decide

/-- The embedding of `path.posix` agrees with the examples of Node's
documentation. -/
theorem path_posix_documented_examples :
    basename (utf16 "/foo/bar/baz/asdf/quux.html") = utf16 "quux.html" ∧
    dirname (utf16 "/foo/bar/baz/asdf/quux") = utf16 "/foo/bar/baz/asdf" ∧
    extname (utf16 "index.html") = utf16 ".html" ∧
    extname (utf16 "index.coffee.md") = utf16 ".md" ∧
    extname (utf16 "index.") = utf16 "." ∧
    extname (utf16 "index") = [] ∧
    extname (utf16 ".index") = [] ∧
    extname (utf16 ".index.md") = utf16 ".md" ∧
    normalize (utf16 "/foo/bar//baz/asdf/quux/..") = utf16 "/foo/bar/baz/asdf" ∧
    join [utf16 "/foo", utf16 "bar", (utf16 "baz/asdf"), utf16 "quux", (utf16 "..")]
      = utf16 "/foo/bar/baz/asdf" ∧
    resolve (utf16 "/home/myself/node") (utf16 "wwwroot/../static_files/gif/image.gif")
      = utf16 "/home/myself/node/static_files/gif/image.gif" ∧
    relative (utf16 "/w") (utf16 "/data/orandea/test/aaa") (utf16 "/data/orandea/impl/bbb")
      = utf16 "../../impl/bbb" := by
  decide

/-- The link substitution on markup with two links, on the nested fragment
`href="href="a.adoc"` and on a link whose path itself contains `.adoc`. -/
theorem retargetLinks_examples :
    retargetLinks (utf16 "<a href=\"other.adoc\">x</a> <a href=\"other.adoc#top\">y</a>")
      = utf16 "<a href=\"other.html\">x</a> <a href=\"other.adoc#top\">y</a>" ∧
    retargetLinks (utf16 "href=\"href=\"a.adoc\"") = utf16 "href=\"href=\"a.html\"" ∧
    retargetLinks (utf16 "href=\"a.adoc.adoc\"") = utf16 "href=\"a.adoc.html\"" := by
  decide

/-- Relative references between paths that climb above the working directory
`/home/w`: two paths that both climb one level, and a stylesheet path that
climbs one level from an output directory that climbs none; in both cases
joining the directory of the output file with the reference and normalising
gives the stylesheet path. -/
theorem relativeCss_climbing_examples :
    ClimbsAgree (utf16 "/home/w") (utf16 "../site/it-IT/adoc/a.html")
      (utf16 "../site/css/style.css") ∧
    getRelativeCssFile (utf16 "/home/w") (utf16 "../site/it-IT/adoc/a.html")
      (utf16 "../site/css/style.css") = utf16 "../../css/style.css" ∧
    normalize (join [dirname (utf16 "../site/it-IT/adoc/a.html"),
      getRelativeCssFile (utf16 "/home/w") (utf16 "../site/it-IT/adoc/a.html")
        (utf16 "../site/css/style.css")]) = utf16 "../site/css/style.css" ∧
    ClimbsAgree (utf16 "/home/w") (utf16 "site/a.html") (utf16 "../css/style.css") ∧
    getRelativeCssFile (utf16 "/home/w") (utf16 "site/a.html") (utf16 "../css/style.css")
      = utf16 "../../css/style.css" ∧
    normalize (join [dirname (utf16 "site/a.html"),
      getRelativeCssFile (utf16 "/home/w") (utf16 "site/a.html") (utf16 "../css/style.css")])
      = utf16 "../css/style.css" :=
  ⟨Or.inl (by decide), by decide, by decide,
    Or.inr ⟨by decide, by decide, by decide⟩, by decide, by decide⟩

/-- A stylesheet path whose last component is `..`: in `/w/v/u`, for the output
file `../../o.html` and the path `../..`, the directory of the output file
climbs two levels and that of the path one, and the round trip holds all the
same, because `basename` hands the last `..` to `join`. -/
theorem relativeCss_dotdot_basename_example :
    climb (dirname (utf16 "../../o.html")) = 2 ∧ climb (dirname (utf16 "../..")) = 1 ∧
    basename (utf16 "../..") = dotdot ∧
    normalize (join [dirname (utf16 "../../o.html"),
        getRelativeCssFile (utf16 "/w/v/u") (utf16 "../../o.html") (utf16 "../..")])
      = normalize (utf16 "../..") := by
  decide

/-! # The claims -/

/-- C1 (evaluation at the failing input): with source root `src` and
destination root `out$&`, `getOutputPath` maps `src/a.txt` to `outsrc/a.txt`,
because `$&` in the replacement text is expanded to the matched text; the
result is not the destination root followed by the remainder `/a.txt`. -/
theorem getOutputPath_dollar_pattern_expanded :
    getOutputPath (utf16 "src/a.txt") (utf16 "src") (utf16 "out$&") = utf16 "outsrc/a.txt" ∧
    getOutputPath ((utf16 "src") ++ (utf16 "/a.txt")) (utf16 "src") (utf16 "out$&")
      ≠ utf16 "out$&" ++ (utf16 "/a.txt") := by
  decide

/-- C2: for every list of pairs `(xi, ti)` and every `t0`, none of them
containing a double quote, the substitution of `adocToHtml` maps
`t0 ++ href="x1.adoc" ++ t1 ++ ... ++ href="xN.adoc" ++ tN` to the same text
with every `.adoc"` replaced by `.html"`: all links are rewritten, each `xi`
and the surrounding text are preserved. -/
theorem retargetLinks_rewrites_every_link (links : List (Str × Str)) (t0 : Str)
    (h0 : dquote ∉ t0) (hl : ∀ p ∈ links, dquote ∉ p.1 ∧ dquote ∉ p.2) :
    retargetLinks (linkedText adocClose t0 links) = linkedText htmlClose t0 links :=
  retargetLinks_linkedText links t0 h0 hl

/-- Witness for C2: two links `other.adoc` and `b/c.adoc` inside markup. -/
theorem retargetLinks_rewrites_every_link_witness :
    retargetLinks (utf16 "<a href=\"other.adoc\">x</a><a href=\"b/c.adoc\">y</a>")
      = utf16 "<a href=\"other.html\">x</a><a href=\"b/c.html\">y</a>" :=
  retargetLinks_rewrites_every_link
    [(utf16 "other", (utf16 ">x</a><a ")), (utf16 "b/c", (utf16 ">y</a>"))] (utf16 "<a ")
    (by decide) (by decide)

/-- C3: for every markup string `h`, the output of the substitution of
`adocToHtml` contains no text `href="` ++ `x` ++ `.adoc"` with `x` free of
double quotes, and the substitution is idempotent. -/
theorem retargetLinks_leaves_no_adoc_link (h : Str) :
    (∀ pre x post : Str, dquote ∉ x →
      retargetLinks h ≠ pre ++ hrefOpen ++ x ++ adocClose ++ post) ∧
    retargetLinks (retargetLinks h) = retargetLinks h :=
  ⟨fun pre x post hx => not_match_in_retargetLinks h pre x post hx,
    retargetLinks_of_noMatch _ (noMatch_retargetLinks h)⟩

/-- C7: `getOutputPath` is total; when `S` does not occur in `p` the result
is `p`; when the leftmost occurrence of `S` in `p` is `p = a ++ S ++ b`, the
result is `a`, then the expansion of the replacement text, then `b`: the text
before and after the first occurrence (later occurrences included) is kept,
and the expansion is `D` itself when `D` contains no `$`. -/
theorem getOutputPath_identity_or_first_only (p S D : Str) :
    (¬ S <:+: p → getOutputPath p S D = p) ∧
    (∀ a b : Str, p = a ++ S ++ b →
      (∀ a2 b2 : Str, p = a2 ++ S ++ b2 → a.length ≤ a2.length) →
      getOutputPath p S D = a ++ getSubstitution S a b [] D ++ b ∧
      (dollar ∉ D → getOutputPath p S D = a ++ D ++ b)) := by
  refine ⟨replaceString_of_absent p S D, fun a b h hfirst => ?_⟩
  have e := replaceString_of_first p S D a b h hfirst
  exact ⟨e, fun hD => by
    rw [getOutputPath, e, getSubstitution_of_no_dollar _ _ _ _ D hD]⟩

/-- Witness for C7: no occurrence of `src` in `lib/a.txt`; two occurrences of
`test` in `test/test_1.adoc`, of which only the first is replaced. -/
theorem getOutputPath_identity_or_first_only_witness :
    getOutputPath (utf16 "lib/a.txt") (utf16 "src") (utf16 "out") = utf16 "lib/a.txt" ∧
    getOutputPath (utf16 "test/test_1.adoc") (utf16 "test") (utf16 "testTarget")
      = utf16 "testTarget/test_1.adoc" :=
  ⟨(getOutputPath_identity_or_first_only (utf16 "lib/a.txt") (utf16 "src") (utf16 "out")).1
      (by decide),
    ((getOutputPath_identity_or_first_only (utf16 "test/test_1.adoc") (utf16 "test")
      (utf16 "testTarget")).2 [] (utf16 "/test_1.adoc") rfl (fun _ _ _ => Nat.zero_le _)).2
      (by decide)⟩

/-- C8 (counterexample): with `S = D = test` the mapping is the identity, so
it is idempotent on `test/test_1.adoc` although `S` occurs in the remainder
`/test_1.adoc`; the same happens for the destination root `$&`, which differs
from `S` and is expanded to the matched text. -/
theorem getOutputPath_idempotent_despite_recurrence :
    (getOutputPath (getOutputPath ((utf16 "test") ++ (utf16 "/test_1.adoc")) (utf16 "test")
        (utf16 "test")) (utf16 "test") (utf16 "test")
      = getOutputPath ((utf16 "test") ++ (utf16 "/test_1.adoc")) (utf16 "test") (utf16 "test") ∧
      (utf16 "test") <:+: (utf16 "/test_1.adoc")) ∧
    (getOutputPath (getOutputPath ((utf16 "test") ++ (utf16 "/test_1.adoc")) (utf16 "test")
        (utf16 "$&")) (utf16 "test") (utf16 "$&")
      = getOutputPath ((utf16 "test") ++ (utf16 "/test_1.adoc")) (utf16 "test") (utf16 "$&") ∧
      (utf16 "test") <:+: (utf16 "/test_1.adoc")) :=
  ⟨⟨by decide, ⟨[47], utf16 "_1.adoc", rfl⟩⟩, ⟨by decide, ⟨[47], utf16 "_1.adoc", rfl⟩⟩⟩

/-- C8 (amended): for `D` different from `S` and free of `$`, whenever `S`
occurs in the remainder `r`, applying the mapping a second time changes the
result; so the mapping is idempotent on `S ++ r` only if `S` does not recur
in `r`. -/
theorem getOutputPath_not_idempotent_of_recurrence (S D r : Str) (hD : dollar ∉ D)
    (hne : D ≠ S) (hocc : S <:+: r) :
    getOutputPath (getOutputPath (S ++ r) S D) S D ≠ getOutputPath (S ++ r) S D :=
  getOutputPath_twice_ne S D r hD hne hocc

/-- Witness for C8: `S = test`, `D = testTarget` and the path of
`test_GetOutputPath3`, in which `test` occurs twice. -/
theorem getOutputPath_not_idempotent_of_recurrence_witness :
    getOutputPath (getOutputPath
        ((utf16 "test") ++ (utf16 "\\adoc-manual\\it-IT\\adoc\\test_1.adoc"))
        (utf16 "test") (utf16 "testTarget")) (utf16 "test") (utf16 "testTarget")
      ≠ getOutputPath ((utf16 "test") ++ (utf16 "\\adoc-manual\\it-IT\\adoc\\test_1.adoc"))
        (utf16 "test") (utf16 "testTarget") :=
  getOutputPath_not_idempotent_of_recurrence (utf16 "test") (utf16 "testTarget")
    (utf16 "\\adoc-manual\\it-IT\\adoc\\test_1.adoc") (by decide) (by decide)
    ⟨(utf16 "\\adoc-manual\\it-IT\\adoc\\"), utf16 "_1.adoc", rfl⟩

/-- C4 (counterexample): two runs of `main` that the claim does not describe.
With source root `.` and destination root `out`, the matched document `a.adoc`
has the mapped path `aoutadoc`, which has no trailing `.adoc`, and is converted
to `aou.html`: the unescaped dot of `/.adoc$/` takes the `t`. With three
matched files of which the second call throws, the run performs two file
actions, not three, and does not reach the third file. -/
theorem main_dispatch_not_one_action_per_file :
    getOutputPath (utf16 "a.adoc") (utf16 ".") (utf16 "out") = utf16 "aoutadoc" ∧
    main (utf16 ".") (utf16 "out") none true (fun _ _ => false) [utf16 "a.adoc"]
      = { effects := [Effect.adocToHtml (utf16 "a.adoc") (utf16 "aou.html") none],
          completed := true } ∧
    main (utf16 "src") (utf16 "out") none true (fun i _ => decide (i = 1))
        [utf16 "src/a.png", utf16 "src/v1.0", utf16 "src/b.png"]
      = { effects := [Effect.copyFile (utf16 "src/a.png") (utf16 "out/a.png"),
            Effect.copyFile (utf16 "src/v1.0") (utf16 "out/v1.0")],
          completed := false } := by
  refine ⟨by decide, by decide, by decide⟩

/-- C4 (amended): for every list of matched files and whichever calls throw,
the run of `main` performs its file actions for the first files in enumeration
order, one per file, up to and including the first call that throws: at most
`n` actions; the run reaches the end of the list exactly when there are `n`
actions and none of them threw; every action but the last did not throw; and a
run that does not reach the end stopped at a last action that threw. The
`i`-th action performed concerns the `i`-th file `f`, and it is the conversion
`adocToHtml(f, target, targetCss)` when the extension of the base name of `f`
is exactly `.adoc`, and the copy `copyFile(f, mapped path)` otherwise, never
both and never neither; when the mapped path ends in `.adoc`, `target` is the
mapped path with that ending replaced by `.html`. -/
theorem main_dispatch_until_first_throw (S D : Str) (css : Option Str) (silent : Bool)
    (throws : Nat → Effect → Bool) (files : List Str) :
    (fileActions (main S D css silent throws files).effects).length ≤ files.length ∧
    ((main S D css silent throws files).completed = true ↔
      ((fileActions (main S D css silent throws files).effects).length = files.length ∧
        ∀ (i : Nat) (call : Effect),
          (fileActions (main S D css silent throws files).effects)[i]? = some call →
          throws i call = false)) ∧
    (∀ (i : Nat) (call : Effect),
      (fileActions (main S D css silent throws files).effects)[i]? = some call →
      i + 1 < (fileActions (main S D css silent throws files).effects).length →
      throws i call = false) ∧
    ((main S D css silent throws files).completed = false →
      ∃ call : Effect,
        (fileActions (main S D css silent throws files).effects).getLast? = some call ∧
        throws ((fileActions (main S D css silent throws files).effects).length - 1) call
          = true) ∧
    (∀ (i : Nat) (call : Effect),
      (fileActions (main S D css silent throws files).effects)[i]? = some call →
      ∃ f : Str, files[i]? = some f ∧
        ((extname (basename f) = adocExt ∧
          ∃ target : Str, call = Effect.adocToHtml f target css ∧
            ∀ u : Str, getOutputPath f S D = u ++ adocExt →
              target = u ++ [46, 104, 116, 109, 108]) ∨
         (extname (basename f) ≠ adocExt ∧
          call = Effect.copyFile f (getOutputPath f S D)))) :=
  main_run_spec S D css silent throws files

/-- Witness for C4: source root `src`, destination root `out`, no stylesheet,
and the matched files `src/a.adoc`, `src/x.ADOC`, `src/x.adoc.bak`, with no
call throwing. The run converts the first file to `out/a.html` and copies the
other two, and it reaches the end of the list. -/
theorem main_dispatch_until_first_throw_witness :
    main (utf16 "src") (utf16 "out") none true (fun _ _ => false)
        [utf16 "src/a.adoc", utf16 "src/x.ADOC", utf16 "src/x.adoc.bak"]
      = { effects := [Effect.adocToHtml (utf16 "src/a.adoc") (utf16 "out/a.html") none,
            Effect.copyFile (utf16 "src/x.ADOC") (utf16 "out/x.ADOC"),
            Effect.copyFile (utf16 "src/x.adoc.bak") (utf16 "out/x.adoc.bak")],
          completed := true } ∧
    ((main (utf16 "src") (utf16 "out") none true (fun _ _ => false)
        [utf16 "src/a.adoc", utf16 "src/x.ADOC", utf16 "src/x.adoc.bak"]).completed = true ↔
      ((fileActions (main (utf16 "src") (utf16 "out") none true (fun _ _ => false)
          [utf16 "src/a.adoc", utf16 "src/x.ADOC", utf16 "src/x.adoc.bak"]).effects).length
          = [utf16 "src/a.adoc", utf16 "src/x.ADOC", utf16 "src/x.adoc.bak"].length ∧
        ∀ (i : Nat) (call : Effect),
          (fileActions (main (utf16 "src") (utf16 "out") none true (fun _ _ => false)
            [utf16 "src/a.adoc", utf16 "src/x.ADOC", utf16 "src/x.adoc.bak"]).effects)[i]?
            = some call →
          (fun (_ : Nat) (_ : Effect) => false) i call = false)) :=
  ⟨by decide,
    (main_dispatch_until_first_throw (utf16 "src") (utf16 "out") none true (fun _ _ => false)
      [utf16 "src/a.adoc", utf16 "src/x.ADOC", utf16 "src/x.adoc.bak"]).2.1⟩

/-- C6 (counterexample): with source root `src` and destination root `out`,
the document `src/a.adoc` and the asset `src/a.html` are distinct matched paths
with prefix `src`, and `main` writes both to `out/a.html`. -/
theorem writtenPath_collision :
    ¬ (∀ S D p1 p2 : Str, S <+: p1 → S <+: p2 → p1 ≠ p2 →
      writtenPath S D p1 ≠ writtenPath S D p2) := by
  intro h
  exact h (utf16 "src") (utf16 "out") (utf16 "src/a.adoc") (utf16 "src/a.html")
    ⟨(utf16 "/a.adoc"), rfl⟩ ⟨(utf16 "/a.html"), rfl⟩ (by decide) (by decide)

/-- C6 (amended): for a destination root `D` without `$` and two distinct
matched paths `S ++ r1` and `S ++ r2` of the same kind (both with extension
`.adoc`, or both without), the paths written by `main` are distinct. -/
theorem writtenPath_injective_same_kind (S D r1 r2 : Str) (hD : dollar ∉ D) (hne : r1 ≠ r2)
    (hk : extname (basename (S ++ r1)) = adocExt ↔ extname (basename (S ++ r2)) = adocExt) :
    writtenPath S D (S ++ r1) ≠ writtenPath S D (S ++ r2) :=
  writtenPath_ne_of_same_kind S D r1 r2 hD hne hk

/-- Witness for C6: the documents `src/a.adoc` and `src/b.adoc`. -/
theorem writtenPath_injective_same_kind_witness :
    writtenPath (utf16 "src") (utf16 "out") ((utf16 "src") ++ (utf16 "/a.adoc"))
      ≠ writtenPath (utf16 "src") (utf16 "out") ((utf16 "src") ++ (utf16 "/b.adoc")) :=
  writtenPath_injective_same_kind (utf16 "src") (utf16 "out") (utf16 "/a.adoc") (utf16 "/b.adoc")
    (by decide) (by decide) (by decide)

/-- C9 (counterexample): a base option object with an own property named
`__proto__` (as `JSON.parse` creates it) is not cloned in full:
`Object.assign` assigns that key on the new object, where it reaches the setter
of `Object.prototype`, so the options passed to the engine lack it and differ
from the base, for a `null` stylesheet target. -/
theorem adocToHtml_clone_drops_proto_key :
    (adocToHtml (fun _ _ => []) (fun _ => []) (utf16 "/w")
      [[(utf16 "__proto__", Value.str (utf16 "x")), (utf16 "backend", Value.str (utf16 "html5"))]]
      0 (utf16 "src/a.adoc") (utf16 "out/a.html") none).options
      = [(utf16 "backend", Value.str (utf16 "html5"))] ∧
    (adocToHtml (fun _ _ => []) (fun _ => []) (utf16 "/w")
      [[(utf16 "__proto__", Value.str (utf16 "x")), (utf16 "backend", Value.str (utf16 "html5"))]]
      0 (utf16 "src/a.adoc") (utf16 "out/a.html") none).options
      ≠ readRef
        [[(utf16 "__proto__", Value.str (utf16 "x")), (utf16 "backend", Value.str (utf16 "html5"))]]
        0 := by
  decide

/-- C9 (amended): for every base option object `B` (the object referenced by
`config.adoc_params`): when `B` has no own property `__proto__`, the options
passed to the engine equal `B` for the stylesheet target `null`, and for a
stylesheet target that is a non-empty path `css` (the program passes no other
value) they equal `B` with the key `attributes` set to `linkcss stylesheet=`
followed by `getRelativeCssFile(targetFile, css)`, every other key unchanged;
and, whether or not `B` has such a property, after the call every object that
was on the heap before, `B` included, holds the same properties as before. -/
theorem adocToHtml_options_fresh_clone (convert : Str → Obj → Str)
    (readFileSync : Str → Str) (cwd : Str) (heap : Heap) (adocParams : Nat)
    (sourceFile targetFile : Str) (targetCss : Option Str)
    (href : adocParams < heap.length)
    (hkeys : ((readRef heap adocParams).map Prod.fst).Nodup) :
    (protoKey ∉ (readRef heap adocParams).map Prod.fst →
      (targetCss = none →
        (adocToHtml convert readFileSync cwd heap adocParams sourceFile targetFile
          targetCss).options = readRef heap adocParams) ∧
      (∀ css : Str, css ≠ [] → targetCss = some css →
        (adocToHtml convert readFileSync cwd heap adocParams sourceFile targetFile
          targetCss).options = setProp (readRef heap adocParams) attributesKey
            (Value.str (linkcssDirective ++ getRelativeCssFile cwd targetFile css)) ∧
        getProp (adocToHtml convert readFileSync cwd heap adocParams sourceFile targetFile
          targetCss).options attributesKey
            = some (Value.str (linkcssDirective ++ getRelativeCssFile cwd targetFile css)) ∧
        ∀ key : Str, key ≠ attributesKey →
          getProp (adocToHtml convert readFileSync cwd heap adocParams sourceFile targetFile
            targetCss).options key = getProp (readRef heap adocParams) key)) ∧
    readRef (adocToHtml convert readFileSync cwd heap adocParams sourceFile targetFile
      targetCss).heap adocParams = readRef heap adocParams ∧
    (∀ ref : Nat, ref < heap.length →
      readRef (adocToHtml convert readFileSync cwd heap adocParams sourceFile targetFile
        targetCss).heap ref = readRef heap ref) := by
  refine ⟨fun hproto => ⟨?_, ?_⟩, adocToHtml_heap_frame convert readFileSync cwd heap
    adocParams sourceFile targetFile targetCss adocParams href,
    fun ref h => adocToHtml_heap_frame convert readFileSync cwd heap adocParams sourceFile
      targetFile targetCss ref h⟩
  · intro hc
    subst hc
    exact adocToHtml_options_without_css convert readFileSync cwd heap adocParams sourceFile
      targetFile hkeys hproto
  · intro css hne hc
    subst hc
    have e := adocToHtml_options_with_css convert readFileSync cwd heap adocParams sourceFile
      targetFile css hkeys hproto hne
    refine ⟨e, ?_, ?_⟩
    · rw [e, getProp_setProp_self _ _ _ attributesKey_ne_protoKey]
    · intro key hk
      rw [e, getProp_setProp_other _ _ _ _ hk]

/-- Witness for C9: the base options of `config/service.js` and the second
conversion of `test()`; the options carry the directive
`linkcss stylesheet=../../css/style.css` and the base object is unchanged. -/
theorem adocToHtml_options_fresh_clone_witness :
    getProp (adocToHtml (fun _ _ => []) (fun _ => []) (utf16 "/w") [baseAdocParams] 0
      (utf16 "test/adoc-manual/it-IT/adoc/aggiungere_documenti.adoc")
      (utf16 "test/html-manual/it-IT/adoc/aggiungere_documenti.html")
      (some (utf16 "test/html-manual/css/style.css"))).options attributesKey
      = some (Value.str (utf16 "linkcss stylesheet=../../css/style.css")) ∧
    (adocToHtml (fun _ _ => []) (fun _ => []) (utf16 "/w") [baseAdocParams] 0
      (utf16 "test/adoc-manual/it-IT/adoc/aggiungere_documenti.adoc")
      (utf16 "test/html-manual/it-IT/adoc/aggiungere_documenti.html")
      none).options = baseAdocParams ∧
    readRef (adocToHtml (fun _ _ => []) (fun _ => []) (utf16 "/w") [baseAdocParams] 0
      (utf16 "test/adoc-manual/it-IT/adoc/aggiungere_documenti.adoc")
      (utf16 "test/html-manual/it-IT/adoc/aggiungere_documenti.html")
      (some (utf16 "test/html-manual/css/style.css"))).heap 0 = baseAdocParams :=
  have h := adocToHtml_options_fresh_clone (fun _ _ => []) (fun _ => []) (utf16 "/w")
    [baseAdocParams] 0 (utf16 "test/adoc-manual/it-IT/adoc/aggiungere_documenti.adoc")
    (utf16 "test/html-manual/it-IT/adoc/aggiungere_documenti.html")
    (some (utf16 "test/html-manual/css/style.css")) (by decide) (by decide)
  have h0 := adocToHtml_options_fresh_clone (fun _ _ => []) (fun _ => []) (utf16 "/w")
    [baseAdocParams] 0 (utf16 "test/adoc-manual/it-IT/adoc/aggiungere_documenti.adoc")
    (utf16 "test/html-manual/it-IT/adoc/aggiungere_documenti.html")
    none (by decide) (by decide)
  ⟨(((h.1 (by decide)).2 _ (by decide) rfl).2.1).trans (by decide),
    (h0.1 (by decide)).1 rfl, h.2.1⟩

/-- C10 (evaluation at the failing input): for the stylesheet option
`css\style.css` and the destination `out`, the stylesheet target is
`out/css\style.css`, and the reference computed for `out/a.html` is
`css\style.css`, which contains a backslash; `normalizePath` applied to it
gives `css/style.css`. -/
theorem getRelativeCssFile_keeps_backslash :
    getTargetCss (utf16 "out") (some ((utf16 "css") ++ [backslash] ++ (utf16 "style.css")))
      = some ((utf16 "out/css") ++ [backslash] ++ (utf16 "style.css")) ∧
    getRelativeCssFile (utf16 "/w") (utf16 "out/a.html")
      ((utf16 "out/css") ++ [backslash] ++ (utf16 "style.css"))
      = utf16 "css" ++ [backslash] ++ (utf16 "style.css") ∧
    backslash ∈ getRelativeCssFile (utf16 "/w") (utf16 "out/a.html")
      ((utf16 "out/css") ++ [backslash] ++ (utf16 "style.css")) ∧
    normalizePath (getRelativeCssFile (utf16 "/w") (utf16 "out/a.html")
      ((utf16 "out/css") ++ [backslash] ++ (utf16 "style.css"))) = utf16 "css/style.css" := by
  decide

/-- C5 (counterexample): four inputs, in the working directory `/w`, for which
joining the directory of the output file with the relative reference and
normalising does not give the normalised stylesheet path. For the relative
output file `../o.html` and the stylesheet `c.css` it gives `../w/c.css`: the
output directory climbs above the working directory and the stylesheet's does
not. For `o.html` and `../w/c.css` it gives `c.css`: the stylesheet path climbs
out of the working directory and comes back into it. For `o.html` and
`../../c.css` it gives `../c.css`: the stylesheet path climbs above the root.
For the absolute output file `/o.html` and the stylesheet path `/a/b/` it
gives `/a/b`, while `normalize` keeps the trailing slash of `/a/b/`. -/
theorem relativeCss_roundtrip_fails :
    (normalize (join [dirname (utf16 "../o.html"),
        getRelativeCssFile (utf16 "/w") (utf16 "../o.html") (utf16 "c.css")])
        = utf16 "../w/c.css" ∧
      normalize (utf16 "c.css") = utf16 "c.css") ∧
    (normalize (join [dirname (utf16 "o.html"),
        getRelativeCssFile (utf16 "/w") (utf16 "o.html") (utf16 "../w/c.css")])
        = utf16 "c.css" ∧
      normalize (utf16 "../w/c.css") = utf16 "../w/c.css") ∧
    (normalize (join [dirname (utf16 "o.html"),
        getRelativeCssFile (utf16 "/w") (utf16 "o.html") (utf16 "../../c.css")])
        = utf16 "../c.css" ∧
      normalize (utf16 "../../c.css") = utf16 "../../c.css") ∧
    (normalize (join [dirname (utf16 "/o.html"),
        getRelativeCssFile (utf16 "/w") (utf16 "/o.html") (utf16 "/a/b/")]) = utf16 "/a/b" ∧
      normalize (utf16 "/a/b/") = utf16 "/a/b/") := by
  decide

/-- C5 (amended): in an absolute working directory, for an output file path
`O` and a stylesheet path `C` that are both absolute or both relative, joining
the directory of `O` with `getRelativeCssFile(O, C)` and normalising gives
`normalize(C)` whenever `C` does not end in a slash or normalises to the root
`/`, and the paths are absolute or the climbs of their directories agree
(`ClimbsAgree`: `dirname(O)` and `dirname(C)` keep equally many `..`
components when normalised, or `dirname(C)` keeps more, `b`, the working
directory is at least `b` levels deep and `dirname(C)` does not go back down
into the directory it left last). Conversely, when the last component of `C`
is not `..`, the round trip holds only under these conditions. -/
theorem relativeCss_leads_back_to_stylesheet (cwd O C : Str) (hcwd : isAbsolute cwd = true)
    (hkind : isAbsolute O = isAbsolute C) :
    ((hasTrailingSep C = false ∨ normalize C = [47]) ∧
        (isAbsolute O = true ∨ ClimbsAgree cwd O C) →
      normalize (join [dirname O, getRelativeCssFile cwd O C]) = normalize C) ∧
    (basename C ≠ dotdot →
      normalize (join [dirname O, getRelativeCssFile cwd O C]) = normalize C →
      (hasTrailingSep C = false ∨ normalize C = [47]) ∧
        (isAbsolute O = true ∨ ClimbsAgree cwd O C)) :=
  relativeCss_roundtrip_iff cwd O C hcwd hkind

/-- Witness for C5: the output file and the stylesheet of `test()`, in the
working directory `/w`, with the reference `../../css/style.css`; both
directories climb no level. -/
theorem relativeCss_leads_back_to_stylesheet_witness :
    getRelativeCssFile (utf16 "/w")
        (utf16 "test/html-manual/it-IT/adoc/aggiungere_documenti.html")
        (utf16 "test/html-manual/css/style.css") = utf16 "../../css/style.css" ∧
    isAbsolute (utf16 "/w") = true ∧
    isAbsolute (utf16 "test/html-manual/it-IT/adoc/aggiungere_documenti.html")
      = isAbsolute (utf16 "test/html-manual/css/style.css") ∧
    hasTrailingSep (utf16 "test/html-manual/css/style.css") = false ∧
    ClimbsAgree (utf16 "/w") (utf16 "test/html-manual/it-IT/adoc/aggiungere_documenti.html")
      (utf16 "test/html-manual/css/style.css") ∧
    normalize (join [dirname (utf16 "test/html-manual/it-IT/adoc/aggiungere_documenti.html"),
      getRelativeCssFile (utf16 "/w")
        (utf16 "test/html-manual/it-IT/adoc/aggiungere_documenti.html")
        (utf16 "test/html-manual/css/style.css")])
      = normalize (utf16 "test/html-manual/css/style.css") :=
  ⟨by decide, by decide, by decide, by decide, Or.inl (by decide),
    (relativeCss_leads_back_to_stylesheet (utf16 "/w")
      (utf16 "test/html-manual/it-IT/adoc/aggiungere_documenti.html")
      (utf16 "test/html-manual/css/style.css") (by decide) (by decide)).1
      ⟨Or.inl (by decide), Or.inr (Or.inl (by decide))⟩⟩

end AdoConverter
